import Mathlib

/-!
Verification of the `chrn` changelog generator (`main.go`) against its
natural-language specification.

The Go source is shallowly embedded below.  Pure helpers become Lean
functions with the same names; the imperative array sort
(`sort.Sort` from the Go standard library, as it stood in the Go releases
contemporary with this repository, i.e. before the 1.19 rewrite) is
embedded index-for-index over `Array`; the effectful command body
(`rootCmd.Run`) is embedded as a function over an explicit environment of
GitHub-API oracles plus the state of the output file.

Repository code that is referenced by `main.go` but whose file is not part
of the sources given here (`PR`, `ByLabel`, `ContainsString`, `fetchLabel`
and the `GithubClient` wrappers) is modelled from the specification; each
such definition carries a doc comment saying so.
-/

/-! ## Go integer formatting (`fmt.Sprintf` verbs `%d` and `%02d` on non-negative values) -/

/-- Decimal digit character for `n < 10`. -/
def digitChar (n : Nat) : Char :=
  Char.ofNat (48 + n)

/-- Decimal representation of a natural number, as produced by Go's
`fmt.Sprintf("%d", n)` for non-negative `n` (no padding, no sign). -/
def decRepr (n : Nat) : String :=
  (go (n + 1) n).asString
where
  /-- Digits of `n`, most significant first; `fuel` bounds the recursion. -/
  go : Nat → Nat → List Char
  | 0, _ => []
  | fuel + 1, n =>
    if n < 10 then [digitChar n]
    else go fuel (n / 10) ++ [digitChar (n % 10)]

/-- Go's `fmt.Sprintf("%02d", n)` for non-negative `n`: zero-padded to
width two. -/
def pad2 (n : Nat) : String :=
  if n < 10 then "0" ++ decRepr n else decRepr n

/-! ## Go `time` model

A `GoTime` is an instant: `sec` counts seconds from 00:00:00 UTC on
January 1 of year 1 (Go's internal absolute time, whose zero year is
congruent to year 1 modulo 400, so the calendar cycle arithmetic below is
exactly Go's `absDate` with the year origin shifted to 1), and `offset` is
the zone offset in seconds used when reading civil fields.  `Time.UTC()`
keeps the instant and sets the offset to 0. -/

structure GoTime where
  sec : Nat
  offset : Int
deriving DecidableEq, Repr

/-- `Time.UTC()`: same instant, offset zero. -/
def GoTime.utc (t : GoTime) : GoTime :=
  { sec := t.sec, offset := 0 }

/-- Seconds value from which the civil fields of `t` are computed
(Go `Time.abs()`): the instant shifted by the zone offset. -/
def GoTime.abs (t : GoTime) : Nat :=
  ((t.sec : Int) + t.offset).toNat

/-- Go `isLeap`. -/
def goIsLeap (year : Nat) : Bool :=
  year % 4 == 0 && (year % 100 != 0 || year % 400 == 0)

/-- Go's `daysBefore` table, with Go's indexing: `daysBefore m` is the
number of days in a non-leap year before the 1-based month `m + 1`
(so `daysBefore 0 = 0`, `daysBefore 12 = 365`). -/
def daysBefore : Nat → Nat
  | 0 => 0
  | 1 => 31
  | 2 => 59
  | 3 => 90
  | 4 => 120
  | 5 => 151
  | 6 => 181
  | 7 => 212
  | 8 => 243
  | 9 => 273
  | 10 => 304
  | 11 => 334
  | _ => 365

/-- Go `absDate(abs, full=true)`: year, month (1-12) and day (1-based) of
the day containing absolute second `abs`.  Transcribed from
`time.absDate`; `n >> 2` becomes `n / 4`, and the year is counted from 1
instead of Go's `absoluteZeroYear` (the two differ by a multiple of 400
years, so every quantity below is unchanged). -/
def goYearYday (abs : Nat) : Nat × Nat :=
  let d := abs / 86400
  -- 400-year cycles
  let n400 := d / 146097
  let y := 400 * n400
  let d := d - 146097 * n400
  -- 100-year cycles, capped at 3
  let n100 := (d / 36524) - (d / 36524) / 4
  let y := y + 100 * n100
  let d := d - 36524 * n100
  -- 4-year cycles
  let n4 := d / 1461
  let y := y + 4 * n4
  let d := d - 1461 * n4
  -- years within a 4-year cycle, capped at 3
  let n1 := (d / 365) - (d / 365) / 4
  let y := y + n1
  let d := d - 365 * n1
  (y + 1, d)

/-- The month/day part of Go `absDate` (the `full` block). -/
def goMonthDay (year yday : Nat) : Nat × Nat :=
  if goIsLeap year && yday == 59 then
    (2, 29)
  else
    -- after the leap day, pretend it was not there
    let day := if goIsLeap year && yday > 59 then yday - 1 else yday
    -- estimate the month assuming 31-day months, then adjust by one
    let m0 := day / 31
    let (month, begin) :=
      if day ≥ daysBefore (m0 + 1) then (m0 + 1, daysBefore (m0 + 1)) else (m0, daysBefore m0)
    (month + 1, day - begin + 1)

def goAbsDate (abs : Nat) : Nat × Nat × Nat :=
  let (year, yday) := goYearYday abs
  let (month, day) := goMonthDay year yday
  (year, month, day)

/-- Go `absClock(abs)`: hour, minute, second within the day. -/
def goAbsClock (abs : Nat) : Nat × Nat × Nat :=
  let sec := abs % 86400
  let hour := sec / 3600
  let min := (sec - hour * 3600) / 60
  (hour, min, sec - hour * 3600 - min * 60)

/-- The six civil fields `(Year, Month, Day, Hour, Minute, Second)` of a
`GoTime`, read at its zone offset. -/
def GoTime.fields (t : GoTime) : Nat × Nat × Nat × Nat × Nat × Nat :=
  let (y, mo, d) := goAbsDate t.abs
  let (h, mi, s) := goAbsClock t.abs
  (y, mo, d, h, mi, s)

/-! ## `getReleaseTime` (main.go lines 151-162)

```go
t := time.UTC()
timeString := fmt.Sprintf("%d-%02d-%02dT%02d:%02d:%02dZ",
    t.Year(), t.Month(), t.Day(), t.Hour(), t.Minute(), t.Second())
```
-/

/-- The formatting step of `getReleaseTime`: civil fields of `t.UTC()`
rendered through the `"%d-%02d-%02dT%02d:%02d:%02dZ"` template. -/
def formatReleaseTime (t : GoTime) : String :=
  let (y, mo, d, h, mi, s) := (t.utc).fields
  decRepr y ++ "-" ++ pad2 mo ++ "-" ++ pad2 d ++ "T" ++
    pad2 h ++ ":" ++ pad2 mi ++ ":" ++ pad2 s ++ "Z"

/-! ## The GitHub client oracles

Modelled from the spec: the `GithubClient` wrappers
(`GetReleaseTagCreationTime`, `GetLatestRelease`, `SearchIssues`,
`UpdateReleaseNotes`) live in a repository file that is not among the
given sources; each is modelled as an opaque-to-us function of the
environment, returning either a value or an error, per the spec's
contracts for the external collaborators. -/

/-- An issue as returned by the search endpoint: title, canonical URL and
the ordered list of its label names (`github.Issue` restricted to the
fields `main.go` reads). -/
structure Issue where
  title : String
  url : String
  labels : List String
deriving DecidableEq, Repr

/-- Modelled from the spec: the behaviour of the hosted service during one
run.  `getReleaseTagCreationTime` resolves a (repo, tag) pair to the
release's creation instant or an error; `getLatestRelease` names the
latest published release; `searchIssues` answers the search query;
`updateReleaseNotes` publishes content. -/
structure GhEnv where
  getReleaseTagCreationTime : String → String → Except String GoTime
  getLatestRelease : String → Except String String
  searchIssues : List String → Except String (List Issue)
  updateReleaseNotes : String → String → String → Except String Unit

/-- `getReleaseTime` (main.go lines 151-162): resolve the creation time of
`release` and format it; errors propagate. -/
def getReleaseTime (env : GhEnv) (repo release : String) : Except String String :=
  match env.getReleaseTagCreationTime repo release with
  | .error e => .error e
  | .ok t => .ok (formatReleaseTime t)

/-! ## `addQuery` and `createQueryString` (main.go lines 105-149) -/

/-- `addQuery` (main.go lines 137-149): append
`queryParts[0] ++ ":" ++ concatenation of the rest` unless there are fewer
than two parts or some part is empty, in which case `queries` is returned
unchanged. -/
def addQuery (queries : List String) (queryParts : List String) : List String :=
  if queryParts.length < 2 then
    queries
  else if queryParts.any (fun part => part == "") then
    queries
  else
    queries ++ [(queryParts.headD "") ++ ":" ++ String.join queryParts.tail]

/-- `createQueryString` (main.go lines 105-135).  The Go function reads
the flag globals `org`, `label`, `previousRelease`, `currentRelease` and
assigns the resolved latest release back to the global `currentRelease`;
here the globals are parameters and the (possibly updated) current release
is returned next to the query list. -/
def createQueryString (env : GhEnv) (org label previousRelease currentRelease repo : String) :
    Except String (List String × String) :=
  match getReleaseTime env repo previousRelease with
  | .error e => .error e
  | .ok startTime =>
    match (if currentRelease == "" then env.getLatestRelease repo else .ok currentRelease) with
    | .error e => .error e
    | .ok current =>
      match getReleaseTime env repo current with
      | .error e => .error e
      | .ok endTime =>
        let queries := addQuery [] ["repo", org, "/", repo]
        let queries := addQuery queries ["label", label]
        let queries := addQuery queries ["is", "merged"]
        let queries := addQuery queries ["type", "pr"]
        let queries := addQuery queries ["merged", startTime, "..", endTime]
        let queries := addQuery queries ["base", "master"]
        .ok (queries, current)

/-! ## PRs, labels and helpers used by `groupedLabelContent` -/

/-- Modelled from the spec: the `PR` record (title, link and the single
classification label called "Type"), defined in a repository file not
among the given sources.  The Go field is named `Type`; that is a keyword
in Lean, so the field is `Type'` here. -/
structure PR where
  Title : String
  Link : String
  Type' : String
deriving DecidableEq, Repr, Inhabited

/-- Modelled from the spec: `fetchLabel` (called at main.go line 182 but
defined in a repository file not among the given sources) iterates the
issue's labels in their given order and returns the first one; for an
issue with zero labels it returns the empty string. -/
def fetchLabel (labels : List String) : String :=
  match labels with
  | [] => ""
  | l :: _ => l

/-- Modelled from the spec: `ContainsString` (called at main.go line 190
but defined in a repository file not among the given sources) checks a
string list for an exact match. -/
def ContainsString (slice : List String) (s : String) : Bool :=
  slice.any (fun item => item == s)

/-! ## Go `strings.Title`

`strings.Title` maps every rune that begins a word to title case, where a
word begins after a separator rune.  The ASCII part of `isSeparator` and
of `unicode.ToTitle` is transcribed exactly; beyond ASCII the Go functions
consult the Unicode tables of the `unicode` package, an external
dependency modelled here by the identity (no non-ASCII rune is treated as
a separator and none is changed by title casing). -/

/-- Go `isSeparator`, exact on ASCII; non-ASCII runes are modelled as
non-separators (Go additionally treats non-ASCII Unicode spaces as
separators). -/
def goIsSeparator (c : Char) : Bool :=
  if c.toNat ≤ 0x7F then
    if ('0' ≤ c && c ≤ '9') || ('a' ≤ c && c ≤ 'z') || ('A' ≤ c && c ≤ 'Z') || c == '_' then
      false
    else
      true
  else
    false

/-- Go `unicode.ToTitle`, exact on ASCII; non-ASCII runes are modelled as
fixed by title casing. -/
def goToTitle (c : Char) : Char :=
  if 'a' ≤ c && c ≤ 'z' then Char.ofNat (c.toNat - 32) else c

/-- Go `strings.Title`: map over the runes, title-casing each rune whose
predecessor (initially a space) is a separator. -/
def stringsTitle (s : String) : String :=
  (go ' ' s.toList).asString
where
  go : Char → List Char → List Char
  | _, [] => []
  | prev, c :: cs =>
    (if goIsSeparator prev then goToTitle c else c) :: go c cs

/-! ## The embedded `sort.Sort`

`main.go` line 186 calls `sort.Sort(ByLabel(prGrouper))` from the Go
standard library.  The implementation below is the standard library's
(`src/sort/sort.go` of the Go releases contemporary with this repository,
before the Go 1.19 rewrite): introsort — quicksort with median-of-three
(median-of-nine above 40 elements) pivoting and duplicate protection,
switching to a shell pass plus insertion sort on ranges of at most 12
elements and to heapsort when the depth budget `2 * ceil(lg(n+1))` is
exhausted.  `Less i j` is `ByLabel.Less`, modelled from the spec as
lexicographic comparison of the classification labels; `Swap` is array
swap.  Loops become fuel-indexed recursion; every fuel argument is large
enough for the loop bound, which the lemmas below make precise. -/

/-- Go's `<` on strings, on the rune lists: lexicographic (Go compares
the UTF-8 bytes, and UTF-8 byte order coincides with code-point order). -/
def goStrLtChars : List Char → List Char → Bool
  | [], [] => false
  | [], _ :: _ => true
  | _ :: _, [] => false
  | a :: as, b :: bs =>
    if a < b then true else if b < a then false else goStrLtChars as bs

/-- Go's `<` on strings. -/
def goStrLt (s t : String) : Bool :=
  goStrLtChars s.toList t.toList

/-- The array-element comparison `ByLabel.Less i j`, i.e.
`prs[i].Type < prs[j].Type` (modelled from the spec: `ByLabel` is defined
in a repository file not among the given sources). -/
def byLabelLess (x y : PR) : Bool :=
  goStrLt x.Type' y.Type'

/-- Read an array cell, with an irrelevant default out of bounds (all
accesses made by the sort are in bounds). -/
def aget (a : Array PR) (i : Nat) : PR :=
  a.getD i default

/-- Swap two array cells; out-of-bounds indices leave the array unchanged
(all accesses made by the sort are in bounds). -/
def aswap (a : Array PR) (i j : Nat) : Array PR :=
  if h : i < a.size ∧ j < a.size then a.swap ⟨i, h.1⟩ ⟨j, h.2⟩ else a

/-- `data.Less(i, j)` for the embedded sort. -/
def aless (a : Array PR) (i j : Nat) : Bool :=
  byLabelLess (aget a i) (aget a j)

/-- Inner loop of Go `insertionSort`: move the element at `j` left while
it is less than its predecessor and `j > a`. -/
def insertionInner (arr : Array PR) (a : Nat) : Nat → Nat → Array PR
  | 0, _ => arr
  | fuel + 1, j =>
    if a < j && aless arr j (j - 1) then
      insertionInner (aswap arr j (j - 1)) a fuel (j - 1)
    else
      arr

/-- Outer loop of Go `insertionSort`, iterating `i = a+1, ..., b-1`. -/
def insertionOuter (arr : Array PR) (a b : Nat) : Nat → Nat → Array PR
  | 0, _ => arr
  | fuel + 1, i =>
    if i < b then
      insertionOuter (insertionInner arr a i i) a b fuel (i + 1)
    else
      arr

/-- Go `insertionSort(data, a, b)`. -/
def insertionSortGo (arr : Array PR) (a b : Nat) : Array PR :=
  insertionOuter arr a b b (a + 1)

/-- Go `siftDown(data, lo, hi, first)` (fuel-indexed root-descent loop;
`root` is Go's mutating `root` variable, initially `lo`). -/
def siftDownGo (first : Nat) : Array PR → Nat → Nat → Nat → Array PR
  | arr, _, _, 0 => arr
  | arr, root, hi, fuel + 1 =>
    let child := 2 * root + 1
    if child ≥ hi then
      arr
    else
      let child := if child + 1 < hi && aless arr (first + child) (first + child + 1) then
        child + 1 else child
      if !aless arr (first + root) (first + child) then
        arr
      else
        siftDownGo first (aswap arr (first + root) (first + child)) child hi fuel

/-- Heap-building loop of Go `heapSort`: `for i := (hi-1)/2; i >= 0; i--`;
`count + 1` iterations remain and the current iteration has `i = count`. -/
def heapBuild (first hi : Nat) : Array PR → Nat → Array PR
  | arr, 0 => arr
  | arr, count + 1 =>
    heapBuild first hi (siftDownGo first arr count hi (hi + 1)) count

/-- Pop loop of Go `heapSort`: `for i := hi - 1; i >= 0; i--` with body
`Swap(first, first+i); siftDown(data, 0, i, first)`; `count + 1`
iterations remain and the current iteration has `i = count`. -/
def heapPop (first : Nat) : Array PR → Nat → Array PR
  | arr, 0 => arr
  | arr, count + 1 =>
    heapPop first (siftDownGo first (aswap arr first (first + count)) 0 count (count + 1)) count

/-- Go `heapSort(data, a, b)`: build a max-heap on `[a, b)`, then pop the
maximum to the end `b - a` times. -/
def heapSortGo (arr : Array PR) (a b : Nat) : Array PR :=
  let first := a
  let hi := b - a
  heapPop first (heapBuild first hi arr ((hi - 1) / 2 + 1)) hi

/-- Go `medianOfThree(data, m1, m0, m2)`: sort the three cells so that
`data[m0] <= data[m1] <= data[m2]`. -/
def medianOfThree (arr : Array PR) (m1 m0 m2 : Nat) : Array PR :=
  let arr := if aless arr m1 m0 then aswap arr m1 m0 else arr
  if aless arr m2 m1 then
    let arr := aswap arr m2 m1
    if aless arr m1 m0 then aswap arr m1 m0 else arr
  else
    arr

/-- First scan of Go `doPivot`: `for ; a < c && data.Less(a, pivot); a++`.
Returns the final `a`. -/
def dpScanA (arr : Array PR) (pivot c : Nat) : Nat → Nat → Nat
  | 0, a => a
  | fuel + 1, a =>
    if a < c && aless arr a pivot then dpScanA arr pivot c fuel (a + 1) else a

/-- `for ; b < c && !data.Less(pivot, b); b++` in `doPivot`'s main loop. -/
def dpScanB (arr : Array PR) (pivot c : Nat) : Nat → Nat → Nat
  | 0, b => b
  | fuel + 1, b =>
    if b < c && !aless arr pivot b then dpScanB arr pivot c fuel (b + 1) else b

/-- `for ; b < c && data.Less(pivot, c-1); c--` in `doPivot`'s main loop. -/
def dpScanC (arr : Array PR) (pivot b : Nat) : Nat → Nat → Nat
  | 0, c => c
  | fuel + 1, c =>
    if b < c && aless arr pivot (c - 1) then dpScanC arr pivot b fuel (c - 1) else c

/-- Main partition loop of Go `doPivot`: advance `b`, retreat `c`, swap
`b` with `c-1` while they have not crossed.  Returns the array and the
final `b` and `c`. -/
def dpLoop (pivot : Nat) : Array PR → Nat → Nat → Nat → Array PR × Nat × Nat
  | arr, _, b, c => go (c - b + 1) arr b c
where
  go : Nat → Array PR → Nat → Nat → Array PR × Nat × Nat
  | 0, arr, b, c => (arr, b, c)
  | fuel + 1, arr, b, c =>
    let b := dpScanB arr pivot c (c - b + 1) b
    let c := dpScanC arr pivot b (c - b + 1) c
    if b ≥ c then
      (arr, b, c)
    else
      go fuel (aswap arr b (c - 1)) (b + 1) (c - 1)

/-- Duplicate-protection loop of Go `doPivot` (run when `protect` holds):
`for ; a < b && !data.Less(b-1, pivot); b--` then
`for ; a < b && data.Less(a, pivot); a++`, swapping `a` with `b-1` while
they have not crossed.  Returns the array and the final `b`. -/
def dpProtect (pivot : Nat) : Array PR → Nat → Nat → Array PR × Nat
  | arr, a, b => go (b - a + 1) arr a b
where
  goB (arr : Array PR) (a : Nat) : Nat → Nat → Nat
  | 0, b => b
  | fuel + 1, b =>
    if a < b && !aless arr (b - 1) pivot then goB arr a fuel (b - 1) else b
  goA (arr : Array PR) (b : Nat) : Nat → Nat → Nat
  | 0, a => a
  | fuel + 1, a =>
    if a < b && aless arr a pivot then goA arr b fuel (a + 1) else a
  go : Nat → Array PR → Nat → Nat → Array PR × Nat
  | 0, arr, _, b => (arr, b)
  | fuel + 1, arr, a, b =>
    let b := goB arr a (b - a + 1) b
    let a := goA arr b (b - a + 1) a
    if a ≥ b then
      (arr, b)
    else
      go fuel (aswap arr a (b - 1)) (a + 1) (b - 1)

/-- Pivot-choice preamble of Go `doPivot`: the median-of-nine pass for
ranges longer than 40 and the final `medianOfThree(data, lo, m, hi-1)`. -/
def doPivotInit (arr : Array PR) (lo hi : Nat) : Array PR :=
  let m := (lo + hi) / 2
  let arr :=
    if hi - lo > 40 then
      let s := (hi - lo) / 8
      let arr := medianOfThree arr lo (lo + s) (lo + 2 * s)
      let arr := medianOfThree arr m (m - s) (m + s)
      medianOfThree arr (hi - 1) (hi - 1 - s) (hi - 1 - 2 * s)
    else
      arr
  medianOfThree arr lo m (hi - 1)

/-- Duplicate-testing block of Go `doPivot`: computes `protect` and, when
testing for duplicates, adjusts `b`, `c` and the array.  `pivot = lo`. -/
def doPivotMid (arr : Array PR) (lo hi b c : Nat) : Array PR × Nat × Nat × Bool :=
  let m := (lo + hi) / 2
  let pivot := lo
  let protect := decide (hi - c < 5)
  if !protect && decide (hi - c < (hi - lo) / 4) then
    -- test some points for equality to the pivot
    let dups := 0
    let (arr, c, dups) :=
      if !aless arr pivot (hi - 1) then (aswap arr c (hi - 1), c + 1, dups + 1)
      else (arr, c, dups)
    let (b, dups) :=
      if !aless arr (b - 1) pivot then (b - 1, dups + 1) else (b, dups)
    let (arr, b, dups) :=
      if !aless arr m pivot then (aswap arr m (b - 1), b - 1, dups + 1)
      else (arr, b, dups)
    (arr, b, c, decide (dups > 1))
  else
    (arr, b, c, protect)

/-- Go `doPivot(data, lo, hi)`: choose a pivot, partition `[lo, hi)` and
return the array together with `(midlo, midhi)`. -/
def doPivot (arr : Array PR) (lo hi : Nat) : Array PR × Nat × Nat :=
  let arr := doPivotInit arr lo hi
  let pivot := lo
  let a := dpScanA arr pivot (hi - 1) (hi - 1) (lo + 1)
  let (arr, b, c) := dpLoop pivot arr a a (hi - 1)
  let (arr, b, c, protect) := doPivotMid arr lo hi b c
  let (arr, b) := if protect then dpProtect pivot arr a b else (arr, b)
  (aswap arr pivot (b - 1), b - 1, c)

/-- Shell pass of Go `quickSort` on a short range:
`for i := a + 6; i < b; i++ { if data.Less(i, i-6) { data.Swap(i, i-6) } }`. -/
def shellPass (a b : Nat) : Array PR → Nat → Nat → Array PR
  | arr, 0, _ => arr
  | arr, fuel + 1, i =>
    if i < b then
      shellPass a b (if aless arr i (i - 6) then aswap arr i (i - 6) else arr) fuel (i + 1)
    else
      arr

/-- Go `quickSort(data, a, b, maxDepth)`: the `for b-a > 12` loop with its
two tail recursions, then the shell pass and insertion sort on the
remaining short range.  `fuel` dominates the loop/recursion depth. -/
def quickSortGo : Nat → Array PR → Nat → Nat → Nat → Array PR
  | 0, arr, _, _, _ => arr
  | fuel + 1, arr, a, b, depth =>
    if b - a > 12 then
      if depth = 0 then
        heapSortGo arr a b
      else
        let depth := depth - 1
        let (arr, mlo, mhi) := doPivot arr a b
        if mlo - a < b - mhi then
          let arr := quickSortGo fuel arr a mlo depth
          quickSortGo fuel arr mhi b depth
        else
          let arr := quickSortGo fuel arr mhi b depth
          quickSortGo fuel arr a mlo depth
    else
      if b - a > 1 then
        insertionSortGo (shellPass a b arr b (a + 6)) a b
      else
        arr

/-- Go `maxDepth(n) = 2 * (number of binary digits of n)`; the counting
loop `for i := n; i > 0; i >>= 1 { depth++ }` is fuel-indexed. -/
def goMaxDepth (n : Nat) : Nat :=
  2 * go (n + 1) n
where
  go : Nat → Nat → Nat
  | 0, _ => 0
  | fuel + 1, i => if i > 0 then go fuel (i / 2) + 1 else 0

/-- Go `sort.Sort(ByLabel(prGrouper))`: `quickSort(data, 0, n, maxDepth(n))`. -/
def sortSort (arr : Array PR) : Array PR :=
  quickSortGo (arr.size + goMaxDepth arr.size + 1) arr 0 arr.size (goMaxDepth arr.size)

/-! ## `groupedLabelContent` (main.go lines 173-197) -/

/-- One bullet line: `fmt.Sprintf("* %s - %s\n", issue.Title, issue.Link)`. -/
def bulletLine (p : PR) : String :=
  "* " ++ p.Title ++ " - " ++ p.Link ++ "\n"

/-- One section header: `fmt.Sprintf("\n## %s\n", strings.Title(issue.Type))`. -/
def headerLine (t : String) : String :=
  "\n## " ++ stringsTitle t ++ "\n"

/-- The rendering loop of `groupedLabelContent` (main.go lines 189-195):
walk the sorted PRs, emitting a header before the bullet whenever the
label is not yet in `existentLabels`, and recording it there. -/
def renderLoop : List PR → String → List String → String
  | [], content, _ => content
  | p :: rest, content, existentLabels =>
    if !ContainsString existentLabels p.Type' then
      renderLoop rest (content ++ headerLine p.Type' ++ bulletLine p) (existentLabels ++ [p.Type'])
    else
      renderLoop rest (content ++ bulletLine p) existentLabels

/-- The PR list built from the fetched issues (main.go lines 177-185). -/
def prGrouperOf (issues : List Issue) : List PR :=
  issues.map (fun issue => { Title := issue.title, Link := issue.url, Type' := fetchLabel issue.labels })

/-- `groupedLabelContent` (main.go lines 173-197): map issues to PRs, sort
by label with `sort.Sort`, then render, starting from the header line
`fmt.Sprintf("%s: %s -- %s\n", repo, currentRelease, previousRelease)` and
from `existentLabels := make([]string, 3)`, i.e. three empty strings. -/
def groupedLabelContent (repo currentRelease previousRelease : String) (issues : List Issue) : String :=
  let prGrouper := (sortSort (prGrouperOf issues).toArray).toList
  renderLoop prGrouper (repo ++ ": " ++ currentRelease ++ " -- " ++ previousRelease ++ "\n") ["", "", ""]

/-! ## The command body `rootCmd.Run` (main.go lines 46-83) -/

/-- The flag globals read by `rootCmd.Run` and `createQueryString`. -/
structure Flags where
  save : Bool
  org : String
  repo : String
  label : String
  previousRelease : String
  currentRelease : String
deriving Repr

/-- Observable outcome of one run: the content of the output file after
the run (`none` when the file could not be opened and created, in which
case the path is untouched), the log lines, and the content published
upstream, if any. -/
structure RunResult where
  fileContent : Option String
  logs : List String
  published : Option String
deriving Repr

/-- `rootCmd.Run` (main.go lines 46-83) over an environment: open (create
or truncate) the output file, build the query, search, render, write, and
optionally publish.  Each failure is logged and returns early; the file
keeps whatever had been written to it by then.  `openFails` models
`os.OpenFile` failing, in which case the prior state of the path is kept. -/
def runCmd (env : GhEnv) (openFails : Bool) (flags : Flags) (prior : Option String) : RunResult :=
  if openFails then
    { fileContent := prior
      logs := ["Failed to open and/or create output file"]
      published := none }
  else
    -- os.O_WRONLY|os.O_TRUNC|os.O_CREATE: the file now exists and is empty
    match createQueryString env flags.org flags.label flags.previousRelease flags.currentRelease flags.repo with
    | .error _ =>
      { fileContent := some ""
        logs := ["Start fetching release note", "Failed to create query string"]
        published := none }
    | .ok (queries, currentRelease) =>
      match env.searchIssues queries with
      | .error _ =>
        { fileContent := some ""
          logs := ["Start fetching release note", "Failed to fetch PR with release note"]
          published := none }
      | .ok issues =>
        let content := groupedLabelContent flags.repo currentRelease flags.previousRelease issues
        if flags.save then
          match env.updateReleaseNotes flags.repo currentRelease content with
          | .error _ =>
            { fileContent := some content
              logs := ["Start fetching release note", "Saving data", "Update GITHUB release notes",
                       "Error updating release notes"]
              published := none }
          | .ok _ =>
            { fileContent := some content
              logs := ["Start fetching release note", "Saving data", "Update GITHUB release notes"]
              published := some content }
        else
          { fileContent := some content
            logs := ["Start fetching release note", "Saving data"]
            published := none }

/-! ## Claim C1: timestamp formatting -/

/-- ASCII decimal digit test (spec side, for the template predicate). -/
def isDigitChar (c : Char) : Bool :=
  '0' ≤ c && c ≤ '9'

/-- The claim's `YYYY-MM-DDTHH:MM:SSZ` template, fields zero-padded:
exactly 20 characters, digits and fixed punctuation at fixed positions. -/
def matchesTimestampTemplate (s : String) : Bool :=
  match s.toList with
  | [y1, y2, y3, y4, p1, b1, b2, p2, d1, d2, tt, e1, e2, q1, f1, f2, q2, g1, g2, zz] =>
    isDigitChar y1 && isDigitChar y2 && isDigitChar y3 && isDigitChar y4 &&
    p1 == '-' && isDigitChar b1 && isDigitChar b2 && p2 == '-' &&
    isDigitChar d1 && isDigitChar d2 && tt == 'T' &&
    isDigitChar e1 && isDigitChar e2 && q1 == ':' &&
    isDigitChar f1 && isDigitChar f2 && q2 == ':' &&
    isDigitChar g1 && isDigitChar g2 && zz == 'Z'
  | _ => false

/-! ## Claim C3: clause emission -/

/-- Does some query string start with `label:` (first six characters)? -/
def hasLabelClause (queries : List String) : Bool :=
  queries.any (fun q => q.toList.take 6 == "label:".toList)

/-- Environment whose release-tag resolution fails (for witnesses). -/
def envTagFail : GhEnv :=
  ⟨fun _ _ => .error "no tag", fun _ => .error "", fun _ => .error "", fun _ _ _ => .error ""⟩

/-- Environment whose issue search fails (for witnesses). -/
def envSearchFail : GhEnv :=
  ⟨fun _ _ => .ok ⟨63818524987, 0⟩, fun _ => .ok "v2", fun _ => .error "down", fun _ _ _ => .error ""⟩

/-- Environment whose publish step fails (for witnesses). -/
def envPublishFail : GhEnv :=
  ⟨fun _ _ => .ok ⟨63818524987, 0⟩, fun _ => .ok "v2", fun _ => .ok [], fun _ _ _ => .error "denied"⟩

/-- The flag values used by the witnesses (`--save` set). -/
def flagsSave : Flags := ⟨true, "knabben", "widget", "", "v1", "v2"⟩

/-- The query list the witness environments produce. -/
def queriesW : List String :=
  ["repo:knabben/widget", "is:merged", "type:pr",
   "merged:2023-05-01T08:03:07Z..2023-05-01T08:03:07Z", "base:master"]

/-! ## Claim C4: the pre-seeded seen-labels list -/

/-- The claim's comparison variant of `groupedLabelContent`: identical,
except that the seen-labels list starts empty instead of holding three
empty-string placeholder slots. -/
def groupedLabelContentNoSeed (repo currentRelease previousRelease : String)
    (issues : List Issue) : String :=
  let prGrouper := (sortSort (prGrouperOf issues).toArray).toList
  renderLoop prGrouper (repo ++ ": " ++ currentRelease ++ " -- " ++ previousRelease ++ "\n") []

/-! ## Claim C5: the header-once invariant -/

/-- Sortedness by classification label, phrased with the embedded Go
comparison: no later PR's label is `Less` than an earlier one's. -/
def sortedByLabel (prs : List PR) : Prop :=
  List.Pairwise (fun p q => goStrLt q.Type' p.Type' = false) prs

/-- The sequence of labels for which the rendering loop emits a `##`
header, in emission order (the loop's seen-list mechanism, bullets
dropped). -/
def renderHeaders : List PR → List String → List String
  | [], _ => []
  | p :: rest, seen =>
    if !ContainsString seen p.Type' then
      p.Type' :: renderHeaders rest (seen ++ [p.Type'])
    else
      renderHeaders rest seen

/-- First occurrences of each distinct string, in order (spec side). -/
def firstDistincts : List String → List String
  | [] => []
  | x :: xs => x :: (firstDistincts xs).filter (fun y => y != x)

/-- The claim's expected rendering of a label-sorted PR sequence: each PR
contributes its bullet, preceded by a `##` header exactly when its label
differs from the immediately preceding PR's label — i.e. one header per
run of equal labels, immediately before the run's first bullet. -/
def renderRuns : List PR → Option String → String
  | [], _ => ""
  | p :: rest, prev =>
    (if some p.Type' = prev then "" else headerLine p.Type') ++
      bulletLine p ++ renderRuns rest (some p.Type')

/-- A two-PR label-sorted list used by witnesses. -/
def prsW : List PR :=
  [⟨"Fix crash", "http://pr/1", "bug"⟩, ⟨"Add widget", "http://pr/2", "feature"⟩]

/-! ## Insertion sort: sortedness, frame and stability -/

/-- `[a, b)` is sorted by label: no later element is `Less` than an
earlier one. -/
def sortedRange (arr : Array PR) (a b : Nat) : Prop :=
  ∀ i j, a ≤ i → i < j → j < b → aless arr j i = false

/-- The subsequence of elements carrying one classification label. -/
def labelFilter (arr : Array PR) (lab : String) : List PR :=
  arr.toList.filter (fun p => p.Type' == lab)

/-! ## Claim C2: stability of the ordering -/

/-- Seven issues: two labelled `b` (titles `t1`, `t2`, in that input
order) among five labelled `a`. -/
def issues7 : List Issue :=
  [⟨"t1", "u", ["b"]⟩, ⟨"x1", "u", ["a"]⟩, ⟨"x2", "u", ["a"]⟩, ⟨"t2", "u", ["b"]⟩,
   ⟨"x3", "u", ["a"]⟩, ⟨"x4", "u", ["a"]⟩, ⟨"x5", "u", ["a"]⟩]

/-- The tail of `doPivotMid`'s duplicate-testing block, after the first
(`hi-1`) test has been resolved into an adjusted array `A1`, count `c1`
and duplicate count `d1`. -/
def dpMidTail (lo hi b : Nat) (A1 : Array PR) (c1 d1 : Nat) : Array PR × Nat × Nat × Bool :=
  let (b, dups) := if !aless A1 (b - 1) lo then (b - 1, d1 + 1) else (b, d1)
  let (arr, b, dups) :=
    if !aless A1 ((lo + hi) / 2) lo then
      (aswap A1 ((lo + hi) / 2) (b - 1), b - 1, dups + 1)
    else (A1, b, dups)
  (arr, b, c1, decide (dups > 1))

/-! ## heapSort: heap predicate and verification -/

/-- Cell `i` of the implicit heap on `[first, first + hi)` dominates its
children. -/
def heapAt (arr : Array PR) (first hi i : Nat) : Prop :=
  (2 * i + 1 < hi → aless arr (first + i) (first + (2 * i + 1)) = false) ∧
  (2 * i + 2 < hi → aless arr (first + i) (first + (2 * i + 2)) = false)

/-- `i` lies in the subtree rooted at `r` of the implicit binary heap. -/
inductive HeapAnc : Nat → Nat → Prop where
  | refl (r : Nat) : HeapAnc r r
  | left {r i : Nat} : HeapAnc r i → HeapAnc r (2 * i + 1)
  | right {r i : Nat} : HeapAnc r i → HeapAnc r (2 * i + 2)

/-- Three issues, few enough for the pure insertion-sort path, with an
equal-labelled pair in input order `t1`, `t2`. -/
def issuesC2W : List Issue :=
  [⟨"t1", "u", ["b"]⟩, ⟨"t2", "u", ["b"]⟩, ⟨"x", "u", ["a"]⟩]

/-- The spec's two-issue example, labels `bug` and `feature`. -/
def issuesC8W : List Issue :=
  [⟨"Fix crash", "http://pr/1", ["bug"]⟩, ⟨"Add widget", "http://pr/2", ["feature"]⟩]

theorem isDigitChar_digitChar (k : Nat) (h : k < 10) : isDigitChar (digitChar k) = true := by
  interval_cases k <;> decide

theorem decRepr_go_fuel (n : Nat) : ∀ f₁ f₂, n < f₁ → n < f₂ →
    decRepr.go f₁ n = decRepr.go f₂ n := by
  induction n using Nat.strong_induction_on with
  | _ n ih =>
    intro f₁ f₂ h₁ h₂
    match f₁, f₂ with
    | g₁ + 1, g₂ + 1 =>
      by_cases h10 : n < 10
      · simp [decRepr.go, h10]
      · have hdiv : n / 10 < n := Nat.div_lt_self (by omega) (by omega)
        simp only [decRepr.go, if_neg h10]
        rw [ih (n / 10) hdiv g₁ g₂ (by omega) (by omega)]

theorem toList_append (s t : String) : (s ++ t).toList = s.toList ++ t.toList :=
  String.data_append s t

theorem decRepr_toList (n : Nat) : (decRepr n).toList =
    if n < 10 then [digitChar n]
    else (decRepr (n / 10)).toList ++ [digitChar (n % 10)] := by
  by_cases h10 : n < 10
  · simp only [decRepr, decRepr.go, if_pos h10, List.toList_asString]
  · show (decRepr.go (n + 1) n).asString.toList = _
    simp only [decRepr.go, if_neg h10]
    have he : decRepr.go n (n / 10) = decRepr.go (n / 10 + 1) (n / 10) :=
      decRepr_go_fuel (n / 10) n (n / 10 + 1) (by omega) (by omega)
    simp only [List.toList_asString, he, if_neg h10, decRepr]

theorem decRepr_toList_one (n : Nat) (h : n < 10) :
    (decRepr n).toList = [digitChar n] := by
  rw [decRepr_toList, if_pos h]

theorem decRepr_toList_two (n : Nat) (h1 : 10 ≤ n) (h2 : n < 100) :
    (decRepr n).toList = [digitChar (n / 10), digitChar (n % 10)] := by
  rw [decRepr_toList, if_neg (by omega), decRepr_toList_one (n / 10) (by omega)]
  rfl

theorem decRepr_toList_four (n : Nat) (h1 : 1000 ≤ n) (h2 : n ≤ 9999) :
    (decRepr n).toList =
      [digitChar (n / 1000), digitChar (n / 100 % 10), digitChar (n / 10 % 10), digitChar (n % 10)] := by
  rw [decRepr_toList, if_neg (by omega),
      decRepr_toList, if_neg (by omega),
      decRepr_toList_two (n / 10 / 10) (by omega) (by omega)]
  have e1 : n / 10 / 10 / 10 = n / 1000 := by omega
  have e2 : n / 10 / 10 % 10 = n / 100 % 10 := by omega
  have e3 : n / 10 % 10 = n / 10 % 10 := rfl
  rw [e1, e2]
  simp

theorem pad2_toList (n : Nat) (h : n < 100) :
    (pad2 n).toList = [if n < 10 then '0' else digitChar (n / 10), digitChar (n % 10)] := by
  by_cases h10 : n < 10
  · simp only [pad2, if_pos h10]
    rw [toList_append, decRepr_toList_one n h10, Nat.mod_eq_of_lt h10]
    rfl
  · simp only [pad2, if_neg h10]
    rw [decRepr_toList_two n (by omega) h]

theorem pad2_digits (n : Nat) (h : n < 100) :
    ∃ c₁ c₂, (pad2 n).toList = [c₁, c₂] ∧ isDigitChar c₁ = true ∧ isDigitChar c₂ = true := by
  refine ⟨_, _, pad2_toList n h, ?_, isDigitChar_digitChar _ (by omega)⟩
  by_cases h10 : n < 10
  · rw [if_pos h10]; decide
  · rw [if_neg h10]; exact isDigitChar_digitChar _ (by omega)

theorem goYearYday_yday_le (abs : Nat) : (goYearYday abs).2 ≤ 365 := by
  simp only [goYearYday]
  omega

theorem goAbsClock_bounds (abs : Nat) :
    (goAbsClock abs).1 < 100 ∧ (goAbsClock abs).2.1 < 100 ∧ (goAbsClock abs).2.2 < 100 := by
  simp only [goAbsClock]
  refine ⟨by omega, by omega, by omega⟩

theorem goMonthDay_bounds (year yday : Nat) (h : yday ≤ 365) :
    (goMonthDay year yday).1 < 100 ∧ (goMonthDay year yday).2 < 100 := by
  simp only [goMonthDay]
  split
  · exact ⟨by omega, by omega⟩
  · set day := if goIsLeap year && yday > 59 then yday - 1 else yday with hday
    have hd365 : day ≤ 365 := by
      rw [hday]; split <;> omega
    set m0 := day / 31 with hm0
    have hm11 : m0 ≤ 11 := by omega
    have h31 : 31 * m0 ≤ day ∧ day < 31 * (m0 + 1) := by omega
    split
    · rename_i hge
      refine ⟨by omega, ?_⟩
      interval_cases m0 <;> simp [daysBefore] at hge ⊢ <;> omega
    · rename_i hlt
      refine ⟨by omega, ?_⟩
      push_neg at hlt
      interval_cases m0 <;> simp [daysBefore] at hlt ⊢ <;> omega

theorem goAbsDate_bounds (abs : Nat) :
    (goAbsDate abs).2.1 < 100 ∧ (goAbsDate abs).2.2 < 100 := by
  have h := goMonthDay_bounds (goYearYday abs).1 (goYearYday abs).2 (goYearYday_yday_le abs)
  simp only [goAbsDate]
  rcases hyy : goYearYday abs with ⟨y, yd⟩
  rcases hmd : goMonthDay y yd with ⟨mo, d⟩
  rw [hyy, hmd] at h
  exact h

theorem goTime_utc_abs (t : GoTime) : t.utc.abs = t.sec := by
  simp [GoTime.utc, GoTime.abs]

theorem formatReleaseTime_eq (t : GoTime) :
    formatReleaseTime t =
      decRepr (goAbsDate t.sec).1 ++ "-" ++ pad2 (goAbsDate t.sec).2.1 ++ "-" ++
      pad2 (goAbsDate t.sec).2.2 ++ "T" ++ pad2 (goAbsClock t.sec).1 ++ ":" ++
      pad2 (goAbsClock t.sec).2.1 ++ ":" ++ pad2 (goAbsClock t.sec).2.2 ++ "Z" := by
  have h1 : t.utc.abs = t.sec := goTime_utc_abs t
  rcases hda : goAbsDate t.sec with ⟨y, mo, d⟩
  rcases hcl : goAbsClock t.sec with ⟨h, mi, s⟩
  simp [formatReleaseTime, GoTime.fields, h1, hda, hcl]

theorem matchesTemplate_format (y mo d h mi s : Nat) (hy1 : 1000 ≤ y) (hy2 : y ≤ 9999)
    (hmo : mo < 100) (hd : d < 100) (hh : h < 100) (hmi : mi < 100) (hs : s < 100) :
    matchesTimestampTemplate (decRepr y ++ "-" ++ pad2 mo ++ "-" ++ pad2 d ++ "T" ++
      pad2 h ++ ":" ++ pad2 mi ++ ":" ++ pad2 s ++ "Z") = true := by
  obtain ⟨a1, a2, ha, ha1, ha2⟩ := pad2_digits mo hmo
  obtain ⟨b1, b2, hb, hb1, hb2⟩ := pad2_digits d hd
  obtain ⟨c1, c2, hc, hc1, hc2⟩ := pad2_digits h hh
  obtain ⟨e1, e2, he, he1, he2⟩ := pad2_digits mi hmi
  obtain ⟨f1, f2, hf, hf1, hf2⟩ := pad2_digits s hs
  have hy := decRepr_toList_four y hy1 hy2
  have hylist : ∀ k, k < 10 → isDigitChar (digitChar k) = true := isDigitChar_digitChar
  rw [matchesTimestampTemplate]
  rw [show (decRepr y ++ "-" ++ pad2 mo ++ "-" ++ pad2 d ++ "T" ++
      pad2 h ++ ":" ++ pad2 mi ++ ":" ++ pad2 s ++ "Z").toList =
      (decRepr y).toList ++ ['-'] ++ (pad2 mo).toList ++ ['-'] ++ (pad2 d).toList ++ ['T'] ++
      (pad2 h).toList ++ [':'] ++ (pad2 mi).toList ++ [':'] ++ (pad2 s).toList ++ ['Z'] by
    simp only [toList_append]; rfl]
  rw [hy, ha, hb, hc, he, hf]
  simp only [List.cons_append, List.nil_append, List.append_assoc]
  simp [ha1, ha2, hb1, hb2, hc1, hc2, he1, he2, hf1, hf2,
    hylist _ (by omega : y / 1000 < 10), hylist _ (by omega : y / 100 % 10 < 10),
    hylist _ (by omega : y / 10 % 10 < 10), hylist _ (by omega : y % 10 < 10)]

/-- Claim C1, counterexample to the claim as stated: the instant
`999-01-01T00:00:00Z` (31493836800 seconds into the absolute era) is
rendered by the resolver's formatter as `"999-01-01T00:00:00Z"` — the year
is printed by `%d` without zero padding, so the result has 19 characters
and does not match the fixed `YYYY-MM-DDTHH:MM:SSZ` template the claim
asserts for every resolved instant. -/
theorem claim_C1_counterexample :
    GoTime.fields ⟨31493836800, 0⟩ = (999, 1, 1, 0, 0, 0) ∧
    formatReleaseTime ⟨31493836800, 0⟩ = "999-01-01T00:00:00Z" ∧
    matchesTimestampTemplate (formatReleaseTime ⟨31493836800, 0⟩) = false ∧
    (formatReleaseTime ⟨31493836800, 0⟩).length = 19 := by
  refine ⟨by decide, by decide, by decide, by decide⟩

/-- Claim C1, amended: `getReleaseTime` formats the resolved instant's
UTC civil fields, truncated to seconds, through
`"%d-%02d-%02dT%02d:%02d:%02dZ"`; month, day, hour, minute and second are
zero-padded to two digits, and whenever the UTC year has four digits
(1000..9999) the result matches the `YYYY-MM-DDTHH:MM:SSZ` template
exactly.  In particular the instant `2023-05-01T10:03:07+02:00` (absolute
second 63818524987 at zone offset +7200, whose civil reading at that
offset is 2023-05-01 10:03:07) renders as `"2023-05-01T08:03:07Z"`. -/
theorem claim_C1_theorem :
    (∀ t : GoTime, 1000 ≤ (goAbsDate t.sec).1 → (goAbsDate t.sec).1 ≤ 9999 →
        matchesTimestampTemplate (formatReleaseTime t) = true) ∧
    GoTime.fields ⟨63818524987, 7200⟩ = (2023, 5, 1, 10, 3, 7) ∧
    formatReleaseTime ⟨63818524987, 7200⟩ = "2023-05-01T08:03:07Z" ∧
    (∀ (env : GhEnv) (repo rel : String) (t : GoTime),
        env.getReleaseTagCreationTime repo rel = .ok t →
        getReleaseTime env repo rel = .ok (formatReleaseTime t)) := by
  refine ⟨?_, by decide, by decide, ?_⟩
  · intro t hy1 hy2
    rw [formatReleaseTime_eq]
    have hd := goAbsDate_bounds t.sec
    have hc := goAbsClock_bounds t.sec
    exact matchesTemplate_format _ _ _ _ _ _ hy1 hy2 hd.1 hd.2 hc.1 hc.2.1 hc.2.2
  · intro env repo rel t h
    simp [getReleaseTime, h]

/-- Witness for `claim_C1_theorem`: its hypotheses hold at the instant
`2023-05-01T08:03:07Z` and at an environment resolving a tag to it. -/
theorem claim_C1_witness :
    matchesTimestampTemplate (formatReleaseTime ⟨63818524987, 7200⟩) = true ∧
    getReleaseTime
      ⟨fun _ _ => .ok ⟨63818524987, 7200⟩, fun _ => .error "", fun _ => .error "",
        fun _ _ _ => .error ""⟩ "widget" "v1.1.0" = .ok "2023-05-01T08:03:07Z" := by
  constructor
  · exact claim_C1_theorem.1 ⟨63818524987, 7200⟩ (by decide) (by decide)
  · have h := claim_C1_theorem.2.2.2
      ⟨fun _ _ => .ok ⟨63818524987, 7200⟩, fun _ => .error "", fun _ => .error "",
        fun _ _ _ => .error ""⟩ "widget" "v1.1.0" ⟨63818524987, 7200⟩ rfl
    rw [h, claim_C1_theorem.2.2.1]

theorem mem_addQuery {queries parts : List String} {q : String}
    (h : q ∈ addQuery queries parts) :
    q ∈ queries ∨ q = (parts.headD "" ++ ":" ++ String.join parts.tail) := by
  unfold addQuery at h
  split at h
  · exact Or.inl h
  · split at h
    · exact Or.inl h
    · rcases List.mem_append.mp h with h' | h'
      · exact Or.inl h'
      · exact Or.inr (List.mem_singleton.mp h')

theorem take6_key_ne_label (key s : String) (hk : key ∈ ["repo", "is", "type", "merged", "base"]) :
    ((key ++ ":" ++ s).toList.take 6 == "label:".toList) = false := by
  fin_cases hk <;>
    · rw [Bool.eq_false_iff]
      intro hcontra
      rw [beq_iff_eq] at hcontra
      rw [toList_append, toList_append] at hcontra
      simp [List.take] at hcontra

/-- Claim C3: `addQuery` appends the clause
`key:fragment1fragment2...` exactly when it receives at least two parts,
none of them empty; otherwise it returns the query list unchanged (and
there is no error value in its signature at all).  Consequently a query
built with an empty `label` flag contains no clause starting `label:`. -/
theorem claim_C3_theorem :
    (∀ (queries queryParts : List String),
       (2 ≤ queryParts.length ∧ ¬ "" ∈ queryParts →
         addQuery queries queryParts =
           queries ++ [queryParts.headD "" ++ ":" ++ String.join queryParts.tail]) ∧
       (queryParts.length < 2 ∨ "" ∈ queryParts →
         addQuery queries queryParts = queries)) ∧
    (∀ (env : GhEnv) (org previousRelease currentRelease repo : String)
       (queries : List String) (current : String),
       createQueryString env org "" previousRelease currentRelease repo = .ok (queries, current) →
       hasLabelClause queries = false) := by
  constructor
  · intro queries queryParts
    constructor
    · rintro ⟨h2, hne⟩
      unfold addQuery
      rw [if_neg (by omega)]
      rw [if_neg ?_]
      simp only [List.any_eq_true, beq_iff_eq, not_exists, not_and]
      intro x hmem heq
      exact hne (heq ▸ hmem)
    · intro hcase
      unfold addQuery
      rcases hcase with hlen | hmem
      · rw [if_pos (by omega)]
      · by_cases hlen : queryParts.length < 2
        · rw [if_pos hlen]
        · rw [if_neg hlen, if_pos (List.any_eq_true.mpr ⟨"", hmem, by simp⟩)]
  · intro env org previousRelease currentRelease repo queries current h
    unfold createQueryString at h
    split at h
    · exact absurd h (by simp)
    · split at h
      · exact absurd h (by simp)
      · split at h
        · exact absurd h (by simp)
        · rw [Except.ok.injEq, Prod.mk.injEq] at h
          obtain ⟨hq, -⟩ := h
          subst hq
          have hlab : ∀ qs : List String, addQuery qs ["label", ""] = qs := by
            intro qs
            unfold addQuery
            rw [if_neg (by simp), if_pos (by simp)]
          rw [hlab] at *
          rw [Bool.eq_false_iff]
          intro hcontra
          rw [hasLabelClause, List.any_eq_true] at hcontra
          obtain ⟨q, hmem, hq6⟩ := hcontra
          have step : ∀ (qs : List String) (key : String) (vals : List String),
              key ∈ ["repo", "is", "type", "merged", "base"] →
              q ∈ addQuery qs (key :: vals) →
              q ∈ qs := by
            intro qs key vals hk hmemq
            rcases mem_addQuery hmemq with h' | h'
            · exact h'
            · exfalso
              rw [h'] at hq6
              simp only [List.headD_cons, List.tail_cons] at hq6
              rw [take6_key_ne_label key (String.join vals) hk] at hq6
              exact Bool.false_ne_true hq6
          have h5 := step _ "base" _ (by simp) hmem
          have h4 := step _ "merged" _ (by simp) h5
          have h3 := step _ "type" _ (by simp) h4
          have h2 := step _ "is" _ (by simp) h3
          have h1 := step _ "repo" _ (by simp) h2
          simp at h1

/-- Witness for `claim_C3_theorem`: concrete calls for each case, and a
concrete successful `createQueryString` run with an empty label flag. -/
theorem claim_C3_witness :
    addQuery ["a:b"] ["merged", "x", "..", "y"] = ["a:b", "merged:x..y"] ∧
    addQuery ["a:b"] ["label", ""] = ["a:b"] ∧
    addQuery ["a:b"] ["lonely"] = ["a:b"] ∧
    hasLabelClause [] = false ∧
    (createQueryString
        ⟨fun _ _ => .ok ⟨63818524987, 0⟩, fun _ => .ok "v2", fun _ => .error "",
          fun _ _ _ => .error ""⟩ "knabben" "" "v1" "v2" "widget" =
      .ok (["repo:knabben/widget", "is:merged", "type:pr",
            "merged:2023-05-01T08:03:07Z..2023-05-01T08:03:07Z", "base:master"], "v2")) := by
  refine ⟨?_, ?_, ?_, rfl, ?_⟩
  · have h := (claim_C3_theorem.1 ["a:b"] ["merged", "x", "..", "y"]).1 (by simp)
    rw [h]; rfl
  · exact (claim_C3_theorem.1 ["a:b"] ["label", ""]).2 (Or.inr (by simp))
  · exact (claim_C3_theorem.1 ["a:b"] ["lonely"]).2 (Or.inl (by simp))
  · rfl

/-! ## Claim C6: label selection -/

/-- Claim C6: the classification label of an issue is the first label in
its label sequence, and the empty string when it has no labels; this is
the `Type` field of the `PR` built for the issue. -/
theorem claim_C6_theorem :
    (∀ l : String, ∀ ls : List String, fetchLabel (l :: ls) = l) ∧
    fetchLabel [] = "" ∧
    (∀ issues : List Issue,
      prGrouperOf issues = issues.map
        (fun issue => { Title := issue.title, Link := issue.url, Type' := fetchLabel issue.labels })) := by
  exact ⟨fun l ls => rfl, rfl, fun issues => rfl⟩

/-! ## Claims C7, C9, C10: the run pipeline -/

theorem renderLoop_eq_append (prs : List PR) :
    ∀ (content : String) (seen : List String),
      ∃ rest, renderLoop prs content seen = content ++ rest := by
  induction prs with
  | nil =>
    intro content seen
    exact ⟨"", by simp [renderLoop]⟩
  | cons p rest ih =>
    intro content seen
    by_cases hc : ContainsString seen p.Type'
    · obtain ⟨r, hr⟩ := ih (content ++ bulletLine p) seen
      refine ⟨bulletLine p ++ r, ?_⟩
      rw [renderLoop, if_neg (by simp [hc]), hr, String.append_assoc]
    · obtain ⟨r, hr⟩ := ih (content ++ headerLine p.Type' ++ bulletLine p) (seen ++ [p.Type'])
      refine ⟨headerLine p.Type' ++ bulletLine p ++ r, ?_⟩
      rw [renderLoop, if_pos (by simp [hc]), hr]
      simp [String.append_assoc]

theorem groupedLabelContent_header (repo currentRelease previousRelease : String)
    (issues : List Issue) :
    ∃ rest, groupedLabelContent repo currentRelease previousRelease issues =
      repo ++ ": " ++ currentRelease ++ " -- " ++ previousRelease ++ "\n" ++ rest := by
  unfold groupedLabelContent
  obtain ⟨r, hr⟩ := renderLoop_eq_append
    ((sortSort (prGrouperOf issues).toArray).toList)
    (repo ++ ": " ++ currentRelease ++ " -- " ++ previousRelease ++ "\n") ["", "", ""]
  exact ⟨r, hr⟩

theorem runCmd_fileContent_ok (env : GhEnv) (flags : Flags) (prior : Option String)
    (queries : List String) (current : String) (issues : List Issue)
    (hq : createQueryString env flags.org flags.label flags.previousRelease
            flags.currentRelease flags.repo = .ok (queries, current))
    (hs : env.searchIssues queries = .ok issues) :
    (runCmd env false flags prior).fileContent =
      some (groupedLabelContent flags.repo current flags.previousRelease issues) := by
  simp only [runCmd, Bool.false_eq_true, if_false, hq, hs]
  by_cases hsave : flags.save
  · simp only [hsave, if_true]
    cases env.updateReleaseNotes flags.repo current
      (groupedLabelContent flags.repo current flags.previousRelease issues) <;> rfl
  · simp only [hsave, Bool.false_eq_true, if_false]

theorem createQueryString_ok_elim (env : GhEnv) (org label previousRelease currentRelease repo : String)
    (queries : List String) (current : String)
    (hq : createQueryString env org label previousRelease currentRelease repo = .ok (queries, current)) :
    ∃ startTime endTime,
      getReleaseTime env repo previousRelease = .ok startTime ∧
      (if currentRelease == "" then env.getLatestRelease repo else .ok currentRelease) = .ok current ∧
      getReleaseTime env repo current = .ok endTime ∧
      queries = addQuery (addQuery (addQuery (addQuery (addQuery (addQuery []
        ["repo", org, "/", repo]) ["label", label]) ["is", "merged"])
        ["type", "pr"]) ["merged", startTime, "..", endTime]) ["base", "master"] := by
  unfold createQueryString at hq
  split at hq
  · exact absurd hq (by simp)
  · rename_i startTime hstart
    split at hq
    · exact absurd hq (by simp)
    · rename_i cur hcur
      split at hq
      · exact absurd hq (by simp)
      · rename_i endTime hend
        rw [Except.ok.injEq, Prod.mk.injEq] at hq
        obtain ⟨hqs, hcc⟩ := hq
        subst hcc
        exact ⟨startTime, endTime, hstart, hcur, hend, hqs.symm⟩

/-- Claim C7: when the `current_release` flag is empty, the run resolves
the latest release name first: `createQueryString` returns that resolved
name as the current release, the query's `merged:` window ends at the
creation time resolved for that name (so no clause was built before the
resolution), and the rendered output's header line carries the resolved
name in the current-release slot. -/
theorem claim_C7_theorem (env : GhEnv) (flags : Flags) (latest : String)
    (prior : Option String)
    (hcr : flags.currentRelease = "")
    (hlatest : env.getLatestRelease flags.repo = .ok latest)
    (queries : List String) (current : String)
    (hq : createQueryString env flags.org flags.label flags.previousRelease
            flags.currentRelease flags.repo = .ok (queries, current))
    (issues : List Issue)
    (hs : env.searchIssues queries = .ok issues) :
    current = latest ∧
    (∃ startTime endTime,
      getReleaseTime env flags.repo flags.previousRelease = .ok startTime ∧
      getReleaseTime env flags.repo latest = .ok endTime ∧
      queries = addQuery (addQuery (addQuery (addQuery (addQuery (addQuery []
        ["repo", flags.org, "/", flags.repo]) ["label", flags.label]) ["is", "merged"])
        ["type", "pr"]) ["merged", startTime, "..", endTime]) ["base", "master"]) ∧
    (∃ rest, (runCmd env false flags prior).fileContent =
      some (flags.repo ++ ": " ++ latest ++ " -- " ++ flags.previousRelease ++ "\n" ++ rest)) := by
  obtain ⟨startTime, endTime, hstart, hcur, hend, hqs⟩ :=
    createQueryString_ok_elim env flags.org flags.label flags.previousRelease
      flags.currentRelease flags.repo queries current hq
  have heq : current = latest := by
    rw [hcr, if_pos (by simp), hlatest, Except.ok.injEq] at hcur
    exact hcur.symm
  subst heq
  refine ⟨rfl, ⟨startTime, endTime, hstart, hend, hqs⟩, ?_⟩
  rw [runCmd_fileContent_ok env flags prior queries current issues hq hs]
  obtain ⟨rest, hrest⟩ :=
    groupedLabelContent_header flags.repo current flags.previousRelease issues
  exact ⟨rest, by rw [hrest]⟩

/-- Witness for `claim_C7_theorem`: a concrete run with an empty
`current_release` flag against an environment whose latest release is
`"v2"`; `"v2"` lands in the current slot and in the header line. -/
theorem claim_C7_witness :
    (let env : GhEnv :=
      ⟨fun _ _ => .ok ⟨63818524987, 0⟩, fun _ => .ok "v2", fun _ => .ok [], fun _ _ _ => .error ""⟩
     let flags : Flags := ⟨false, "knabben", "widget", "", "v1", ""⟩
     ∃ rest, (runCmd env false flags none).fileContent =
       some ("widget" ++ ": " ++ "v2" ++ " -- " ++ "v1" ++ "\n" ++ rest)) := by
  have h := claim_C7_theorem
    ⟨fun _ _ => .ok ⟨63818524987, 0⟩, fun _ => .ok "v2", fun _ => .ok [], fun _ _ _ => .error ""⟩
    ⟨false, "knabben", "widget", "", "v1", ""⟩ "v2" none rfl rfl
    ["repo:knabben/widget", "is:merged", "type:pr",
     "merged:2023-05-01T08:03:07Z..2023-05-01T08:03:07Z", "base:master"] "v2" rfl [] rfl
  exact h.2.2

theorem runCmd_query_error (env : GhEnv) (flags : Flags) (prior : Option String) (e : String)
    (hq : createQueryString env flags.org flags.label flags.previousRelease
            flags.currentRelease flags.repo = .error e) :
    runCmd env false flags prior =
      { fileContent := some "", logs := ["Start fetching release note", "Failed to create query string"],
        published := none } := by
  simp only [runCmd, Bool.false_eq_true, if_false, hq]

theorem runCmd_search_error (env : GhEnv) (flags : Flags) (prior : Option String)
    (queries : List String) (current : String) (e : String)
    (hq : createQueryString env flags.org flags.label flags.previousRelease
            flags.currentRelease flags.repo = .ok (queries, current))
    (hs : env.searchIssues queries = .error e) :
    runCmd env false flags prior =
      { fileContent := some "", logs := ["Start fetching release note", "Failed to fetch PR with release note"],
        published := none } := by
  simp only [runCmd, Bool.false_eq_true, if_false, hq, hs]

/-- Claim C9: once the output file has been opened (truncating it), a
failure of query construction or of the issue search makes the run return
early with the failure logged, nothing published, and the file left empty;
and a failure of the optional publish step is only logged — the locally
written report is kept. -/
theorem claim_C9_theorem (env : GhEnv) (flags : Flags) (prior : Option String) :
    (∀ e : String,
      createQueryString env flags.org flags.label flags.previousRelease
          flags.currentRelease flags.repo = .error e →
      (runCmd env false flags prior).fileContent = some "" ∧
      "Failed to create query string" ∈ (runCmd env false flags prior).logs ∧
      (runCmd env false flags prior).published = none) ∧
    (∀ (queries : List String) (current e : String),
      createQueryString env flags.org flags.label flags.previousRelease
          flags.currentRelease flags.repo = .ok (queries, current) →
      env.searchIssues queries = .error e →
      (runCmd env false flags prior).fileContent = some "" ∧
      "Failed to fetch PR with release note" ∈ (runCmd env false flags prior).logs ∧
      (runCmd env false flags prior).published = none) ∧
    (∀ (queries : List String) (current e : String) (issues : List Issue),
      flags.save = true →
      createQueryString env flags.org flags.label flags.previousRelease
          flags.currentRelease flags.repo = .ok (queries, current) →
      env.searchIssues queries = .ok issues →
      env.updateReleaseNotes flags.repo current
          (groupedLabelContent flags.repo current flags.previousRelease issues) = .error e →
      (runCmd env false flags prior).fileContent =
          some (groupedLabelContent flags.repo current flags.previousRelease issues) ∧
      "Error updating release notes" ∈ (runCmd env false flags prior).logs ∧
      (runCmd env false flags prior).published = none) := by
  refine ⟨?_, ?_, ?_⟩
  · intro e hq
    rw [runCmd_query_error env flags prior e hq]
    exact ⟨rfl, by simp, rfl⟩
  · intro queries current e hq hs
    rw [runCmd_search_error env flags prior queries current e hq hs]
    exact ⟨rfl, by simp, rfl⟩
  · intro queries current e issues hsave hq hs hu
    have : runCmd env false flags prior =
        { fileContent := some (groupedLabelContent flags.repo current flags.previousRelease issues)
          logs := ["Start fetching release note", "Saving data", "Update GITHUB release notes",
                   "Error updating release notes"]
          published := none } := by
      simp only [runCmd, Bool.false_eq_true, if_false, hq, hs, hsave, if_true, hu]
    rw [this]
    exact ⟨rfl, by simp, rfl⟩

/-- Witness for `claim_C9_theorem`: concrete environments exercising the
three failure paths. -/
theorem claim_C9_witness :
    (runCmd envTagFail false flagsSave (some "old")).fileContent = some "" ∧
    (runCmd envSearchFail false flagsSave (some "old")).fileContent = some "" ∧
    (runCmd envPublishFail false flagsSave (some "old")).fileContent =
      some (groupedLabelContent "widget" "v2" "v1" []) ∧
    (runCmd envPublishFail false flagsSave (some "old")).published = none := by
  refine ⟨?_, ?_, ?_, ?_⟩
  · exact ((claim_C9_theorem envTagFail flagsSave (some "old")).1 "no tag" rfl).1
  · exact ((claim_C9_theorem envSearchFail flagsSave (some "old")).2.1 queriesW "v2" "down" rfl rfl).1
  · exact ((claim_C9_theorem envPublishFail flagsSave (some "old")).2.2 queriesW "v2" "denied" []
      rfl rfl rfl rfl).1
  · exact ((claim_C9_theorem envPublishFail flagsSave (some "old")).2.2 queriesW "v2" "denied" []
      rfl rfl rfl rfl).2.2

/-- Claim C10: the output file is opened with truncate-and-create before
query construction and search, so whenever opening succeeds, any prior
content at the path is destroyed even if release-time resolution, query
building or the search then fails: the file ends the run holding the empty
string, which differs from any non-empty prior content. -/
theorem claim_C10_theorem (env : GhEnv) (flags : Flags) (prior : Option String)
    (hfail :
      (∃ e : String, createQueryString env flags.org flags.label flags.previousRelease
          flags.currentRelease flags.repo = .error e) ∨
      (∃ (queries : List String) (current e : String),
        createQueryString env flags.org flags.label flags.previousRelease
            flags.currentRelease flags.repo = .ok (queries, current) ∧
        env.searchIssues queries = .error e)) :
    (runCmd env false flags prior).fileContent = some "" ∧
    (prior ≠ some "" → (runCmd env false flags prior).fileContent ≠ prior) := by
  have hempty : (runCmd env false flags prior).fileContent = some "" := by
    rcases hfail with ⟨e, hq⟩ | ⟨queries, current, e, hq, hs⟩
    · rw [runCmd_query_error env flags prior e hq]
    · rw [runCmd_search_error env flags prior queries current e hq hs]
  exact ⟨hempty, fun hne => by rw [hempty]; exact fun hcontra => hne hcontra.symm⟩

/-- Witness for `claim_C10_theorem`: a run whose release-time resolution
fails wipes the pre-existing file content `"old"`. -/
theorem claim_C10_witness :
    (runCmd envTagFail false ⟨false, "knabben", "widget", "", "v1", "v2"⟩
        (some "old")).fileContent = some "" ∧
    (runCmd envTagFail false ⟨false, "knabben", "widget", "", "v1", "v2"⟩
        (some "old")).fileContent ≠ some "old" := by
  have h := claim_C10_theorem envTagFail ⟨false, "knabben", "widget", "", "v1", "v2"⟩ (some "old")
    (Or.inl ⟨"no tag", rfl⟩)
  exact ⟨h.1, h.2 (by simp)⟩

/-! ## Permutation facts for the embedded sort -/

theorem list_set_self {α : Type} (l : List α) (i : Nat) (hi : i < l.length) :
    l.set i l[i] = l := by
  apply List.ext_getElem
  · simp
  · intro n h1 h2
    rw [List.getElem_set]
    split
    · rename_i h; cases h; rfl
    · rfl

theorem list_swap_perm (l : List PR) (i j : Nat) (hi : i < l.length) (hj : j < l.length) :
    ((l.set i l[j]).set j l[i]).Perm l := by
  rcases eq_or_ne i j with rfl | hne
  · rw [List.set_set, list_set_self]
  · rw [List.perm_iff_count]
    intro a
    rw [List.count_set _ _ _ _ (by simpa using hj), List.count_set _ _ _ _ hi]
    rw [List.getElem_set_ne hne]
    by_cases e1 : l[i] = a <;> by_cases e2 : l[j] = a <;>
      simp [e1, e2] <;>
      first
        | omega
        | (have hcp := List.count_pos_iff.mpr (e1 ▸ List.getElem_mem hi); omega)

theorem aswap_perm (arr : Array PR) (i j : Nat) :
    (aswap arr i j).toList.Perm arr.toList := by
  unfold aswap
  split
  · rename_i h
    rw [Array.toList_swap]
    have hi : i < arr.toList.length := by simpa using h.1
    have hj : j < arr.toList.length := by simpa using h.2
    have e1 : arr.get ⟨j, h.2⟩ = arr.toList[j] := by
      rw [Array.get_eq_getElem, Array.getElem_toList]
    have e2 : arr.get ⟨i, h.1⟩ = arr.toList[i] := by
      rw [Array.get_eq_getElem, Array.getElem_toList]
    rw [e1, e2]
    exact list_swap_perm arr.toList i j hi hj
  · exact .refl _

theorem aswap_size (arr : Array PR) (i j : Nat) : (aswap arr i j).size = arr.size := by
  unfold aswap
  split
  · rw [Array.size_swap]
  · rfl

theorem insertionInner_perm (a : Nat) : ∀ (fuel j : Nat) (arr : Array PR),
    (insertionInner arr a fuel j).toList.Perm arr.toList := by
  intro fuel
  induction fuel with
  | zero => intro j arr; exact .refl _
  | succ fuel ih =>
    intro j arr
    rw [insertionInner]
    split
    · exact (ih (j - 1) (aswap arr j (j - 1))).trans (aswap_perm arr j (j - 1))
    · exact .refl _

theorem insertionOuter_perm (a b : Nat) : ∀ (fuel i : Nat) (arr : Array PR),
    (insertionOuter arr a b fuel i).toList.Perm arr.toList := by
  intro fuel
  induction fuel with
  | zero => intro i arr; exact .refl _
  | succ fuel ih =>
    intro i arr
    rw [insertionOuter]
    split
    · exact (ih (i + 1) (insertionInner arr a i i)).trans (insertionInner_perm a i i arr)
    · exact .refl _

theorem insertionSortGo_perm (arr : Array PR) (a b : Nat) :
    (insertionSortGo arr a b).toList.Perm arr.toList :=
  insertionOuter_perm a b b (a + 1) arr

theorem siftDownGo_perm (first : Nat) : ∀ (fuel root hi : Nat) (arr : Array PR),
    (siftDownGo first arr root hi fuel).toList.Perm arr.toList := by
  intro fuel
  induction fuel with
  | zero => intro root hi arr; exact .refl _
  | succ fuel ih =>
    intro root hi arr
    simp only [siftDownGo]
    split
    · exact .refl _
    · split <;> split
      all_goals
        first
          | exact .refl _
          | exact (ih _ hi _).trans (aswap_perm arr _ _)

theorem heapBuild_perm (first hi : Nat) : ∀ (count : Nat) (arr : Array PR),
    (heapBuild first hi arr count).toList.Perm arr.toList := by
  intro count
  induction count with
  | zero => intro arr; exact .refl _
  | succ count ih =>
    intro arr
    rw [heapBuild]
    exact (ih _).trans (siftDownGo_perm first (hi + 1) count hi arr)

theorem heapPop_perm (first : Nat) : ∀ (count : Nat) (arr : Array PR),
    (heapPop first arr count).toList.Perm arr.toList := by
  intro count
  induction count with
  | zero => intro arr; exact .refl _
  | succ count ih =>
    intro arr
    rw [heapPop]
    exact (ih _).trans (((siftDownGo_perm first (count + 1) 0 count _).trans
      (aswap_perm arr first (first + count))))

theorem heapSortGo_perm (arr : Array PR) (a b : Nat) :
    (heapSortGo arr a b).toList.Perm arr.toList := by
  unfold heapSortGo
  exact (heapPop_perm a (b - a) _).trans (heapBuild_perm a (b - a) _ arr)

theorem medianOfThree_perm (arr : Array PR) (m1 m0 m2 : Nat) :
    (medianOfThree arr m1 m0 m2).toList.Perm arr.toList := by
  simp only [medianOfThree]
  split <;> split <;> try split
  all_goals
    first
      | exact .refl _
      | exact aswap_perm _ _ _
      | exact (aswap_perm _ _ _).trans (aswap_perm _ _ _)
      | exact ((aswap_perm _ _ _).trans (aswap_perm _ _ _)).trans (aswap_perm _ _ _)

theorem dpLoop_go_perm (pivot : Nat) : ∀ (fuel b c : Nat) (arr : Array PR),
    (dpLoop.go pivot fuel arr b c).1.toList.Perm arr.toList := by
  intro fuel
  induction fuel with
  | zero => intro b c arr; exact .refl _
  | succ fuel ih =>
    intro b c arr
    simp only [dpLoop.go]
    split
    · exact .refl _
    · exact (ih _ _ _).trans (aswap_perm arr _ _)

theorem dpLoop_perm (pivot : Nat) (arr : Array PR) (a b c : Nat) :
    (dpLoop pivot arr a b c).1.toList.Perm arr.toList :=
  dpLoop_go_perm pivot (c - b + 1) b c arr

theorem dpProtect_go_perm (pivot : Nat) : ∀ (fuel a b : Nat) (arr : Array PR),
    (dpProtect.go pivot fuel arr a b).1.toList.Perm arr.toList := by
  intro fuel
  induction fuel with
  | zero => intro a b arr; exact .refl _
  | succ fuel ih =>
    intro a b arr
    simp only [dpProtect.go]
    split
    · exact .refl _
    · exact (ih _ _ _).trans (aswap_perm arr _ _)

theorem dpProtect_perm (pivot : Nat) (arr : Array PR) (a b : Nat) :
    (dpProtect pivot arr a b).1.toList.Perm arr.toList :=
  dpProtect_go_perm pivot (b - a + 1) a b arr

theorem doPivotInit_perm (arr : Array PR) (lo hi : Nat) :
    (doPivotInit arr lo hi).toList.Perm arr.toList := by
  simp only [doPivotInit]
  split
  · exact (medianOfThree_perm _ _ _ _).trans ((medianOfThree_perm _ _ _ _).trans
      ((medianOfThree_perm _ _ _ _).trans (medianOfThree_perm _ _ _ _)))
  · exact medianOfThree_perm _ _ _ _

theorem doPivotMid_perm (arr : Array PR) (lo hi b c : Nat) :
    (doPivotMid arr lo hi b c).1.toList.Perm arr.toList := by
  simp only [doPivotMid]
  split
  · split <;> split <;> split
    all_goals
      first
        | exact .refl _
        | exact aswap_perm _ _ _
        | exact (aswap_perm _ _ _).trans (aswap_perm _ _ _)
  · exact .refl _

theorem doPivot_perm (arr : Array PR) (lo hi : Nat) :
    (doPivot arr lo hi).1.toList.Perm arr.toList := by
  simp only [doPivot]
  rcases hloop : dpLoop lo (doPivotInit arr lo hi)
      (dpScanA (doPivotInit arr lo hi) lo (hi - 1) (hi - 1) (lo + 1))
      (dpScanA (doPivotInit arr lo hi) lo (hi - 1) (hi - 1) (lo + 1)) (hi - 1) with ⟨arr3, b3, c3⟩
  have h3 : arr3.toList.Perm arr.toList := by
    have h := dpLoop_perm lo (doPivotInit arr lo hi)
      (dpScanA (doPivotInit arr lo hi) lo (hi - 1) (hi - 1) (lo + 1))
      (dpScanA (doPivotInit arr lo hi) lo (hi - 1) (hi - 1) (lo + 1)) (hi - 1)
    rw [hloop] at h
    exact h.trans (doPivotInit_perm arr lo hi)
  rcases hmid : doPivotMid arr3 lo hi b3 c3 with ⟨arr4, b4, c4, protect4⟩
  have h4 : arr4.toList.Perm arr.toList := by
    have h := doPivotMid_perm arr3 lo hi b3 c3
    rw [hmid] at h
    exact h.trans h3
  split
  · exact (aswap_perm _ _ _).trans ((dpProtect_perm _ _ _ _).trans h4)
  · exact (aswap_perm _ _ _).trans h4

theorem shellPass_perm (a b : Nat) : ∀ (fuel i : Nat) (arr : Array PR),
    (shellPass a b arr fuel i).toList.Perm arr.toList := by
  intro fuel
  induction fuel with
  | zero => intro i arr; exact .refl _
  | succ fuel ih =>
    intro i arr
    simp only [shellPass]
    split
    · split
      · exact (ih _ _).trans (aswap_perm _ _ _)
      · exact ih _ _
    · exact .refl _

theorem quickSortGo_perm : ∀ (fuel : Nat) (arr : Array PR) (a b depth : Nat),
    (quickSortGo fuel arr a b depth).toList.Perm arr.toList := by
  intro fuel
  induction fuel with
  | zero => intro arr a b depth; exact .refl _
  | succ fuel ih =>
    intro arr a b depth
    simp only [quickSortGo]
    split
    · split
      · exact heapSortGo_perm arr a b
      · rcases hp : doPivot arr a b with ⟨arr1, mlo, mhi⟩
        have h1 : arr1.toList.Perm arr.toList := by
          have h := doPivot_perm arr a b
          rw [hp] at h
          exact h
        split
        · exact (ih _ _ _ _).trans ((ih _ _ _ _).trans h1)
        · exact (ih _ _ _ _).trans ((ih _ _ _ _).trans h1)
    · split
      · exact (insertionSortGo_perm _ _ _).trans (shellPass_perm _ _ _ _ _)
      · exact .refl _

theorem sortSort_perm (arr : Array PR) : (sortSort arr).toList.Perm arr.toList :=
  quickSortGo_perm _ arr 0 arr.size (goMaxDepth arr.size)

theorem sortSort_mem {arr : Array PR} {p : PR} (h : p ∈ (sortSort arr).toList) :
    p ∈ arr.toList :=
  (sortSort_perm arr).mem_iff.mp h

theorem ContainsString_iff (l : List String) (s : String) :
    ContainsString l s = true ↔ s ∈ l := by
  unfold ContainsString
  rw [List.any_eq_true]
  constructor
  · rintro ⟨x, hx, he⟩
    exact (beq_iff_eq.mp he) ▸ hx
  · intro h
    exact ⟨s, h, beq_self_eq_true s⟩

theorem ContainsString_seeded (s : List String) (t : String) (h : t ≠ "") :
    ContainsString (["", "", ""] ++ s) t = ContainsString s t := by
  rcases hb : ContainsString s t with _ | _
  · rw [Bool.eq_false_iff]
    intro hc
    rcases List.mem_append.mp ((ContainsString_iff _ _).mp hc) with h1 | h1
    · simp at h1
      exact h h1
    · exact absurd ((ContainsString_iff _ _).mpr h1) (by rw [hb]; simp)
  · exact (ContainsString_iff _ _).mpr (List.mem_append_right _ ((ContainsString_iff _ _).mp hb))

theorem renderLoop_seeded (prs : List PR) :
    ∀ (content : String) (s : List String),
      (∀ p ∈ prs, p.Type' ≠ "") →
      renderLoop prs content (["", "", ""] ++ s) = renderLoop prs content s := by
  induction prs with
  | nil => intro content s _; rfl
  | cons p rest ih =>
    intro content s hne
    have hp : p.Type' ≠ "" := hne p (by simp)
    have hrest : ∀ q ∈ rest, q.Type' ≠ "" := fun q hq => hne q (by simp [hq])
    rw [renderLoop, renderLoop, ContainsString_seeded s p.Type' hp]
    rcases hb : ContainsString s p.Type' with _ | _
    · simp only [Bool.not_false, if_pos]
      rw [show (["", "", ""] ++ s) ++ [p.Type'] = ["", "", ""] ++ (s ++ [p.Type']) by simp]
      exact ih _ _ hrest
    · simp only [Bool.not_true, Bool.false_eq_true, if_false]
      exact ih _ _ hrest

/-- Claim C4, counterexample to the claim as stated: for a single issue
with no labels (classification label `""`), the seeded run suppresses the
`##` header (the empty label is already "seen"), while the unseeded
variant emits a header line `"\n## \n"`; the two rendered reports differ. -/
theorem claim_C4_counterexample :
    groupedLabelContent "r" "c" "p" [⟨"t", "u", []⟩] = "r: c -- p\n* t - u\n" ∧
    groupedLabelContentNoSeed "r" "c" "p" [⟨"t", "u", []⟩] = "r: c -- p\n\n## \n* t - u\n" ∧
    groupedLabelContent "r" "c" "p" [⟨"t", "u", []⟩] ≠
      groupedLabelContentNoSeed "r" "c" "p" [⟨"t", "u", []⟩] := by
  refine ⟨by decide, by decide, by decide⟩

/-- Claim C4, amended: pre-seeding the seen-labels list with three empty
strings has no observable effect on the rendered report *provided every
issue's classification label is non-empty* (i.e. every issue has at least
one label and its first label is a non-empty string); an issue whose
classification is the empty string has its header suppressed by the
seeding. -/
theorem claim_C4_theorem (repo currentRelease previousRelease : String)
    (issues : List Issue) (hne : ∀ i ∈ issues, fetchLabel i.labels ≠ "") :
    groupedLabelContent repo currentRelease previousRelease issues =
      groupedLabelContentNoSeed repo currentRelease previousRelease issues := by
  unfold groupedLabelContent groupedLabelContentNoSeed
  apply renderLoop_seeded
  intro p hp
  have hmem : p ∈ prGrouperOf issues := by
    have h1 := @sortSort_mem (prGrouperOf issues).toArray p (by simpa using hp)
    simpa using h1
  rw [prGrouperOf, List.mem_map] at hmem
  obtain ⟨issue, hissue, hmap⟩ := hmem
  rw [← hmap]
  exact hne issue hissue

/-- Witness for `claim_C4_theorem`: the spec's two-issue example, whose
labels `bug` and `feature` are non-empty; seeded and unseeded rendering
agree. -/
theorem claim_C4_witness :
    groupedLabelContent "widget" "v1.1.0" "v1.0.0"
        [⟨"Fix crash", "http://pr/1", ["bug"]⟩, ⟨"Add widget", "http://pr/2", ["feature"]⟩] =
      groupedLabelContentNoSeed "widget" "v1.1.0" "v1.0.0"
        [⟨"Fix crash", "http://pr/1", ["bug"]⟩, ⟨"Add widget", "http://pr/2", ["feature"]⟩] :=
  claim_C4_theorem "widget" "v1.1.0" "v1.0.0"
    [⟨"Fix crash", "http://pr/1", ["bug"]⟩, ⟨"Add widget", "http://pr/2", ["feature"]⟩]
    (by decide)

/-! ## Bridging Go string comparison with the string order -/

theorem goStrLtChars_iff : ∀ as bs : List Char, goStrLtChars as bs = true ↔ as < bs := by
  intro as
  induction as with
  | nil =>
    intro bs
    cases bs with
    | nil => simp [goStrLtChars]
    | cons b bs => simpa [goStrLtChars] using List.Lex.nil
  | cons a as ih =>
    intro bs
    cases bs with
    | nil => simp [goStrLtChars]
    | cons b bs =>
      rw [goStrLtChars]
      by_cases hab : a < b
      · simp only [if_pos hab, true_iff]
        exact List.Lex.rel hab
      · rw [if_neg hab]
        by_cases hba : b < a
        · simp only [if_pos hba, Bool.false_eq_true, false_iff]
          intro h
          cases h with
          | cons _ => exact absurd hba (lt_irrefl _)
          | rel h' => exact hab h'
        · rw [if_neg hba]
          have heq : a = b := le_antisymm (not_lt.mp hba) (not_lt.mp hab)
          subst heq
          rw [ih bs]
          constructor
          · intro h
            exact List.Lex.cons h
          · intro h
            cases h with
            | cons h' => exact h'
            | rel h' => exact absurd h' (lt_irrefl _)

theorem goStrLt_iff (s t : String) : goStrLt s t = true ↔ s < t := by
  rw [String.lt_iff_toList_lt]
  exact goStrLtChars_iff s.toList t.toList

theorem goStrLt_false_iff (s t : String) : goStrLt s t = false ↔ t ≤ s := by
  rw [Bool.eq_false_iff, Ne, goStrLt_iff]
  exact not_lt

theorem ContainsString_append_one (seen : List String) (x t : String) :
    ContainsString (seen ++ [x]) t = (ContainsString seen t || x == t) := by
  unfold ContainsString
  rw [List.any_append]
  simp

theorem renderHeaders_eq : ∀ (prs : List PR) (seen : List String),
    renderHeaders prs seen =
      (firstDistincts (prs.map PR.Type')).filter (fun t => !ContainsString seen t) := by
  intro prs
  induction prs with
  | nil => intro seen; rfl
  | cons p rest ih =>
    intro seen
    rw [renderHeaders, List.map_cons, firstDistincts, List.filter_cons]
    rcases hc : ContainsString seen p.Type' with _ | _
    · simp only [Bool.not_false, if_pos, hc, if_true]
      rw [ih (seen ++ [p.Type'])]
      congr 1
      rw [List.filter_filter]
      apply List.filter_congr
      intro t _
      rw [ContainsString_append_one]
      rcases ht : t == p.Type' with _ | _
      · have hsym : (p.Type' == t) = false := by
          rw [Bool.eq_false_iff] at ht ⊢
          intro hcontra
          exact ht (by rw [beq_iff_eq] at hcontra ⊢; exact hcontra.symm)
        simp only [hsym, bne, ht, Bool.or_false, Bool.not_false, Bool.and_true]
      · have hsym : (p.Type' == t) = true := by
          rw [beq_iff_eq] at ht ⊢
          exact ht.symm
        simp only [hsym, bne, ht, Bool.or_true, Bool.not_true, Bool.and_false]
    · simp only [hc, Bool.not_true, Bool.false_eq_true, if_false]
      rw [ih seen, List.filter_filter]
      apply List.filter_congr
      intro t _
      rcases hnt : ContainsString seen t with _ | _
      · have hne : (t == p.Type') = false := by
          rw [Bool.eq_false_iff]
          intro hcontra
          rw [beq_iff_eq] at hcontra
          rw [hcontra] at hnt
          rw [hnt] at hc
          exact Bool.false_ne_true hc
        simp only [hnt, bne, hne, Bool.not_false, Bool.and_true]
      · simp only [hnt, Bool.not_true, Bool.false_and]

theorem mem_firstDistincts : ∀ (l : List String) (t : String), t ∈ firstDistincts l → t ∈ l := by
  intro l
  induction l with
  | nil => intro t h; exact absurd h (by simp [firstDistincts])
  | cons x xs ih =>
    intro t h
    rw [firstDistincts] at h
    rcases h with h | h
    · simp
    · rename_i h'
      exact List.mem_cons_of_mem x (ih t (List.mem_of_mem_filter h'))

theorem renderLoop_runs : ∀ (prs : List PR) (content : String) (seen : List String)
    (prev : Option String),
    (∀ p ∈ prs, p.Type' ≠ "") →
    sortedByLabel prs →
    (∀ x ∈ seen, x ≠ "" → ∃ d, prev = some d ∧ x ≤ d) →
    (∀ d, prev = some d → d ∈ seen ∧ d ≠ "") →
    (∀ x ∈ seen, x ≠ "" → ∀ p ∈ prs, x ≤ p.Type') →
    renderLoop prs content seen = content ++ renderRuns prs prev := by
  intro prs
  induction prs with
  | nil =>
    intro content seen prev _ _ _ _ _
    rw [renderLoop, renderRuns, String.append_empty]
  | cons p rest ih =>
    intro content seen prev hne hsorted inv1 inv2 inv3
    have ht : p.Type' ≠ "" := hne p (by simp)
    have hnerest : ∀ q ∈ rest, q.Type' ≠ "" := fun q hq => hne q (by simp [hq])
    rw [sortedByLabel, List.pairwise_cons] at hsorted
    obtain ⟨hheadle, hsortedrest⟩ := hsorted
    have hle : ∀ q ∈ rest, p.Type' ≤ q.Type' :=
      fun q hq => (goStrLt_false_iff _ _).mp (hheadle q hq)
    have hcontains : ContainsString seen p.Type' = true ↔ prev = some p.Type' := by
      constructor
      · intro hcs
        obtain ⟨d, hd, hled⟩ := inv1 p.Type' ((ContainsString_iff _ _).mp hcs) ht
        obtain ⟨hdseen, hdne⟩ := inv2 d hd
        have hdle : d ≤ p.Type' := inv3 d hdseen hdne p (by simp)
        rw [hd, le_antisymm hled hdle]
      · intro hprev
        exact (ContainsString_iff _ _).mpr (inv2 p.Type' hprev).1
    rw [renderLoop, renderRuns]
    rcases hc : ContainsString seen p.Type' with _ | _
    · -- not seen yet: header emitted, and the previous run had a different label
      have hprev : ¬ some p.Type' = prev := by
        intro hcontra
        rw [hcontains.mpr hcontra.symm] at hc
        exact Bool.false_ne_true hc.symm
      rw [if_neg hprev]
      simp only [Bool.not_false, if_true]
      rw [ih (content ++ headerLine p.Type' ++ bulletLine p) (seen ++ [p.Type'])
        (some p.Type') hnerest hsortedrest ?_ ?_ ?_]
      · simp [String.append_assoc]
      · intro x hx hxne
        refine ⟨p.Type', rfl, ?_⟩
        rcases List.mem_append.mp hx with hx | hx
        · exact inv3 x hx hxne p (by simp)
        · rw [List.mem_singleton.mp hx]
      · intro d hd
        rw [Option.some.injEq] at hd
        exact ⟨by simp [hd], by rw [← hd]; exact ht⟩
      · intro x hx hxne q hq
        rcases List.mem_append.mp hx with hx | hx
        · exact inv3 x hx hxne q (by simp [hq])
        · rw [List.mem_singleton.mp hx]
          exact hle q hq
    · -- already seen: same label as the immediately preceding PR, no header
      have hprev : some p.Type' = prev := (hcontains.mp hc).symm
      rw [if_pos hprev]
      simp only [Bool.not_true, Bool.false_eq_true, if_false]
      rw [ih (content ++ bulletLine p) seen (some p.Type') hnerest hsortedrest ?_ ?_ ?_]
      · simp [String.append_assoc]
      · intro x hx hxne
        exact ⟨p.Type', rfl, inv3 x hx hxne p (by simp)⟩
      · intro d hd
        rw [Option.some.injEq] at hd
        subst hd
        exact ⟨(ContainsString_iff _ _).mp hc, ht⟩
      · intro x hx hxne q hq
        exact inv3 x hx hxne q (by simp [hq])

/-- Claim C5, counterexample to the claim as stated: the singleton
sequence holding one PR with empty classification label is sorted and has
one distinct label (`""`), yet the rendering loop emits no header at all —
the pre-seeded seen-list already contains `""` — so "exactly one header
per distinct label" fails. -/
theorem claim_C5_counterexample :
    sortedByLabel [(⟨"t", "u", ""⟩ : PR)] ∧
    firstDistincts ([(⟨"t", "u", ""⟩ : PR)].map PR.Type') = [""] ∧
    renderHeaders [(⟨"t", "u", ""⟩ : PR)] ["", "", ""] = [] ∧
    renderLoop [(⟨"t", "u", ""⟩ : PR)] "widget: v2 -- v1\n" ["", "", ""] =
      "widget: v2 -- v1\n* t - u\n" := by
  refine ⟨List.pairwise_singleton _ _, by decide, by decide, by decide⟩

/-- Claim C5, amended: for a label-sorted PR sequence *whose labels are
all non-empty*, the rendering loop emits the headers of exactly the
distinct labels, in order (`renderHeaders = firstDistincts`), and the
rendered text is the canonical run rendering: each PR's bullet preceded by
a header exactly when its label differs from the immediately preceding
PR's label, i.e. exactly one header per distinct label, immediately before
that label's first bullet, never repeated for consecutive equal labels. -/
theorem claim_C5_theorem (prs : List PR) (content : String)
    (hne : ∀ p ∈ prs, p.Type' ≠ "")
    (hsorted : sortedByLabel prs) :
    renderLoop prs content ["", "", ""] = content ++ renderRuns prs none ∧
    renderHeaders prs ["", "", ""] = firstDistincts (prs.map PR.Type') := by
  constructor
  · refine renderLoop_runs prs content ["", "", ""] none hne hsorted ?_ ?_ ?_
    · intro x hx hxne
      simp at hx
      exact absurd hx hxne
    · intro d hd
      cases hd
    · intro x hx hxne q hq
      simp at hx
      exact absurd hx hxne
  · rw [renderHeaders_eq]
    apply List.filter_eq_self.mpr
    intro t htmem
    have htne : t ≠ "" := by
      have hmem := mem_firstDistincts _ t htmem
      rw [List.mem_map] at hmem
      obtain ⟨p, hp, hpt⟩ := hmem
      rw [← hpt]
      exact hne p hp
    have hfalse : ContainsString ["", "", ""] t = false := by
      rw [Bool.eq_false_iff]
      intro hcs
      have hm := (ContainsString_iff _ _).mp hcs
      simp at hm
      exact htne hm
    rw [hfalse]
    rfl

/-- Witness for `claim_C5_theorem`: the spec's two-PR example (`bug` then
`feature`), sorted, with non-empty labels. -/
theorem claim_C5_witness :
    renderLoop prsW "widget: v1.1.0 -- v1.0.0\n" ["", "", ""] =
      "widget: v1.1.0 -- v1.0.0\n" ++ renderRuns prsW none ∧
    renderHeaders prsW ["", "", ""] = firstDistincts (prsW.map PR.Type') :=
  claim_C5_theorem prsW "widget: v1.1.0 -- v1.0.0\n" (by decide)
    (by unfold sortedByLabel prsW; decide)

/-! ## Order facts for `byLabelLess` and basic array-cell lemmas -/

theorem byLabelLess_asymm {x y : PR} (h : byLabelLess x y = true) : byLabelLess y x = false := by
  rw [byLabelLess, goStrLt_iff] at h
  rw [byLabelLess, goStrLt_false_iff]
  exact le_of_lt h

theorem byLabelLess_neg_trans {x y z : PR} (h1 : byLabelLess y x = false)
    (h2 : byLabelLess z y = false) : byLabelLess z x = false := by
  rw [byLabelLess, goStrLt_false_iff] at h1 h2
  rw [byLabelLess, goStrLt_false_iff]
  exact le_trans h1 h2

theorem byLabelLess_ne {x y : PR} (h : byLabelLess x y = true) : x.Type' ≠ y.Type' := by
  rw [byLabelLess, goStrLt_iff] at h
  exact ne_of_lt h

theorem byLabelLess_false_true_trans {x y z : PR} (h1 : byLabelLess y x = false)
    (h2 : byLabelLess y z = true) : byLabelLess x z = true := by
  rw [byLabelLess, goStrLt_false_iff] at h1
  rw [byLabelLess, goStrLt_iff] at h2 ⊢
  exact lt_of_le_of_lt h1 h2

theorem aget_aswap (arr : Array PR) (i j k : Nat) (hi : i < arr.size) (hj : j < arr.size) :
    aget (aswap arr i j) k = if k = i then aget arr j else if k = j then aget arr i else aget arr k := by
  rw [aswap, dif_pos ⟨hi, hj⟩]
  by_cases hk : k < arr.size
  · rw [aget, aget, aget, aget, Array.getD, Array.getD, Array.getD, Array.getD]
    rw [dif_pos (by rw [Array.size_swap]; exact hk), dif_pos hj, dif_pos hi, dif_pos hk]
    simp only [Array.get_eq_getElem, Array.getElem_swap]
    rfl
  · have hki : k ≠ i := fun h => hk (h ▸ hi)
    have hkj : k ≠ j := fun h => hk (h ▸ hj)
    rw [if_neg hki, if_neg hkj, aget, aget, Array.getD, Array.getD]
    rw [dif_neg (by rw [Array.size_swap]; exact hk), dif_neg hk]

theorem aget_aswap_left (arr : Array PR) (i j : Nat) (hi : i < arr.size) (hj : j < arr.size) :
    aget (aswap arr i j) i = aget arr j := by
  rw [aget_aswap arr i j i hi hj, if_pos rfl]

theorem aget_aswap_right (arr : Array PR) (i j : Nat) (hi : i < arr.size) (hj : j < arr.size) :
    aget (aswap arr i j) j = aget arr i := by
  rw [aget_aswap arr i j j hi hj]
  split
  · rename_i h; rw [h]
  · rw [if_pos rfl]

theorem aget_aswap_other (arr : Array PR) (i j k : Nat) (hki : k ≠ i) (hkj : k ≠ j) :
    aget (aswap arr i j) k = aget arr k := by
  by_cases hb : i < arr.size ∧ j < arr.size
  · rw [aget_aswap arr i j k hb.1 hb.2, if_neg hki, if_neg hkj]
  · rw [aswap, dif_neg hb]

theorem filter_swap_adj (p : PR → Bool) :
    ∀ (l : List PR) (k : Nat) (hk : k + 1 < l.length),
      ¬(p l[k] = true ∧ p l[k + 1] = true) →
      ((l.set k l[k + 1]).set (k + 1) l[k]).filter p = l.filter p := by
  intro l
  induction l with
  | nil => intro k hk _; simp at hk
  | cons a l ih =>
    intro k hk hcond
    cases k with
    | zero =>
      cases l with
      | nil => simp at hk
      | cons b rest =>
        simp only [List.getElem_cons_zero, List.getElem_cons_succ] at hcond ⊢
        simp only [List.set_cons_zero, List.set_cons_succ]
        rw [List.filter_cons, List.filter_cons, List.filter_cons, List.filter_cons]
        rcases hpa : p a with _ | _ <;> rcases hpb : p b with _ | _
        · simp [hpa, hpb]
        · simp [hpa, hpb]
        · simp [hpa, hpb]
        · exact absurd ⟨hpa, hpb⟩ hcond
    | succ k =>
      cases l with
      | nil => simp at hk
      | cons b rest =>
        simp only [List.getElem_cons_succ] at hcond ⊢
        simp only [List.set_cons_succ]
        rw [List.filter_cons, List.filter_cons]
        have hrec := ih k (by simpa using hk) hcond
        simp only [List.getElem_cons_succ] at hrec
        rcases hpa : p a with _ | _ <;> simp [hpa, hrec]

theorem aless_eq (arr : Array PR) (i j : Nat) :
    aless arr i j = byLabelLess (aget arr i) (aget arr j) := rfl

theorem aget_eq_toList (arr : Array PR) (k : Nat) (hk : k < arr.toList.length) :
    aget arr k = arr.toList[k] := by
  have hk' : k < arr.size := by simpa using hk
  rw [aget, Array.getD, dif_pos hk']
  rw [Array.get_eq_getElem, Array.getElem_toList]

theorem labelFilter_aswap_adj (arr : Array PR) (j : Nat) (hj1 : 1 ≤ j) (hj : j < arr.size)
    (hlt : aless arr j (j - 1) = true) (lab : String) :
    labelFilter (aswap arr j (j - 1)) lab = labelFilter arr lab := by
  obtain ⟨k, rfl⟩ : ∃ k, j = k + 1 := ⟨j - 1, by omega⟩
  have hk1 : k + 1 - 1 = k := by omega
  rw [hk1] at hlt ⊢
  have hksz : k < arr.size := by omega
  rw [labelFilter, labelFilter, aswap, dif_pos ⟨hj, hksz⟩, Array.toList_swap]
  have hklen : k + 1 < arr.toList.length := by simpa using hj
  simp only [Fin.val_mk, Array.get_eq_getElem]
  rw [← Array.getElem_toList hksz, ← Array.getElem_toList hj]
  rw [List.set_comm _ _ _ (by omega : k + 1 ≠ k)]
  apply filter_swap_adj _ arr.toList k hklen
  intro ⟨h1, h2⟩
  have hne : (aget arr (k + 1)).Type' ≠ (aget arr k).Type' := byLabelLess_ne hlt
  rw [aget_eq_toList _ _ (by simpa using hj), aget_eq_toList _ _ (by simpa using hksz)] at hne
  exact hne (by rw [beq_iff_eq.mp h2, beq_iff_eq.mp h1])

theorem insertionInner_spec (a i : Nat) :
    ∀ (fuel j : Nat) (arr : Array PR),
      i < arr.size → a ≤ j → j ≤ i → j - a ≤ fuel →
      sortedRange arr a j →
      sortedRange arr (j + 1) (i + 1) →
      (∀ x y, a ≤ x → x < j → j < y → y ≤ i → aless arr y x = false) →
      (∀ y, j < y → y ≤ i → aless arr j y = true) →
      (insertionInner arr a fuel j).size = arr.size ∧
      sortedRange (insertionInner arr a fuel j) a (i + 1) ∧
      (∀ k, k < a ∨ i < k → aget (insertionInner arr a fuel j) k = aget arr k) ∧
      (∀ lab, labelFilter (insertionInner arr a fuel j) lab = labelFilter arr lab) := by
  have sorted_of_stop : ∀ (j : Nat) (arr : Array PR), a ≤ j → j ≤ i →
      sortedRange arr a j → sortedRange arr (j + 1) (i + 1) →
      (∀ x y, a ≤ x → x < j → j < y → y ≤ i → aless arr y x = false) →
      (∀ y, j < y → y ≤ i → aless arr j y = true) →
      (j = a ∨ aless arr j (j - 1) = false) →
      sortedRange arr a (i + 1) := by
    intro j arr haj hji inv1 inv2 inv3 inv4 hstop
    intro x y hax hxy hyi
    rcases Nat.lt_trichotomy y j with hyj | hyj | hyj
    · exact inv1 x y hax hxy hyj
    · subst hyj
      rcases hstop with hstop | hstop
      · omega
      · rcases Nat.eq_or_lt_of_le (Nat.le_sub_one_of_lt hxy) with hx1 | hx1
        · rw [hx1]
          exact hstop
        · have h1 : aless arr (y - 1) x = false := inv1 x (y - 1) hax (by omega) (by omega)
          rw [aless_eq] at h1 hstop ⊢
          exact byLabelLess_neg_trans h1 hstop
    · rcases Nat.lt_trichotomy x j with hxj | hxj | hxj
      · exact inv3 x y hax hxj hyj (by omega)
      · subst hxj
        have h4 := inv4 y hyj (by omega)
        rw [aless_eq] at h4 ⊢
        exact byLabelLess_asymm h4
      · exact inv2 x y (by omega) hxy (by omega)
  intro fuel
  induction fuel with
  | zero =>
    intro j arr hi haj hji hfuel inv1 inv2 inv3 inv4
    have hja : j = a := by omega
    refine ⟨rfl, ?_, fun k _ => rfl, fun lab => rfl⟩
    exact sorted_of_stop j arr haj hji inv1 inv2 inv3 inv4 (Or.inl hja)
  | succ fuel ih =>
    intro j arr hi haj hji hfuel inv1 inv2 inv3 inv4
    rw [insertionInner]
    rcases hguard : (a < j && aless arr j (j - 1)) with _ | _
    · rw [if_neg Bool.false_ne_true]
      refine ⟨rfl, ?_, fun k _ => rfl, fun lab => rfl⟩
      rw [Bool.and_eq_false_iff] at hguard
      rcases hguard with hguard | hguard
      · have hja : j = a := by simp at hguard; omega
        exact sorted_of_stop j arr haj hji inv1 inv2 inv3 inv4 (Or.inl hja)
      · exact sorted_of_stop j arr haj hji inv1 inv2 inv3 inv4 (Or.inr hguard)
    · rw [if_pos rfl]
      rw [Bool.and_eq_true] at hguard
      obtain ⟨haj', hlt⟩ := hguard
      have haj2 : a < j := by simpa using haj'
      have hjsz : j < arr.size := by omega
      have hj1sz : j - 1 < arr.size := by omega
      set arr2 := aswap arr j (j - 1) with harr2
      have hsz2 : arr2.size = arr.size := aswap_size arr j (j - 1)
      have hcell_l : aget arr2 (j - 1) = aget arr j := by
        rw [harr2]
        have := aget_aswap_right arr j (j - 1) hjsz hj1sz
        exact this
      have hcell_r : aget arr2 j = aget arr (j - 1) := by
        rw [harr2]
        exact aget_aswap_left arr j (j - 1) hjsz hj1sz
      have hcell_o : ∀ k, k ≠ j - 1 → k ≠ j → aget arr2 k = aget arr k := by
        intro k h1 h2
        rw [harr2]
        exact aget_aswap_other arr j (j - 1) k h2 h1
      have hres := ih (j - 1) arr2 (by omega) (by omega) (by omega) (by omega)
        ?_ ?_ ?_ ?_
      · obtain ⟨hsz', hsorted', hframe', hfilter'⟩ := hres
        refine ⟨by rw [hsz', hsz2], hsorted', ?_, ?_⟩
        · intro k hk
          rw [hframe' k hk, hcell_o k (by omega) (by omega)]
        · intro lab
          rw [hfilter' lab, harr2]
          exact labelFilter_aswap_adj arr j (by omega) hjsz hlt lab
      · -- prefix [a, j-1) still sorted
        intro x y hax hxy hyj
        rw [aless_eq, hcell_o x (by omega) (by omega), hcell_o y (by omega) (by omega),
          ← aless_eq]
        exact inv1 x y hax hxy (by omega)
      · -- tail [j, i] sorted
        intro x y hjx hxy hyi
        have hjj : j - 1 + 1 = j := by omega
        rw [hjj] at hjx
        rcases Nat.eq_or_lt_of_le hjx with hxj | hxj
        · rw [aless_eq, hcell_o y (by omega) (by omega), ← hxj, hcell_r]
          have h3 := inv3 (j - 1) y (by omega) (by omega) (by omega) (by omega)
          rw [aless_eq] at h3
          exact h3
        · rw [aless_eq, hcell_o x (by omega) (by omega), hcell_o y (by omega) (by omega),
            ← aless_eq]
          exact inv2 x y (by omega) hxy hyi
      · -- cross: [a, j-1) below, (j-1, i] above
        intro x y hax hxj hjy hyi
        rcases Nat.eq_or_lt_of_le (Nat.succ_le_of_lt hjy) with hyj | hyj
        · have hyj' : y = j := by omega
          rw [aless_eq, hyj', hcell_r, hcell_o x (by omega) (by omega)]
          have h1 := inv1 x (j - 1) hax (by omega) (by omega)
          rw [aless_eq] at h1
          exact h1
        · rw [aless_eq, hcell_o x (by omega) (by omega), hcell_o y (by omega) (by omega),
            ← aless_eq]
          exact inv3 x y hax (by omega) (by omega) hyi
      · -- the moving element is below everything it passed
        intro y hjy hyi
        rcases Nat.eq_or_lt_of_le (Nat.succ_le_of_lt hjy) with hyj | hyj
        · have hyj' : y = j := by omega
          rw [aless_eq, hcell_l, hyj', hcell_r, ← aless_eq]
          exact hlt
        · rw [aless_eq, hcell_l, hcell_o y (by omega) (by omega), ← aless_eq]
          exact inv4 y (by omega) hyi

theorem insertionOuter_spec (a b : Nat) :
    ∀ (fuel i : Nat) (arr : Array PR),
      b ≤ arr.size → a ≤ i → b - i ≤ fuel →
      sortedRange arr a i →
      (insertionOuter arr a b fuel i).size = arr.size ∧
      sortedRange (insertionOuter arr a b fuel i) a b ∧
      (∀ k, k < a ∨ b ≤ k → aget (insertionOuter arr a b fuel i) k = aget arr k) ∧
      (∀ lab, labelFilter (insertionOuter arr a b fuel i) lab = labelFilter arr lab) := by
  intro fuel
  induction fuel with
  | zero =>
    intro i arr hb hai hfuel hsorted
    have hbi : b ≤ i := by omega
    refine ⟨rfl, ?_, fun k _ => rfl, fun lab => rfl⟩
    intro x y hax hxy hyb
    exact hsorted x y hax hxy (by omega)
  | succ fuel ih =>
    intro i arr hb hai hfuel hsorted
    rw [insertionOuter]
    split
    · rename_i hib
      have hinner := insertionInner_spec a i i i arr (by omega) hai le_rfl (by omega)
        hsorted (fun x y hx hxy hyi => by omega) (fun x y _ _ h3 h4 => by omega)
        (fun y h1 h2 => by omega)
      obtain ⟨hsz1, hsorted1, hframe1, hfilter1⟩ := hinner
      have hrec := ih (i + 1) (insertionInner arr a i i) (by omega) (by omega) (by omega)
        hsorted1
      obtain ⟨hsz2, hsorted2, hframe2, hfilter2⟩ := hrec
      refine ⟨by rw [hsz2, hsz1], hsorted2, ?_, ?_⟩
      · intro k hk
        rw [hframe2 k hk, hframe1 k (by omega)]
      · intro lab
        rw [hfilter2 lab, hfilter1 lab]
    · rename_i hib
      refine ⟨rfl, ?_, fun k _ => rfl, fun lab => rfl⟩
      intro x y hax hxy hyb
      exact hsorted x y hax hxy (by omega)

theorem insertionSortGo_spec (arr : Array PR) (a b : Nat) (hb : b ≤ arr.size) :
    (insertionSortGo arr a b).size = arr.size ∧
    sortedRange (insertionSortGo arr a b) a b ∧
    (∀ k, k < a ∨ b ≤ k → aget (insertionSortGo arr a b) k = aget arr k) ∧
    (∀ lab, labelFilter (insertionSortGo arr a b) lab = labelFilter arr lab) := by
  exact insertionOuter_spec a b b (a + 1) arr hb (by omega) (by omega)
    (fun x y hax hxy hy1 => by omega)

theorem shellPass_stopped (a b : Nat) (arr : Array PR) (fuel i : Nat) (h : ¬ i < b) :
    shellPass a b arr fuel i = arr := by
  cases fuel with
  | zero => rfl
  | succ fuel => rw [shellPass, if_neg h]

/-- On at most six elements, `sort.Sort` is exactly the insertion sort:
the quicksort loop is skipped and the gap-6 shell pass is out of range. -/
theorem sortSort_small (arr : Array PR) (h : arr.size ≤ 6) :
    sortSort arr = insertionSortGo arr 0 arr.size := by
  rw [sortSort, quickSortGo]
  rw [if_neg (by omega)]
  split
  · rename_i h1
    rw [shellPass_stopped 0 arr.size arr arr.size (0 + 6) (by omega)]
  · rename_i h1
    -- size ≤ 1: insertion sort is also the identity
    rw [insertionSortGo]
    cases hsz : arr.size with
    | zero => rfl
    | succ n =>
      have hn : n = 0 := by omega
      subst hn
      rw [insertionOuter, if_neg (by omega)]

/-- Claim C2, counterexample to the claim as stated: on `issues7` the
shell pass of `sort.Sort` swaps positions 6 and 0 (gap 6), carrying the
first `b`-labelled PR past the second one; the report renders `t2`'s
bullet before `t1`'s although `t1` preceded `t2` in the input. -/
theorem claim_C2_counterexample :
    ((prGrouperOf issues7).filter (fun p => p.Type' == "b")).map PR.Title = ["t1", "t2"] ∧
    (((sortSort (prGrouperOf issues7).toArray).toList.filter
        (fun p => p.Type' == "b")).map PR.Title) = ["t2", "t1"] ∧
    groupedLabelContent "r" "c" "p" issues7 =
      "r: c -- p\n\n## A\n* x5 - u\n* x1 - u\n* x2 - u\n* x3 - u\n* x4 - u\n" ++
      "\n## B\n* t2 - u\n* t1 - u\n" := by
  refine ⟨by decide, by decide, by decide⟩

/-! ## Transfer of range properties along permutation plus frame -/

theorem take_eq_of_frame {arr arr' : Array PR} (hsz : arr'.size = arr.size)
    (a : Nat) (hframe : ∀ k, k < a → aget arr' k = aget arr k) :
    arr'.toList.take a = arr.toList.take a := by
  apply List.ext_getElem
  · simp [hsz]
  · intro n h1 h2
    rw [List.getElem_take, List.getElem_take]
    have hn : n < arr.size := by
      simp only [List.length_take] at h2
      have := arr.length_toList
      omega
    have hn' : n < arr'.size := by omega
    have := hframe n (by simp only [List.length_take] at h1; omega)
    rw [aget_eq_toList _ _ (by simpa using hn'), aget_eq_toList _ _ (by simpa using hn)] at this
    exact this

theorem drop_eq_of_frame {arr arr' : Array PR} (hsz : arr'.size = arr.size)
    (b : Nat) (hframe : ∀ k, b ≤ k → aget arr' k = aget arr k) :
    arr'.toList.drop b = arr.toList.drop b := by
  apply List.ext_getElem
  · simp [hsz]
  · intro n h1 h2
    rw [List.getElem_drop, List.getElem_drop]
    have hn : b + n < arr.size := by
      simp only [List.length_drop] at h2
      have := arr.length_toList
      omega
    have := hframe (b + n) (by omega)
    rw [aget_eq_toList _ _ (by simp only [Array.length_toList]; omega), aget_eq_toList _ _ (by simpa using hn)] at this
    exact this

theorem range_mem_transfer {arr arr' : Array PR} (hsz : arr'.size = arr.size)
    (hperm : arr'.toList.Perm arr.toList) (a b : Nat) (hb : b ≤ arr.size)
    (hframe : ∀ k, k < a ∨ b ≤ k → aget arr' k = aget arr k) :
    ∀ k, a ≤ k → k < b →
      ∃ j, a ≤ j ∧ j < b ∧ aget arr' k = aget arr j := by
  intro k hak hkb
  by_cases hab : a ≤ b
  · have htake := take_eq_of_frame hsz a (fun k hk => hframe k (Or.inl hk))
    have hdrop := drop_eq_of_frame hsz b (fun k hk => hframe k (Or.inr hk))
    -- the middle slices are permutations of one another
    have hslice : ((arr'.toList.drop a).take (b - a)).Perm ((arr.toList.drop a).take (b - a)) := by
      rw [List.perm_iff_count]
      intro x
      have hcount : ∀ l : List PR, l.length = arr.size →
          List.count x ((l.drop a).take (b - a)) =
            List.count x l - List.count x (l.take a) - List.count x (l.drop b) := by
        intro l hlen
        have h3 : (l.drop a).drop (b - a) = l.drop b := by
          rw [List.drop_drop]
          congr 1
          omega
        have hsplit : List.count x l =
            List.count x (l.take a) +
              (List.count x ((l.drop a).take (b - a)) + List.count x (l.drop b)) := by
          calc List.count x l = List.count x (l.take a ++ l.drop a) := by
                rw [List.take_append_drop]
            _ = List.count x (l.take a) + List.count x (l.drop a) := List.count_append _ _ _
            _ = List.count x (l.take a) +
                List.count x ((l.drop a).take (b - a) ++ (l.drop a).drop (b - a)) := by
                rw [List.take_append_drop]
            _ = _ := by rw [List.count_append, h3]
        omega
      rw [hcount arr'.toList (by simp [hsz]), hcount arr.toList (by simp),
        htake, hdrop, List.Perm.count_eq hperm]
    have hmem : aget arr' k ∈ (arr.toList.drop a).take (b - a) := by
      apply hslice.mem_iff.mp
      have hk' : k < arr'.size := by omega
      rw [aget_eq_toList _ _ (by simpa using hk')]
      rw [List.mem_iff_getElem]
      refine ⟨k - a, ?_, ?_⟩
      · simp only [List.length_take, List.length_drop, Array.length_toList]
        omega
      · rw [List.getElem_take, List.getElem_drop]
        congr 1
        omega
    rw [List.mem_iff_getElem] at hmem
    obtain ⟨n, hn, hx⟩ := hmem
    simp only [List.length_take, List.length_drop, Array.length_toList] at hn
    refine ⟨a + n, by omega, by omega, ?_⟩
    rw [← hx, List.getElem_take, List.getElem_drop, aget_eq_toList _ _ (by simp only [Array.length_toList]; omega)]
  · omega

theorem range_property_transfer {arr arr' : Array PR} (hsz : arr'.size = arr.size)
    (hperm : arr'.toList.Perm arr.toList) (a b : Nat) (hb : b ≤ arr.size)
    (hframe : ∀ k, k < a ∨ b ≤ k → aget arr' k = aget arr k)
    (P : PR → Prop) (hP : ∀ k, a ≤ k → k < b → P (aget arr k)) :
    ∀ k, a ≤ k → k < b → P (aget arr' k) := by
  intro k hak hkb
  obtain ⟨j, haj, hjb, hj⟩ := range_mem_transfer hsz hperm a b hb hframe k hak hkb
  rw [hj]
  exact hP j haj hjb

/-! ## doPivot: scan and partition specifications -/

theorem byLabelLess_irrefl (x : PR) : byLabelLess x x = false := by
  rw [byLabelLess, goStrLt_false_iff]

theorem byLabelLess_true_trans {x y z : PR} (h1 : byLabelLess x y = true)
    (h2 : byLabelLess y z = true) : byLabelLess x z = true := by
  rw [byLabelLess, goStrLt_iff] at h1 h2 ⊢
  exact lt_trans h1 h2

theorem dpScanA_spec (arr : Array PR) (pivot c : Nat) : ∀ (fuel a0 : Nat),
    c - a0 ≤ fuel →
    a0 ≤ dpScanA arr pivot c fuel a0 ∧
    (a0 ≤ c → dpScanA arr pivot c fuel a0 ≤ c) ∧
    (∀ x, a0 ≤ x → x < dpScanA arr pivot c fuel a0 → aless arr x pivot = true) ∧
    (dpScanA arr pivot c fuel a0 < c → aless arr (dpScanA arr pivot c fuel a0) pivot = false) := by
  intro fuel
  induction fuel with
  | zero =>
    intro a0 hfuel
    rw [dpScanA]
    exact ⟨le_rfl, fun h => by omega, fun x h1 h2 => by omega, fun h => by omega⟩
  | succ fuel ih =>
    intro a0 hfuel
    rw [dpScanA]
    rcases hg : (a0 < c && aless arr a0 pivot) with _ | _
    · rw [if_neg Bool.false_ne_true]
      rw [Bool.and_eq_false_iff] at hg
      refine ⟨le_rfl, fun h => by simp at hg; rcases hg with hg | hg; omega; omega,
        fun x h1 h2 => by omega, fun h => ?_⟩
      rcases hg with hg | hg
      · simp at hg; omega
      · exact hg
    · rw [if_pos rfl]
      rw [Bool.and_eq_true] at hg
      obtain ⟨hac, hless⟩ := hg
      have hac' : a0 < c := by simpa using hac
      obtain ⟨h1, h2, h3, h4⟩ := ih (a0 + 1) (by omega)
      refine ⟨by omega, fun _ => h2 (by omega), fun x hx1 hx2 => ?_, h4⟩
      rcases Nat.eq_or_lt_of_le hx1 with he | he
      · rw [← he]; exact hless
      · exact h3 x (by omega) hx2

theorem dpScanB_spec (arr : Array PR) (pivot c : Nat) : ∀ (fuel b0 : Nat),
    c - b0 ≤ fuel →
    b0 ≤ dpScanB arr pivot c fuel b0 ∧
    (b0 ≤ c → dpScanB arr pivot c fuel b0 ≤ c) ∧
    (∀ x, b0 ≤ x → x < dpScanB arr pivot c fuel b0 → aless arr pivot x = false) ∧
    (dpScanB arr pivot c fuel b0 < c → aless arr pivot (dpScanB arr pivot c fuel b0) = true) := by
  intro fuel
  induction fuel with
  | zero =>
    intro b0 hfuel
    rw [dpScanB]
    exact ⟨le_rfl, fun h => by omega, fun x h1 h2 => by omega, fun h => by omega⟩
  | succ fuel ih =>
    intro b0 hfuel
    rw [dpScanB]
    rcases hg : (b0 < c && !aless arr pivot b0) with _ | _
    · rw [if_neg Bool.false_ne_true]
      rw [Bool.and_eq_false_iff] at hg
      refine ⟨le_rfl, fun h => by simp at hg; rcases hg with hg | hg; omega; omega,
        fun x h1 h2 => by omega, fun h => ?_⟩
      rcases hg with hg | hg
      · simp at hg; omega
      · simpa using hg
    · rw [if_pos rfl]
      rw [Bool.and_eq_true] at hg
      obtain ⟨hbc, hless⟩ := hg
      have hbc' : b0 < c := by simpa using hbc
      obtain ⟨h1, h2, h3, h4⟩ := ih (b0 + 1) (by omega)
      refine ⟨by omega, fun _ => h2 (by omega), fun x hx1 hx2 => ?_, h4⟩
      rcases Nat.eq_or_lt_of_le hx1 with he | he
      · rw [← he]; simpa using hless
      · exact h3 x (by omega) hx2

theorem dpScanC_spec (arr : Array PR) (pivot b : Nat) : ∀ (fuel c0 : Nat),
    c0 - b ≤ fuel →
    dpScanC arr pivot b fuel c0 ≤ c0 ∧
    (b ≤ c0 → b ≤ dpScanC arr pivot b fuel c0) ∧
    (∀ x, dpScanC arr pivot b fuel c0 ≤ x → x < c0 → aless arr pivot x = true) ∧
    (b < dpScanC arr pivot b fuel c0 → aless arr pivot (dpScanC arr pivot b fuel c0 - 1) = false) := by
  intro fuel
  induction fuel with
  | zero =>
    intro c0 hfuel
    rw [dpScanC]
    exact ⟨le_rfl, fun h => by omega, fun x h1 h2 => by omega, fun h => by omega⟩
  | succ fuel ih =>
    intro c0 hfuel
    rw [dpScanC]
    rcases hg : (b < c0 && aless arr pivot (c0 - 1)) with _ | _
    · rw [if_neg Bool.false_ne_true]
      rw [Bool.and_eq_false_iff] at hg
      refine ⟨le_rfl, fun h => by omega, fun x h1 h2 => by omega, fun h => ?_⟩
      rcases hg with hg | hg
      · simp at hg; omega
      · exact hg
    · rw [if_pos rfl]
      rw [Bool.and_eq_true] at hg
      obtain ⟨hbc, hless⟩ := hg
      have hbc' : b < c0 := by simpa using hbc
      obtain ⟨h1, h2, h3, h4⟩ := ih (c0 - 1) (by omega)
      refine ⟨by omega, fun _ => h2 (by omega), fun x hx1 hx2 => ?_, h4⟩
      rcases Nat.eq_or_lt_of_le (Nat.le_sub_one_of_lt hx2) with he | he
      · rw [he]; exact hless
      · exact h3 x hx1 (by omega)

theorem medianOfThree_size (arr : Array PR) (m1 m0 m2 : Nat) :
    (medianOfThree arr m1 m0 m2).size = arr.size := by
  simp only [medianOfThree]
  split_ifs <;> simp only [aswap_size]

theorem medianOfThree_frame (arr : Array PR) (m1 m0 m2 k : Nat)
    (h1 : k ≠ m1) (h0 : k ≠ m0) (h2 : k ≠ m2) :
    aget (medianOfThree arr m1 m0 m2) k = aget arr k := by
  have e10 : ∀ (a : Array PR), aget (aswap a m1 m0) k = aget a k := fun a =>
    aget_aswap_other a m1 m0 k h1 h0
  have e21 : ∀ (a : Array PR), aget (aswap a m2 m1) k = aget a k := fun a =>
    aget_aswap_other a m2 m1 k h2 h1
  simp only [medianOfThree]
  split_ifs <;> simp only [e10, e21]

theorem medianOfThree_post (arr : Array PR) (m1 m0 m2 : Nat)
    (hm1 : m1 < arr.size) (hm0 : m0 < arr.size) (hm2 : m2 < arr.size)
    (h10 : m1 ≠ m0) (h21 : m2 ≠ m1) (h20 : m2 ≠ m0) :
    aless (medianOfThree arr m1 m0 m2) m1 m0 = false ∧
    aless (medianOfThree arr m1 m0 m2) m2 m1 = false := by
  simp only [medianOfThree]
  have hsw : ∀ (a : Array PR), a.size = arr.size → ∀ i j, i < arr.size → j < arr.size →
      aget (aswap a i j) i = aget a j ∧ aget (aswap a i j) j = aget a i := by
    intro a ha i j hi hj
    exact ⟨aget_aswap_left a i j (by omega) (by omega),
      aget_aswap_right a i j (by omega) (by omega)⟩
  rcases h1 : aless arr m1 m0 with _ | _
  · rw [if_neg Bool.false_ne_true]
    rcases h2 : aless arr m2 m1 with _ | _
    · rw [if_neg Bool.false_ne_true]
      exact ⟨h1, h2⟩
    · rw [if_pos rfl]
      obtain ⟨e2, e1⟩ := hsw arr rfl m2 m1 hm2 hm1
      have e0 : aget (aswap arr m2 m1) m0 = aget arr m0 :=
        aget_aswap_other arr m2 m1 m0 (by omega) (by omega)
      rcases h3 : aless (aswap arr m2 m1) m1 m0 with _ | _
      · rw [if_neg Bool.false_ne_true]
        refine ⟨h3, ?_⟩
        rw [aless_eq, e2, e1]
        exact byLabelLess_asymm (by rw [aless_eq] at h2; exact h2)
      · rw [if_pos rfl]
        obtain ⟨f1, f0⟩ := hsw (aswap arr m2 m1) (aswap_size arr m2 m1) m1 m0 hm1 hm0
        have f2 : aget (aswap (aswap arr m2 m1) m1 m0) m2 = aget (aswap arr m2 m1) m2 :=
          aget_aswap_other _ m1 m0 m2 (by omega) (by omega)
        constructor
        · rw [aless_eq, f1, f0]
          exact byLabelLess_asymm (by rw [aless_eq] at h3; exact h3)
        · rw [aless_eq, f2, f1, e2, e0]
          rw [aless_eq] at h1
          exact h1
  · rw [if_pos rfl]
    obtain ⟨e1, e0⟩ := hsw arr rfl m1 m0 hm1 hm0
    have e2 : aget (aswap arr m1 m0) m2 = aget arr m2 :=
      aget_aswap_other arr m1 m0 m2 (by omega) (by omega)
    have h1' : aless (aswap arr m1 m0) m1 m0 = false := by
      rw [aless_eq, e1, e0]
      exact byLabelLess_asymm (by rw [aless_eq] at h1; exact h1)
    rcases h2 : aless (aswap arr m1 m0) m2 m1 with _ | _
    · rw [if_neg Bool.false_ne_true]
      exact ⟨h1', h2⟩
    · rw [if_pos rfl]
      obtain ⟨e2', e1'⟩ := hsw (aswap arr m1 m0) (aswap_size arr m1 m0) m2 m1 hm2 hm1
      have e0' : aget (aswap (aswap arr m1 m0) m2 m1) m0 = aget (aswap arr m1 m0) m0 :=
        aget_aswap_other _ m2 m1 m0 (by omega) (by omega)
      rcases h3 : aless (aswap (aswap arr m1 m0) m2 m1) m1 m0 with _ | _
      · rw [if_neg Bool.false_ne_true]
        refine ⟨h3, ?_⟩
        rw [aless_eq, e2', e1']
        exact byLabelLess_asymm (by rw [aless_eq] at h2; exact h2)
      · rw [if_pos rfl]
        obtain ⟨f1, f0⟩ := hsw (aswap (aswap arr m1 m0) m2 m1)
          (by rw [aswap_size, aswap_size]) m1 m0 hm1 hm0
        have f2 : aget (aswap (aswap (aswap arr m1 m0) m2 m1) m1 m0) m2 =
            aget (aswap (aswap arr m1 m0) m2 m1) m2 :=
          aget_aswap_other _ m1 m0 m2 (by omega) (by omega)
        constructor
        · rw [aless_eq, f1, f0]
          exact byLabelLess_asymm (by rw [aless_eq] at h3; exact h3)
        · rw [aless_eq, f2, f1, e2', e0']
          exact h1'

theorem doPivotInit_size (arr : Array PR) (lo hi : Nat) :
    (doPivotInit arr lo hi).size = arr.size := by
  simp only [doPivotInit]
  split_ifs <;> simp only [medianOfThree_size]

theorem doPivotInit_frame (arr : Array PR) (lo hi : Nat) (hlo : lo + 2 < hi) :
    ∀ k, k < lo ∨ hi ≤ k → aget (doPivotInit arr lo hi) k = aget arr k := by
  intro k hk
  simp only [doPivotInit]
  split_ifs
  · rename_i h40
    rw [medianOfThree_frame _ _ _ _ _ (by omega) (by omega) (by omega),
      medianOfThree_frame _ _ _ _ _ (by omega) (by omega) (by omega),
      medianOfThree_frame _ _ _ _ _ (by omega) (by omega) (by omega),
      medianOfThree_frame _ _ _ _ _ (by omega) (by omega) (by omega)]
  · rw [medianOfThree_frame _ _ _ _ _ (by omega) (by omega) (by omega)]

theorem doPivotInit_post (arr : Array PR) (lo hi : Nat) (hlo : lo + 2 < hi)
    (hhi : hi ≤ arr.size) :
    aless (doPivotInit arr lo hi) lo ((lo + hi) / 2) = false ∧
    aless (doPivotInit arr lo hi) (hi - 1) lo = false := by
  simp only [doPivotInit]
  have hmain : ∀ (a : Array PR), a.size = arr.size →
      aless (medianOfThree a lo ((lo + hi) / 2) (hi - 1)) lo ((lo + hi) / 2) = false ∧
      aless (medianOfThree a lo ((lo + hi) / 2) (hi - 1)) (hi - 1) lo = false := by
    intro a ha
    have hpost := medianOfThree_post a lo ((lo + hi) / 2) (hi - 1) (by omega) (by omega)
      (by omega) (by omega) (by omega) (by omega)
    exact ⟨hpost.1, hpost.2⟩
  split_ifs
  · exact hmain _ (by simp only [medianOfThree_size])
  · exact hmain _ rfl

theorem dpLoop_go_spec (pivot : Nat) (pv : PR) : ∀ (fuel : Nat) (arr : Array PR) (b c : Nat),
    c ≤ arr.size → b ≤ c → pivot < b → c - b ≤ fuel →
    (dpLoop.go pivot fuel arr b c).1.size = arr.size ∧
    b ≤ (dpLoop.go pivot fuel arr b c).2.1 ∧
    (dpLoop.go pivot fuel arr b c).2.1 = (dpLoop.go pivot fuel arr b c).2.2 ∧
    (dpLoop.go pivot fuel arr b c).2.2 ≤ c ∧
    (∀ k, k < b ∨ c ≤ k → aget (dpLoop.go pivot fuel arr b c).1 k = aget arr k) ∧
    (aget arr pivot = pv →
      (∀ x, b ≤ x → x < (dpLoop.go pivot fuel arr b c).2.1 →
        byLabelLess pv (aget (dpLoop.go pivot fuel arr b c).1 x) = false) ∧
      (∀ x, (dpLoop.go pivot fuel arr b c).2.2 ≤ x → x < c →
        byLabelLess (aget (dpLoop.go pivot fuel arr b c).1 x) pv = false)) := by
  intro fuel
  induction fuel with
  | zero =>
    intro arr b c hc hbc hpb hfuel
    rw [dpLoop.go]
    refine ⟨rfl, le_rfl, ?_, le_rfl, fun k _ => rfl, fun _ => ⟨?_, ?_⟩⟩
    · show b = c
      omega
    · intro x h1 h2
      have h2' : x < b := h2
      omega
    · intro x h1 h2
      have h1' : c ≤ x := h1
      omega
  | succ fuel ih =>
    intro arr b c hc hbc hpb hfuel
    simp only [dpLoop.go]
    have hB := dpScanB_spec arr pivot c (c - b + 1) b (by omega)
    set b1 := dpScanB arr pivot c (c - b + 1) b with hb1def
    obtain ⟨hBle, hBc, hBreg, hBstop⟩ := hB
    have hb1c : b1 ≤ c := hBc hbc
    have hC := dpScanC_spec arr pivot b1 (c - b1 + 1) c (by omega)
    set c1 := dpScanC arr pivot b1 (c - b1 + 1) c with hc1def
    obtain ⟨hCle, hCb, hCreg, hCstop⟩ := hC
    have hc1b : b1 ≤ c1 := hCb hb1c
    split
    · rename_i hexit
      refine ⟨rfl, hBle, ?_, hCle, fun k _ => rfl, fun hpv => ⟨?_, ?_⟩⟩
      · show b1 = c1
        omega
      · intro x h1 h2
        have h2' : x < b1 := h2
        have := hBreg x h1 h2'
        rw [aless_eq, hpv] at this
        exact this
      · intro x h1 h2
        have h1' : c1 ≤ x := h1
        have := hCreg x h1' h2
        rw [aless_eq, hpv] at this
        exact byLabelLess_asymm this
    · rename_i hexit
      have hlt : b1 < c1 := by omega
      have hstopB : aless arr pivot b1 = true := hBstop (by omega)
      have hstopC : aless arr pivot (c1 - 1) = false := hCstop hlt
      have hsep : b1 + 2 ≤ c1 := by
        rcases Nat.lt_or_ge (b1 + 1) c1 with h | h
        · omega
        · have hbe : c1 - 1 = b1 := by omega
          rw [hbe] at hstopC
          rw [hstopB] at hstopC
          exact absurd hstopC (by simp)
      have hszsw : (aswap arr b1 (c1 - 1)).size = arr.size := aswap_size arr b1 (c1 - 1)
      have hrec := ih (aswap arr b1 (c1 - 1)) (b1 + 1) (c1 - 1)
        (by omega) (by omega) (by omega) (by omega)
      obtain ⟨hsz, hrle, hreq, hrc, hrframe, hrreg⟩ := hrec
      have hb1sz : b1 < arr.size := by omega
      have hc1sz : c1 - 1 < arr.size := by omega
      refine ⟨by rw [hsz, hszsw], by omega, hreq, by omega, ?_, ?_⟩
      · intro k hk
        rw [hrframe k (by omega)]
        exact aget_aswap_other arr b1 (c1 - 1) k (by omega) (by omega)
      · intro hpv
        have hpv2 : aget (aswap arr b1 (c1 - 1)) pivot = pv := by
          rw [aget_aswap_other arr b1 (c1 - 1) pivot (by omega) (by omega)]
          exact hpv
        obtain ⟨hrLE, hrGE⟩ := hrreg hpv2
        constructor
        · intro x h1 h2
          rcases Nat.lt_or_ge x (b1 + 1) with hx | hx
          · rw [hrframe x (by omega)]
            rcases Nat.lt_or_ge x b1 with hy | hy
            · rw [aget_aswap_other arr b1 (c1 - 1) x (by omega) (by omega)]
              have := hBreg x h1 hy
              rw [aless_eq, hpv] at this
              exact this
            · have hxb : x = b1 := by omega
              rw [hxb, aget_aswap_left arr b1 (c1 - 1) hb1sz hc1sz]
              rw [aless_eq, hpv] at hstopC
              exact hstopC
          · exact hrLE x hx h2
        · intro x h1 h2
          rcases Nat.lt_or_ge x (c1 - 1) with hx | hx
          · exact hrGE x h1 hx
          · rw [hrframe x (by omega)]
            rcases Nat.eq_or_lt_of_le hx with he | he
            · rw [← he, aget_aswap_right arr b1 (c1 - 1) hb1sz hc1sz]
              rw [aless_eq, hpv] at hstopB
              exact byLabelLess_asymm hstopB
            · rw [aget_aswap_other arr b1 (c1 - 1) x (by omega) (by omega)]
              have := hCreg x (by omega) h2
              rw [aless_eq, hpv] at this
              exact byLabelLess_asymm this

theorem dpMidTail_spec (A1 : Array PR) (lo hi b c1 d1 : Nat) (pv : PR)
    (hsz : hi ≤ A1.size) (hbhi : b ≤ hi)
    (hb : lo + 10 ≤ b)
    (hm : (lo + hi) / 2 + 2 ≤ b) (hmlo : lo + 1 ≤ (lo + hi) / 2)
    (hpv : aget A1 lo = pv)
    (hLE : ∀ x, lo + 1 ≤ x → x < b → byLabelLess pv (aget A1 x) = false) :
    ∃ arr2 b2 p2, dpMidTail lo hi b A1 c1 d1 = (arr2, b2, c1, p2) ∧
      arr2.size = A1.size ∧
      lo + 1 ≤ b2 ∧ b2 ≤ b ∧
      aget arr2 lo = pv ∧
      (∀ k, k < lo + 1 ∨ b ≤ k → aget arr2 k = aget A1 k) ∧
      (∀ x, lo + 1 ≤ x → x < b2 → byLabelLess pv (aget arr2 x) = false) ∧
      (∀ x, b2 ≤ x → x < b →
        byLabelLess pv (aget arr2 x) = false ∧ byLabelLess (aget arr2 x) pv = false) ∧
      arr2.toList.Perm A1.toList := by
  have hbsz : b - 1 < A1.size := by omega
  have hmsz : (lo + hi) / 2 < A1.size := by omega
  have hb2sz : b - 1 - 1 < A1.size := by omega
  simp only [dpMidTail]
  split
  · -- the element at m is not below the pivot: swap it behind the middle block
    rename_i h3
    have h3' : aless A1 ((lo + hi) / 2) lo = false := by simpa using h3
    have hmid3 : byLabelLess pv (aget A1 ((lo + hi) / 2)) = false ∧
        byLabelLess (aget A1 ((lo + hi) / 2)) pv = false := by
      refine ⟨hLE ((lo + hi) / 2) (by omega) (by omega), ?_⟩
      rw [aless_eq, hpv] at h3'
      exact h3'
    split
    · -- the element at b-1 is not below the pivot either: b was decremented first
      rename_i h2
      have h2' : aless A1 (b - 1) lo = false := by simpa using h2
      have hmid1 : byLabelLess pv (aget A1 (b - 1)) = false ∧
          byLabelLess (aget A1 (b - 1)) pv = false := by
        refine ⟨hLE (b - 1) (by omega) (by omega), ?_⟩
        rw [aless_eq, hpv] at h2'
        exact h2'
      simp only []
      refine ⟨aswap A1 ((lo + hi) / 2) (b - 1 - 1), b - 1 - 1, _, rfl,
        aswap_size _ _ _, by omega, by omega, ?_, ?_, ?_, ?_, aswap_perm _ _ _⟩
      · rw [aget_aswap_other A1 _ _ lo (by omega) (by omega)]
        exact hpv
      · intro k hk
        exact aget_aswap_other A1 _ _ k (by omega) (by omega)
      · intro x h1x h2x
        by_cases hxm : x = (lo + hi) / 2
        · rw [hxm, aget_aswap_left A1 _ _ hmsz hb2sz]
          exact hLE (b - 1 - 1) (by omega) (by omega)
        · rw [aget_aswap_other A1 _ _ x (by omega) (by omega)]
          exact hLE x h1x (by omega)
      · intro x h1x h2x
        have hxcase : x = b - 1 - 1 ∨ x = b - 1 := by omega
        rcases hxcase with he | he
        · rw [he]
          by_cases hxm : (lo + hi) / 2 = b - 1 - 1
          · rw [← hxm, aget_aswap_left A1 _ _ hmsz hmsz]
            exact hmid3
          · rw [aget_aswap_right A1 _ _ hmsz hb2sz]
            exact hmid3
        · rw [he, aget_aswap_other A1 _ _ (b - 1) (by omega) (by omega)]
          exact hmid1
    · -- only the m test fired
      rename_i h2
      have h2' : aless A1 (b - 1) lo = true := by simpa using h2
      simp only []
      refine ⟨aswap A1 ((lo + hi) / 2) (b - 1), b - 1, _, rfl,
        aswap_size _ _ _, by omega, by omega, ?_, ?_, ?_, ?_, aswap_perm _ _ _⟩
      · rw [aget_aswap_other A1 _ _ lo (by omega) (by omega)]
        exact hpv
      · intro k hk
        exact aget_aswap_other A1 _ _ k (by omega) (by omega)
      · intro x h1x h2x
        by_cases hxm : x = (lo + hi) / 2
        · rw [hxm, aget_aswap_left A1 _ _ hmsz hbsz]
          exact hLE (b - 1) (by omega) (by omega)
        · rw [aget_aswap_other A1 _ _ x (by omega) (by omega)]
          exact hLE x h1x (by omega)
      · intro x h1x h2x
        have he : x = b - 1 := by omega
        rw [he]
        by_cases hxm : (lo + hi) / 2 = b - 1
        · rw [← hxm, aget_aswap_left A1 _ _ hmsz hmsz]
          exact hmid3
        · rw [aget_aswap_right A1 _ _ hmsz hbsz]
          exact hmid3
  · -- m's element is below the pivot: the array is unchanged
    rename_i h3
    split
    · rename_i h2
      have h2' : aless A1 (b - 1) lo = false := by simpa using h2
      have hmid1 : byLabelLess pv (aget A1 (b - 1)) = false ∧
          byLabelLess (aget A1 (b - 1)) pv = false := by
        refine ⟨hLE (b - 1) (by omega) (by omega), ?_⟩
        rw [aless_eq, hpv] at h2'
        exact h2'
      simp only []
      refine ⟨A1, b - 1, _, rfl, rfl, by omega, by omega, hpv, fun k _ => rfl, ?_, ?_,
        .refl _⟩
      · intro x h1x h2x
        exact hLE x h1x (by omega)
      · intro x h1x h2x
        have he : x = b - 1 := by omega
        rw [he]
        exact hmid1
    · rename_i h2
      simp only []
      exact ⟨A1, b, _, rfl, rfl, by omega, le_rfl, hpv, fun k _ => rfl,
        fun x h1x h2x => hLE x h1x h2x, fun x h1x h2x => by omega, .refl _⟩

theorem doPivotMid_spec (arr : Array PR) (lo hi b c : Nat) (pv : PR)
    (hsize : hi ≤ arr.size) (hgap : 12 < hi - lo) (hb : lo + 1 ≤ b) (hbc : b = c)
    (hch : c ≤ hi - 1) (hpv : aget arr lo = pv)
    (hLE : ∀ x, lo + 1 ≤ x → x < b → byLabelLess pv (aget arr x) = false)
    (hGE : ∀ x, c ≤ x → x < hi - 1 → byLabelLess (aget arr x) pv = false)
    (hHI : byLabelLess (aget arr (hi - 1)) pv = false) :
    ∃ arr2 b2 c2 p2, doPivotMid arr lo hi b c = (arr2, b2, c2, p2) ∧
      arr2.size = arr.size ∧
      (∀ k, k < lo + 1 ∨ hi ≤ k → aget arr2 k = aget arr k) ∧
      lo + 1 ≤ b2 ∧ b2 ≤ b ∧ c ≤ c2 ∧ c2 ≤ hi ∧
      aget arr2 lo = pv ∧
      (∀ x, lo + 1 ≤ x → x < b2 → byLabelLess pv (aget arr2 x) = false) ∧
      (∀ x, b2 ≤ x → x < c2 →
        byLabelLess pv (aget arr2 x) = false ∧ byLabelLess (aget arr2 x) pv = false) ∧
      (∀ x, c2 ≤ x → x < hi → byLabelLess (aget arr2 x) pv = false) ∧
      arr2.toList.Perm arr.toList := by
  simp only [doPivotMid]
  split
  · rename_i hguard
    rw [Bool.and_eq_true, Bool.not_eq_true', decide_eq_false_iff_not,
      decide_eq_true_eq] at hguard
    obtain ⟨hg1, hg2⟩ := hguard
    have hga : lo + 10 ≤ b := by omega
    have hgm : (lo + hi) / 2 + 2 ≤ b := by omega
    have hgmlo : lo + 1 ≤ (lo + hi) / 2 := by omega
    have hcsz : c < arr.size := by omega
    have hhsz : hi - 1 < arr.size := by omega
    rcases h1 : aless arr lo (hi - 1) with _ | _
    · -- the element at hi-1 is not above the pivot: swap it to c, extend c
      rw [if_pos (show (!false) = true from rfl)]
      simp only []
      rw [aless_eq, hpv] at h1
      have hA1sz : (aswap arr c (hi - 1)).size = arr.size := aswap_size _ _ _
      have hA1pv : aget (aswap arr c (hi - 1)) lo = pv := by
        rw [aget_aswap_other arr _ _ lo (by omega) (by omega)]
        exact hpv
      have hA1LE : ∀ x, lo + 1 ≤ x → x < b →
          byLabelLess pv (aget (aswap arr c (hi - 1)) x) = false := by
        intro x h1x h2x
        rw [aget_aswap_other arr _ _ x (by omega) (by omega)]
        exact hLE x h1x h2x
      obtain ⟨arr2, b2, p2, heq, hsz2, hb2lo, hb2b, hpv2, hframe2, hLE2, hM2, hperm2⟩ :=
        dpMidTail_spec (aswap arr c (hi - 1)) lo hi b (c + 1) (0 + 1) pv
          (by omega) (by omega) hga hgm hgmlo hA1pv hA1LE
      refine ⟨arr2, b2, c + 1, p2, heq, hsz2.trans hA1sz, ?_, hb2lo, hb2b,
        by omega, by omega, hpv2, hLE2, ?_, ?_, hperm2.trans (aswap_perm _ _ _)⟩
      · intro k hk
        rw [hframe2 k (by omega)]
        exact aget_aswap_other arr _ _ k (by omega) (by omega)
      · intro x h1x h2x
        rcases Nat.lt_or_ge x b with hx | hx
        · exact hM2 x h1x hx
        · have hxc : x = c := by omega
          rw [hxc, hframe2 c (Or.inr (by omega)),
            aget_aswap_left arr c (hi - 1) hcsz hhsz]
          exact ⟨h1, hHI⟩
      · intro x h1x h2x
        rw [hframe2 x (Or.inr (by omega))]
        rcases Nat.eq_or_lt_of_le (show x ≤ hi - 1 by omega) with he | he
        · rw [he, aget_aswap_right arr c (hi - 1) hcsz hhsz]
          rcases Nat.eq_or_lt_of_le hch with hce | hce
          · rw [hce]
            exact hHI
          · exact hGE c le_rfl hce
        · rw [aget_aswap_other arr c (hi - 1) x (by omega) (by omega)]
          exact hGE x (by omega) (by omega)
    · -- the element at hi-1 is above the pivot: nothing moves here
      rw [if_neg (show ¬(!true) = true from by simp)]
      simp only []
      obtain ⟨arr2, b2, p2, heq, hsz2, hb2lo, hb2b, hpv2, hframe2, hLE2, hM2, hperm2⟩ :=
        dpMidTail_spec arr lo hi b c 0 pv hsize (by omega) hga hgm hgmlo hpv hLE
      refine ⟨arr2, b2, c, p2, heq, hsz2, ?_, hb2lo, hb2b, le_rfl, by omega,
        hpv2, hLE2, ?_, ?_, hperm2⟩
      · intro k hk
        exact hframe2 k (by omega)
      · intro x h1x h2x
        exact hM2 x h1x (by omega)
      · intro x h1x h2x
        rw [hframe2 x (Or.inr (by omega))]
        rcases Nat.eq_or_lt_of_le (show x ≤ hi - 1 by omega) with he | he
        · rw [he]
          exact hHI
        · exact hGE x h1x (by omega)
  · rename_i hguard
    refine ⟨arr, b, c, decide (hi - c < 5), rfl, rfl, fun k _ => rfl, hb, le_rfl,
      le_rfl, by omega, hpv, hLE, ?_, ?_, .refl _⟩
    · intro x h1x h2x
      omega
    · intro x h1x h2x
      rcases Nat.eq_or_lt_of_le (show x ≤ hi - 1 by omega) with he | he
      · rw [he]
        exact hHI
      · exact hGE x h1x (by omega)

theorem dpProtect_goB_spec (lo : Nat) (arr : Array PR) (a : Nat) : ∀ (fuel b : Nat),
    b - a ≤ fuel →
    min a b ≤ dpProtect.goB lo arr a fuel b ∧
    dpProtect.goB lo arr a fuel b ≤ b ∧
    (∀ y, dpProtect.goB lo arr a fuel b ≤ y → y < b → aless arr y lo = false) ∧
    (a < dpProtect.goB lo arr a fuel b →
      aless arr (dpProtect.goB lo arr a fuel b - 1) lo = true) := by
  intro fuel
  induction fuel with
  | zero =>
    intro b hfuel
    rw [dpProtect.goB]
    exact ⟨min_le_right a b, le_rfl, fun y h1 h2 => by omega, fun h => by omega⟩
  | succ fuel ih =>
    intro b hfuel
    rw [dpProtect.goB]
    rcases hg : (a < b && !aless arr (b - 1) lo) with _ | _
    · rw [if_neg Bool.false_ne_true]
      rw [Bool.and_eq_false_iff] at hg
      refine ⟨min_le_right a b, le_rfl, fun y h1 h2 => by omega, fun h => ?_⟩
      rcases hg with hg | hg
      · simp only [decide_eq_false_iff_not] at hg
        omega
      · simpa using hg
    · rw [if_pos rfl]
      rw [Bool.and_eq_true] at hg
      obtain ⟨hab, hless⟩ := hg
      have hab' : a < b := by simpa using hab
      have hless' : aless arr (b - 1) lo = false := by simpa using hless
      obtain ⟨h1, h2, h3, h4⟩ := ih (b - 1) (by omega)
      refine ⟨by omega, by omega, fun y hy1 hy2 => ?_, h4⟩
      rcases Nat.eq_or_lt_of_le (Nat.le_sub_one_of_lt hy2) with he | he
      · rw [he]
        exact hless'
      · exact h3 y hy1 (by omega)

theorem dpProtect_goA_spec (lo : Nat) (arr : Array PR) (b : Nat) : ∀ (fuel a : Nat),
    b - a ≤ fuel →
    a ≤ dpProtect.goA lo arr b fuel a ∧
    (a ≤ b → dpProtect.goA lo arr b fuel a ≤ b) ∧
    (∀ x, a ≤ x → x < dpProtect.goA lo arr b fuel a → aless arr x lo = true) ∧
    (dpProtect.goA lo arr b fuel a < b → aless arr (dpProtect.goA lo arr b fuel a) lo = false) := by
  intro fuel
  induction fuel with
  | zero =>
    intro a hfuel
    rw [dpProtect.goA]
    exact ⟨le_rfl, fun h => by omega, fun x h1 h2 => by omega, fun h => by omega⟩
  | succ fuel ih =>
    intro a hfuel
    rw [dpProtect.goA]
    rcases hg : (a < b && aless arr a lo) with _ | _
    · rw [if_neg Bool.false_ne_true]
      rw [Bool.and_eq_false_iff] at hg
      refine ⟨le_rfl, fun h => by omega, fun x h1 h2 => by omega, fun h => ?_⟩
      rcases hg with hg | hg
      · simp only [decide_eq_false_iff_not] at hg
        omega
      · exact hg
    · rw [if_pos rfl]
      rw [Bool.and_eq_true] at hg
      obtain ⟨hab, hless⟩ := hg
      have hab' : a < b := by simpa using hab
      obtain ⟨h1, h2, h3, h4⟩ := ih (a + 1) (by omega)
      refine ⟨by omega, fun _ => h2 (by omega), fun x hx1 hx2 => ?_, h4⟩
      rcases Nat.eq_or_lt_of_le hx1 with he | he
      · rw [← he]
        exact hless
      · exact h3 x (by omega) hx2

theorem dpProtect_go_spec (lo : Nat) (pv : PR) : ∀ (fuel : Nat) (arr : Array PR) (a b : Nat),
    b ≤ arr.size → lo < a → lo < b → b - a ≤ fuel →
    aget arr lo = pv →
    (∀ x, lo + 1 ≤ x → x < b → byLabelLess pv (aget arr x) = false) →
    ∃ arr2 b2, dpProtect.go lo fuel arr a b = (arr2, b2) ∧
      arr2.size = arr.size ∧
      (∀ k, k < a ∨ b ≤ k → aget arr2 k = aget arr k) ∧
      b2 ≤ b ∧ lo < b2 ∧
      aget arr2 lo = pv ∧
      (∀ x, lo + 1 ≤ x → x < b2 → byLabelLess pv (aget arr2 x) = false) ∧
      (∀ x, b2 ≤ x → x < b →
        byLabelLess pv (aget arr2 x) = false ∧ byLabelLess (aget arr2 x) pv = false) ∧
      arr2.toList.Perm arr.toList := by
  intro fuel
  induction fuel with
  | zero =>
    intro arr a b hsz hloa hlob hfuel hpv hLEall
    rw [dpProtect.go]
    refine ⟨arr, b, rfl, rfl, fun k _ => rfl, le_rfl, hlob, hpv,
      fun x h1 h2 => hLEall x h1 h2, fun x h1 h2 => by omega, .refl _⟩
  | succ fuel ih =>
    intro arr a b hsz hloa hlob hfuel hpv hLEall
    simp only [dpProtect.go]
    obtain ⟨hBmin, hBle, hBskip, hBstop⟩ :=
      dpProtect_goB_spec lo arr a (b - a + 1) b (by omega)
    set b1 := dpProtect.goB lo arr a (b - a + 1) b with hb1def
    obtain ⟨hAle, hAb, hAskip, hAstop⟩ :=
      dpProtect_goA_spec lo arr b1 (b1 - a + 1) a (by omega)
    set a1 := dpProtect.goA lo arr b1 (b1 - a + 1) a with ha1def
    have hlob1 : lo < b1 := by omega
    split
    · rename_i hexit
      refine ⟨arr, b1, rfl, rfl, fun k _ => rfl, hBle, hlob1, hpv,
        fun x h1 h2 => hLEall x h1 (by omega), fun x h1 h2 => ?_, .refl _⟩
      refine ⟨hLEall x (by omega) h2, ?_⟩
      have := hBskip x h1 h2
      rw [aless_eq, hpv] at this
      exact this
    · rename_i hexit
      have hlt : a1 < b1 := by omega
      have hstopA : aless arr a1 lo = false := hAstop hlt
      have hstopB : aless arr (b1 - 1) lo = true := hBstop (by omega)
      rw [aless_eq, hpv] at hstopA hstopB
      have ha1sz : a1 < arr.size := by omega
      have hb1sz : b1 - 1 < arr.size := by omega
      have hmida : byLabelLess pv (aget arr a1) = false ∧
          byLabelLess (aget arr a1) pv = false :=
        ⟨hLEall a1 (by omega) (by omega), hstopA⟩
      have hrec := ih (aswap arr a1 (b1 - 1)) (a1 + 1) (b1 - 1)
        (by rw [aswap_size]; omega) (by omega) (by omega) (by omega)
        (by rw [aget_aswap_other arr _ _ lo (by omega) (by omega)]; exact hpv)
        (by
          intro x h1 h2
          by_cases hxa : x = a1
          · rw [hxa, aget_aswap_left arr _ _ ha1sz hb1sz]
            exact byLabelLess_asymm hstopB
          · rw [aget_aswap_other arr _ _ x (by omega) (by omega)]
            exact hLEall x h1 (by omega))
      obtain ⟨arr2, b2, heqr, hsz2, hframe2, hb2le, hlob2, hpv2, hL2, hM2, hperm2⟩ := hrec
      refine ⟨arr2, b2, heqr, by rw [hsz2, aswap_size], ?_, by omega, hlob2, hpv2,
        hL2, ?_, hperm2.trans (aswap_perm _ _ _)⟩
      · intro k hk
        rw [hframe2 k (by omega)]
        exact aget_aswap_other arr _ _ k (by omega) (by omega)
      · intro x h1 h2
        rcases Nat.lt_or_ge x (b1 - 1) with hx | hx
        · exact hM2 x h1 hx
        · rcases Nat.eq_or_lt_of_le hx with he | he
          · rw [← he, hframe2 (b1 - 1) (Or.inr le_rfl),
              aget_aswap_right arr _ _ ha1sz hb1sz]
            exact hmida
          · rw [hframe2 x (Or.inr (by omega)),
              aget_aswap_other arr _ _ x (by omega) (by omega)]
            have := hBskip x (by omega) h2
            rw [aless_eq, hpv] at this
            exact ⟨hLEall x (by omega) h2, this⟩

theorem dpProtect_spec (lo : Nat) (pv : PR) (arr : Array PR) (a b : Nat)
    (hsz : b ≤ arr.size) (hloa : lo < a) (hlob : lo < b)
    (hpv : aget arr lo = pv)
    (hLEall : ∀ x, lo + 1 ≤ x → x < b → byLabelLess pv (aget arr x) = false) :
    ∃ arr2 b2, dpProtect lo arr a b = (arr2, b2) ∧
      arr2.size = arr.size ∧
      (∀ k, k < a ∨ b ≤ k → aget arr2 k = aget arr k) ∧
      b2 ≤ b ∧ lo < b2 ∧
      aget arr2 lo = pv ∧
      (∀ x, lo + 1 ≤ x → x < b2 → byLabelLess pv (aget arr2 x) = false) ∧
      (∀ x, b2 ≤ x → x < b →
        byLabelLess pv (aget arr2 x) = false ∧ byLabelLess (aget arr2 x) pv = false) ∧
      arr2.toList.Perm arr.toList := by
  exact dpProtect_go_spec lo pv (b - a + 1) arr a b hsz hloa hlob (by omega) hpv hLEall

theorem doPivot_spec (arr : Array PR) (lo hi : Nat)
    (hsize : hi ≤ arr.size) (hgap : 12 < hi - lo) :
    ∃ arr2 mlo mhi, doPivot arr lo hi = (arr2, mlo, mhi) ∧
      arr2.size = arr.size ∧
      (∀ k, k < lo ∨ hi ≤ k → aget arr2 k = aget arr k) ∧
      lo ≤ mlo ∧ mlo < mhi ∧ mhi ≤ hi ∧
      (∀ x, lo ≤ x → x < mlo →
        byLabelLess (aget arr2 mlo) (aget arr2 x) = false) ∧
      (∀ x, mlo ≤ x → x < mhi →
        byLabelLess (aget arr2 mlo) (aget arr2 x) = false ∧
        byLabelLess (aget arr2 x) (aget arr2 mlo) = false) ∧
      (∀ x, mhi ≤ x → x < hi →
        byLabelLess (aget arr2 x) (aget arr2 mlo) = false) ∧
      arr2.toList.Perm arr.toList := by
  simp only [doPivot, dpLoop]
  set A0 := doPivotInit arr lo hi with hA0def
  have hszA0 : A0.size = arr.size := doPivotInit_size arr lo hi
  have hframeA0 : ∀ k, k < lo ∨ hi ≤ k → aget A0 k = aget arr k :=
    doPivotInit_frame arr lo hi (by omega)
  have hpermA0 : A0.toList.Perm arr.toList := doPivotInit_perm arr lo hi
  obtain ⟨hpostm, hposthi⟩ := doPivotInit_post arr lo hi (by omega) hsize
  set pv := aget A0 lo with hpvdef
  obtain ⟨hAle, hAc, hAreg, _⟩ :=
    dpScanA_spec A0 lo (hi - 1) (hi - 1) (lo + 1) (by omega)
  set a := dpScanA A0 lo (hi - 1) (hi - 1) (lo + 1) with hadef
  have hahi : a ≤ hi - 1 := hAc (by omega)
  obtain ⟨hszL, hbLle, hbceq, hcLle, hframeL, hregL⟩ :=
    dpLoop_go_spec lo pv (hi - 1 - a + 1) A0 a (hi - 1) (by omega) hahi (by omega)
      (by omega)
  obtain ⟨hLEloop, hGEloop⟩ := hregL rfl
  set AL := (dpLoop.go lo (hi - 1 - a + 1) A0 a (hi - 1)).1 with hALdef
  set bL := (dpLoop.go lo (hi - 1 - a + 1) A0 a (hi - 1)).2.1 with hbLdef
  set cL := (dpLoop.go lo (hi - 1 - a + 1) A0 a (hi - 1)).2.2 with hcLdef
  have hpvL : aget AL lo = pv := by
    rw [hframeL lo (Or.inl (by omega))]
  have hLE_L : ∀ x, lo + 1 ≤ x → x < bL → byLabelLess pv (aget AL x) = false := by
    intro x h1 h2
    rcases Nat.lt_or_ge x a with hx | hx
    · rw [hframeL x (Or.inl hx)]
      have := hAreg x h1 hx
      rw [aless_eq, ← hpvdef] at this
      exact byLabelLess_asymm this
    · exact hLEloop x hx h2
  have hGE_L : ∀ x, cL ≤ x → x < hi - 1 → byLabelLess (aget AL x) pv = false :=
    hGEloop
  have hHI_L : byLabelLess (aget AL (hi - 1)) pv = false := by
    rw [hframeL (hi - 1) (Or.inr le_rfl)]
    rw [aless_eq, ← hpvdef] at hposthi
    exact hposthi
  obtain ⟨AM, bM, cM, pM, heqM, hszM, hframeM, hbMlo, hbMle, hcMge, hcMhi, hpvM,
    hLE_M, hMID_M, hGE_M, hpermM⟩ :=
    doPivotMid_spec AL lo hi bL cL pv (by omega) hgap (by omega) hbceq (by omega)
      hpvL hLE_L hGE_L hHI_L
  rw [heqM]
  simp only []
  have hfinal : ∀ (AP : Array PR) (bP : Nat),
      AP.size = arr.size →
      (∀ k, k < lo ∨ hi ≤ k → aget AP k = aget arr k) →
      lo < bP → bP ≤ bM →
      aget AP lo = pv →
      (∀ x, lo + 1 ≤ x → x < bP → byLabelLess pv (aget AP x) = false) →
      (∀ x, bP ≤ x → x < cM →
        byLabelLess pv (aget AP x) = false ∧ byLabelLess (aget AP x) pv = false) →
      (∀ x, cM ≤ x → x < hi → byLabelLess (aget AP x) pv = false) →
      AP.toList.Perm arr.toList →
      ∃ arr2 mlo mhi, (aswap AP lo (bP - 1), bP - 1, cM) = (arr2, mlo, mhi) ∧
        arr2.size = arr.size ∧
        (∀ k, k < lo ∨ hi ≤ k → aget arr2 k = aget arr k) ∧
        lo ≤ mlo ∧ mlo < mhi ∧ mhi ≤ hi ∧
        (∀ x, lo ≤ x → x < mlo →
          byLabelLess (aget arr2 mlo) (aget arr2 x) = false) ∧
        (∀ x, mlo ≤ x → x < mhi →
          byLabelLess (aget arr2 mlo) (aget arr2 x) = false ∧
          byLabelLess (aget arr2 x) (aget arr2 mlo) = false) ∧
        (∀ x, mhi ≤ x → x < hi →
          byLabelLess (aget arr2 x) (aget arr2 mlo) = false) ∧
        arr2.toList.Perm arr.toList := by
    intro AP bP hszP hframeP hbPlo hbPle hpvP hL_P hM_P hH_P hpermP
    have hlosz : lo < AP.size := by omega
    have hbP1sz : bP - 1 < AP.size := by omega
    have hpvF : aget (aswap AP lo (bP - 1)) (bP - 1) = pv := by
      rw [aget_aswap_right AP lo (bP - 1) hlosz hbP1sz]
      exact hpvP
    refine ⟨aswap AP lo (bP - 1), bP - 1, cM, rfl, by rw [aswap_size, hszP], ?_,
      by omega, by omega, hcMhi, ?_, ?_, ?_,
      (aswap_perm _ _ _).trans hpermP⟩
    · intro k hk
      rw [aget_aswap_other AP lo (bP - 1) k (by omega) (by omega)]
      exact hframeP k hk
    · intro x h1 h2
      rw [hpvF]
      rcases Nat.eq_or_lt_of_le h1 with he | he
      · rw [← he, aget_aswap_left AP lo (bP - 1) hlosz hbP1sz]
        exact hL_P (bP - 1) (by omega) (by omega)
      · rw [aget_aswap_other AP lo (bP - 1) x (by omega) (by omega)]
        exact hL_P x (by omega) (by omega)
    · intro x h1 h2
      rw [hpvF]
      rcases Nat.eq_or_lt_of_le h1 with he | he
      · rw [← he, hpvF]
        exact ⟨byLabelLess_irrefl pv, byLabelLess_irrefl pv⟩
      · rw [aget_aswap_other AP lo (bP - 1) x (by omega) (by omega)]
        exact hM_P x (by omega) h2
    · intro x h1 h2
      rw [hpvF]
      rw [aget_aswap_other AP lo (bP - 1) x (by omega) (by omega)]
      exact hH_P x h1 h2
  have hpermL : AL.toList.Perm A0.toList := dpLoop_go_perm lo _ _ _ A0
  rcases hp : pM with _ | _
  · rw [if_neg Bool.false_ne_true]
    simp only []
    refine hfinal AM bM (by rw [hszM, hszL, hszA0]) ?_ (by omega) le_rfl hpvM
      hLE_M hMID_M hGE_M (hpermM.trans (hpermL.trans hpermA0))
    intro k hk
    rw [hframeM k (by omega), hframeL k (by omega)]
    exact hframeA0 k hk
  · rw [if_pos rfl]
    obtain ⟨AP, bP, heqP, hszP, hframeP, hbPle, hloP, hpvP, hL_P, hM_P, hpermP⟩ :=
      dpProtect_spec lo pv AM a bM (by omega) (by omega) (by omega) hpvM hLE_M
    rw [heqP]
    simp only []
    refine hfinal AP bP (by rw [hszP, hszM, hszL, hszA0]) ?_ hloP hbPle hpvP
      hL_P ?_ ?_ (hpermP.trans (hpermM.trans (hpermL.trans hpermA0)))
    · intro k hk
      rw [hframeP k (by omega), hframeM k (by omega), hframeL k (by omega)]
      exact hframeA0 k hk
    · intro x h1 h2
      rcases Nat.lt_or_ge x bM with hx | hx
      · exact hM_P x h1 hx
      · rw [hframeP x (Or.inr hx)]
        exact hMID_M x hx h2
    · intro x h1 h2
      rw [hframeP x (Or.inr (by omega))]
      exact hGE_M x h1 h2

theorem HeapAnc.ge {r i : Nat} (h : HeapAnc r i) : r ≤ i := by
  induction h with
  | refl => exact le_rfl
  | left _ ih => omega
  | right _ ih => omega

theorem HeapAnc.lower {r i : Nat} (h : HeapAnc r i) : i = r ∨ 2 * r + 1 ≤ i := by
  induction h with
  | refl => exact Or.inl rfl
  | left h ih =>
    right
    have := h.ge
    omega
  | right h ih =>
    right
    have := h.ge
    omega

theorem HeapAnc.trans {a b c : Nat} (h1 : HeapAnc a b) (h2 : HeapAnc b c) : HeapAnc a c := by
  induction h2 with
  | refl => exact h1
  | left _ ih => exact .left ih
  | right _ ih => exact .right ih

theorem HeapAnc.zero : ∀ i, HeapAnc 0 i := by
  intro i
  induction i using Nat.strong_induction_on with
  | _ i ih =>
    match i with
    | 0 => exact .refl 0
    | Nat.succ j =>
      show HeapAnc 0 (j + 1)
      have hp : HeapAnc 0 ((j + 1 - 1) / 2) := ih ((j + 1 - 1) / 2) (by omega)
      rcases Nat.even_or_odd j with he | ho
      · -- j+1 odd: j+1 = 2*(j/2)+1
        obtain ⟨m, hm⟩ := he
        have : j + 1 = 2 * ((j + 1 - 1) / 2) + 1 := by omega
        rw [this]
        exact .left hp
      · -- j+1 even: j+1 = 2*((j-1)/2)+2
        obtain ⟨m, hm⟩ := ho
        have : j + 1 = 2 * ((j + 1 - 1) / 2) + 2 := by omega
        rw [this]
        exact .right hp

theorem heap_dominates (arr : Array PR) (first hi r : Nat)
    (hheap : ∀ j, r ≤ j → heapAt arr first hi j) :
    ∀ i, HeapAnc r i → i < hi →
      byLabelLess (aget arr (first + r)) (aget arr (first + i)) = false := by
  intro i hanc
  induction hanc with
  | refl => intro _; exact byLabelLess_irrefl _
  | left h ih =>
    rename_i i'
    intro hlt
    have hi' : i' < hi := by omega
    have hstep := (hheap i' (h.ge)).1 hlt
    rw [aless_eq] at hstep
    exact byLabelLess_neg_trans hstep (ih hi')
  | right h ih =>
    rename_i i'
    intro hlt
    have hi' : i' < hi := by omega
    have hstep := (hheap i' (h.ge)).2 hlt
    rw [aless_eq] at hstep
    exact byLabelLess_neg_trans hstep (ih hi')

theorem siftDownGo_spec (first : Nat) : ∀ (fuel root hi : Nat) (arr : Array PR),
    first + hi ≤ arr.size → hi - root ≤ fuel →
    (∀ i, root < i → heapAt arr first hi i) →
    (siftDownGo first arr root hi fuel).size = arr.size ∧
    (∀ k, (∀ i, HeapAnc root i → i < hi → k ≠ first + i) →
      aget (siftDownGo first arr root hi fuel) k = aget arr k) ∧
    (∀ i, root ≤ i → heapAt (siftDownGo first arr root hi fuel) first hi i) ∧
    (∀ v : PR,
      (∀ i, HeapAnc root i → i < hi → byLabelLess v (aget arr (first + i)) = false) →
      ∀ i, HeapAnc root i → i < hi →
        byLabelLess v (aget (siftDownGo first arr root hi fuel) (first + i)) = false) := by
  intro fuel
  induction fuel with
  | zero =>
    intro root hi arr hsz hfuel hpre
    rw [siftDownGo]
    refine ⟨rfl, fun k _ => rfl, ?_, fun v P i h1 h2 => P i h1 h2⟩
    intro i hri
    rcases Nat.eq_or_lt_of_le hri with he | he
    · exact ⟨fun h => by omega, fun h => by omega⟩
    · exact hpre i he
  | succ fuel ih =>
    intro root hi arr hsz hfuel hpre
    simp only [siftDownGo]
    split
    · rename_i hch
      refine ⟨rfl, fun k _ => rfl, ?_, fun v P i h1 h2 => P i h1 h2⟩
      intro i hri
      rcases Nat.eq_or_lt_of_le hri with he | he
      · exact ⟨fun h => by omega, fun h => by omega⟩
      · exact hpre i he
    · rename_i hch
      have hc0hi : 2 * root + 1 < hi := by omega
      have h22 : 2 * root + 1 + 1 = 2 * root + 2 := by omega
      -- shared treatment of the branch that stops without swapping
      have hstopcase : ∀ (ch : Nat), (ch = 2 * root + 1 ∨ ch = 2 * root + 1 + 1) →
          ch < hi → aless arr (first + root) (first + ch) = false →
          (∀ c2, (c2 = 2 * root + 1 ∨ c2 = 2 * root + 1 + 1) → c2 < hi →
            byLabelLess (aget arr (first + ch)) (aget arr (first + c2)) = false) →
          ∀ i, root ≤ i → heapAt arr first hi i := by
        intro ch hform hchhi hstop hdom i hri
        rcases Nat.eq_or_lt_of_le hri with he | he
        · rw [← he]
          rw [aless_eq] at hstop
          constructor
          · intro h2i
            rw [aless_eq]
            exact byLabelLess_neg_trans (hdom (2 * root + 1) (Or.inl rfl) h2i) hstop
          · intro h2i
            rw [aless_eq]
            have := byLabelLess_neg_trans
              (hdom (2 * root + 1 + 1) (Or.inr rfl) (by omega)) hstop
            rw [h22] at this
            exact this
        · exact hpre i he
      -- shared treatment of the swap-and-recurse branch
      have hmain : ∀ (ch : Nat), (ch = 2 * root + 1 ∨ ch = 2 * root + 1 + 1) →
          ch < hi → aless arr (first + root) (first + ch) = true →
          (∀ c2, (c2 = 2 * root + 1 ∨ c2 = 2 * root + 1 + 1) → c2 < hi →
            byLabelLess (aget arr (first + ch)) (aget arr (first + c2)) = false) →
          (siftDownGo first (aswap arr (first + root) (first + ch)) ch hi fuel).size
              = arr.size ∧
          (∀ k, (∀ i, HeapAnc root i → i < hi → k ≠ first + i) →
            aget (siftDownGo first (aswap arr (first + root) (first + ch)) ch hi fuel) k
              = aget arr k) ∧
          (∀ i, root ≤ i →
            heapAt (siftDownGo first (aswap arr (first + root) (first + ch)) ch hi fuel)
              first hi i) ∧
          (∀ v : PR,
            (∀ i, HeapAnc root i → i < hi →
              byLabelLess v (aget arr (first + i)) = false) →
            ∀ i, HeapAnc root i → i < hi →
              byLabelLess v
                (aget (siftDownGo first (aswap arr (first + root) (first + ch)) ch hi fuel)
                  (first + i)) = false) := by
        intro ch hform hchhi htest hdom
        have hrch : root < ch := by omega
        have hrsz : first + root < arr.size := by omega
        have hcsz : first + ch < arr.size := by omega
        have hanc_ch : HeapAnc root ch := by
          rcases hform with he | he
          · rw [he]
            exact .left (.refl root)
          · rw [he, h22]
            exact .right (.refl root)
        have hpre2 : ∀ i, ch < i →
            heapAt (aswap arr (first + root) (first + ch)) first hi i := by
          intro i hchi
          obtain ⟨hL, hR⟩ := hpre i (by omega)
          constructor
          · intro h2i
            rw [aless_eq, aget_aswap_other arr _ _ _ (by omega) (by omega),
              aget_aswap_other arr _ _ _ (by omega) (by omega)]
            have := hL h2i
            rw [aless_eq] at this
            exact this
          · intro h2i
            rw [aless_eq, aget_aswap_other arr _ _ _ (by omega) (by omega),
              aget_aswap_other arr _ _ _ (by omega) (by omega)]
            have := hR h2i
            rw [aless_eq] at this
            exact this
        obtain ⟨hszr, hframer, hheapr, hboundr⟩ :=
          ih ch hi (aswap arr (first + root) (first + ch))
            (by rw [aswap_size]; exact hsz) (by omega) hpre2
        have hframer' : ∀ k, (∀ i, HeapAnc ch i → i < hi → k ≠ first + i) →
            aget (siftDownGo first (aswap arr (first + root) (first + ch)) ch hi fuel) k
              = aget (aswap arr (first + root) (first + ch)) k := hframer
        have hRroot :
            aget (siftDownGo first (aswap arr (first + root) (first + ch)) ch hi fuel)
              (first + root) = aget arr (first + ch) := by
          rw [hframer' (first + root) ?_, aget_aswap_left arr _ _ hrsz hcsz]
          intro i hanc hihi
          have := hanc.lower
          omega
        have hdomsub : ∀ j, HeapAnc ch j → j < hi →
            byLabelLess (aget arr (first + ch)) (aget arr (first + j)) = false :=
          heap_dominates arr first hi ch (fun j hj => hpre j (by omega))
        have hP2 : ∀ j, HeapAnc ch j → j < hi →
            byLabelLess (aget arr (first + ch))
              (aget (aswap arr (first + root) (first + ch)) (first + j)) = false := by
          intro j hanc hjhi
          by_cases hjch : j = ch
          · rw [hjch, aget_aswap_right arr _ _ hrsz hcsz]
            rw [aless_eq] at htest
            exact byLabelLess_asymm htest
          · have hlow := hanc.lower
            rw [aget_aswap_other arr _ _ _ (by omega) (by omega)]
            exact hdomsub j hanc hjhi
        have hbnd := hboundr (aget arr (first + ch)) hP2
        have hcell : ∀ c2, (c2 = 2 * root + 1 ∨ c2 = 2 * root + 1 + 1) → c2 < hi →
            byLabelLess (aget arr (first + ch))
              (aget (siftDownGo first (aswap arr (first + root) (first + ch)) ch hi fuel)
                (first + c2)) = false := by
          intro c2 hc2form hc2hi
          by_cases hc2ch : c2 = ch
          · rw [hc2ch]
            exact hbnd ch (.refl ch) hchhi
          · rw [hframer' (first + c2) ?_,
              aget_aswap_other arr _ _ _ (by omega) (by omega)]
            · exact hdom c2 hc2form hc2hi
            · intro i hanc hihi
              have := hanc.lower
              omega
        refine ⟨by rw [hszr, aswap_size], ?_, ?_, ?_⟩
        · intro k hk
          rw [hframer' k ?_, aget_aswap_other arr _ _ _ ?_ ?_]
          · exact hk root (.refl root) (by omega)
          · exact hk ch hanc_ch hchhi
          · intro i hanc hihi
            exact hk i (hanc_ch.trans hanc) hihi
        · intro i hri
          rcases Nat.eq_or_lt_of_le hri with he | he
          · rw [← he]
            constructor
            · intro h2i
              rw [aless_eq, hRroot]
              exact hcell (2 * root + 1) (Or.inl rfl) h2i
            · intro h2i
              rw [aless_eq, hRroot, ← h22]
              exact hcell (2 * root + 1 + 1) (Or.inr rfl) (by omega)
          · rcases Nat.lt_or_ge i ch with hic | hic
            · -- the sibling strictly between root and the chosen child
              have huntouched : ∀ y, root < y → y < 2 * ch + 1 → y ≠ ch →
                  aget (siftDownGo first
                      (aswap arr (first + root) (first + ch)) ch hi fuel)
                    (first + y) = aget arr (first + y) := by
                intro y hy1 hy2 hy3
                rw [hframer' (first + y) ?_,
                  aget_aswap_other arr _ _ _ (by omega) (by omega)]
                intro j hanc hjhi
                have := hanc.lower
                omega
              obtain ⟨hL, hR⟩ := hpre i he
              constructor
              · intro h2i
                rw [aless_eq, huntouched i (by omega) (by omega) (by omega),
                  huntouched (2 * i + 1) (by omega) (by omega) (by omega)]
                have := hL h2i
                rw [aless_eq] at this
                exact this
              · intro h2i
                rw [aless_eq, huntouched i (by omega) (by omega) (by omega),
                  huntouched (2 * i + 2) (by omega) (by omega) (by omega)]
                have := hR h2i
                rw [aless_eq] at this
                exact this
            · exact hheapr i hic
        · intro v P i hanc hihi
          have hP2v : ∀ j, HeapAnc ch j → j < hi →
              byLabelLess v
                (aget (aswap arr (first + root) (first + ch)) (first + j)) = false := by
            intro j hancj hjhi
            by_cases hjch : j = ch
            · rw [hjch, aget_aswap_right arr _ _ hrsz hcsz]
              exact P root (.refl root) (by omega)
            · have := hancj.lower
              rw [aget_aswap_other arr _ _ _ (by omega) (by omega)]
              exact P j (hanc_ch.trans hancj) hjhi
          by_cases hdesc : HeapAnc ch i
          · exact hboundr v hP2v i hdesc hihi
          · rw [hframer' (first + i) ?_]
            · by_cases hiroot : i = root
              · rw [hiroot, aget_aswap_left arr _ _ hrsz hcsz]
                exact P ch hanc_ch hchhi
              · have hich : i ≠ ch := fun he' => hdesc (he' ▸ .refl ch)
                rw [aget_aswap_other arr _ _ _ (by omega) (by omega)]
                exact P i hanc hihi
            · intro j hancj hjhi
              intro he'
              have hij : i = j := by omega
              exact hdesc (hij ▸ hancj)
      split
      · rename_i hsel
        rw [Bool.and_eq_true] at hsel
        obtain ⟨hsellt, hseltest⟩ := hsel
        have hsellt' : 2 * root + 1 + 1 < hi := by simpa using hsellt
        have hIdx : first + (2 * root + 1) + 1 = first + (2 * root + 1 + 1) := by omega
        rw [hIdx] at hseltest
        have hdom : ∀ c2, (c2 = 2 * root + 1 ∨ c2 = 2 * root + 1 + 1) → c2 < hi →
            byLabelLess (aget arr (first + (2 * root + 1 + 1)))
              (aget arr (first + c2)) = false := by
          intro c2 hc2 hc2hi
          rcases hc2 with he | he
          · rw [he]
            rw [aless_eq] at hseltest
            exact byLabelLess_asymm hseltest
          · rw [he]
            exact byLabelLess_irrefl _
        split
        · rename_i hstop
          have hstop' : aless arr (first + root) (first + (2 * root + 1 + 1)) = false := by
            simpa using hstop
          exact ⟨rfl, fun k _ => rfl,
            hstopcase (2 * root + 1 + 1) (Or.inr rfl) hsellt' hstop' hdom,
            fun v P i h1 h2 => P i h1 h2⟩
        · rename_i hstop
          have htest : aless arr (first + root) (first + (2 * root + 1 + 1)) = true := by
            simpa using hstop
          exact hmain (2 * root + 1 + 1) (Or.inr rfl) hsellt' htest hdom
      · rename_i hsel
        have hsel' : (decide (2 * root + 1 + 1 < hi) &&
            aless arr (first + (2 * root + 1)) (first + (2 * root + 1) + 1)) = false := by
          simpa using hsel
        rw [Bool.and_eq_false_iff] at hsel'
        have hdom : ∀ c2, (c2 = 2 * root + 1 ∨ c2 = 2 * root + 1 + 1) → c2 < hi →
            byLabelLess (aget arr (first + (2 * root + 1)))
              (aget arr (first + c2)) = false := by
          intro c2 hc2 hc2hi
          rcases hc2 with he | he
          · rw [he]
            exact byLabelLess_irrefl _
          · rcases hsel' with hc | hc
            · simp only [decide_eq_false_iff_not] at hc
              omega
            · rw [he]
              have hIdx : first + (2 * root + 1) + 1 = first + (2 * root + 1 + 1) := by
                omega
              rw [aless_eq, hIdx] at hc
              exact hc
        split
        · rename_i hstop
          have hstop' : aless arr (first + root) (first + (2 * root + 1)) = false := by
            simpa using hstop
          exact ⟨rfl, fun k _ => rfl,
            hstopcase (2 * root + 1) (Or.inl rfl) hc0hi hstop' hdom,
            fun v P i h1 h2 => P i h1 h2⟩
        · rename_i hstop
          have htest : aless arr (first + root) (first + (2 * root + 1)) = true := by
            simpa using hstop
          exact hmain (2 * root + 1) (Or.inl rfl) hc0hi htest hdom

theorem heapBuild_spec (first hi : Nat) : ∀ (count : Nat) (arr : Array PR),
    first + hi ≤ arr.size →
    (∀ i, count ≤ i → heapAt arr first hi i) →
    (heapBuild first hi arr count).size = arr.size ∧
    (∀ k, k < first ∨ first + hi ≤ k →
      aget (heapBuild first hi arr count) k = aget arr k) ∧
    (∀ i, heapAt (heapBuild first hi arr count) first hi i) := by
  intro count
  induction count with
  | zero =>
    intro arr hsz hpre
    rw [heapBuild]
    exact ⟨rfl, fun k _ => rfl, fun i => hpre i (Nat.zero_le i)⟩
  | succ count ih =>
    intro arr hsz hpre
    rw [heapBuild]
    obtain ⟨hszs, hframes, hheaps, _⟩ :=
      siftDownGo_spec first (hi + 1) count hi arr hsz (by omega)
        (fun i hi' => hpre i (by omega))
    obtain ⟨hszr, hframer, hheapr⟩ :=
      ih (siftDownGo first arr count hi (hi + 1)) (by rw [hszs]; exact hsz)
        (fun i hi' => hheaps i hi')
    refine ⟨by rw [hszr, hszs], ?_, hheapr⟩
    intro k hk
    rw [hframer k hk, hframes k ?_]
    intro i hanc hihi
    omega

theorem heapPop_spec (first hi : Nat) : ∀ (count : Nat) (arr : Array PR),
    first + hi ≤ arr.size → count ≤ hi →
    (∀ i, heapAt arr first count i) →
    sortedRange arr (first + count) (first + hi) →
    (∀ x y, x < count → count ≤ y → y < hi →
      aless arr (first + y) (first + x) = false) →
    (heapPop first arr count).size = arr.size ∧
    (∀ k, k < first ∨ first + count ≤ k →
      aget (heapPop first arr count) k = aget arr k) ∧
    sortedRange (heapPop first arr count) first (first + hi) := by
  intro count
  induction count with
  | zero =>
    intro arr hsz hchi hπ1 hπ2 hπ3
    rw [heapPop]
    refine ⟨rfl, fun k _ => rfl, ?_⟩
    intro i j h1 h2 h3
    exact hπ2 i j (by omega) h2 h3
  | succ count ih =>
    intro arr hsz hchi hπ1 hπ2 hπ3
    rw [heapPop]
    have hfcsz : first + count < arr.size := by omega
    have hfsz : first < arr.size := by omega
    have hmax : ∀ j, j < count + 1 →
        byLabelLess (aget arr first) (aget arr (first + j)) = false := by
      intro j hj
      have := heap_dominates arr first (count + 1) 0 (fun j' _ => hπ1 j') j
        (HeapAnc.zero j) hj
      rw [Nat.add_zero] at this
      exact this
    -- after the swap, the old maximum sits at first+count
    have hswL : aget (aswap arr first (first + count)) first = aget arr (first + count) :=
      aget_aswap_left arr _ _ hfsz hfcsz
    have hswR : aget (aswap arr first (first + count)) (first + count) = aget arr first :=
      aget_aswap_right arr _ _ hfsz hfcsz
    have hswO : ∀ k, k ≠ first → k ≠ first + count →
        aget (aswap arr first (first + count)) k = aget arr k := fun k h1 h2 =>
      aget_aswap_other arr _ _ k h1 h2
    obtain ⟨hszs, hframes, hheaps, _⟩ :=
      siftDownGo_spec first (count + 1) 0 count (aswap arr first (first + count))
        (by rw [aswap_size]; omega) (by omega)
        (by
          intro i h0i
          by_cases hic : i < count
          · obtain ⟨hL, hR⟩ := hπ1 i
            constructor
            · intro h2i
              rw [aless_eq, hswO _ (by omega) (by omega), hswO _ (by omega) (by omega)]
              have := hL (by omega)
              rw [aless_eq] at this
              exact this
            · intro h2i
              rw [aless_eq, hswO _ (by omega) (by omega), hswO _ (by omega) (by omega)]
              have := hR (by omega)
              rw [aless_eq] at this
              exact this
          · exact ⟨fun h => absurd h (by omega), fun h => absurd h (by omega)⟩)
    have hframeS : ∀ k, k < first ∨ first + count ≤ k →
        aget (siftDownGo first (aswap arr first (first + count)) 0 count (count + 1)) k
          = aget (aswap arr first (first + count)) k := by
      intro k hk
      refine hframes k ?_
      intro i hanc hihi
      omega
    have hpermS :
        (siftDownGo first (aswap arr first (first + count)) 0 count (count + 1)).toList.Perm
          (aswap arr first (first + count)).toList :=
      siftDownGo_perm first (count + 1) 0 count (aswap arr first (first + count))
    have hScount :
        aget (siftDownGo first (aswap arr first (first + count)) 0 count (count + 1))
          (first + count) = aget arr first := by
      rw [hframeS (first + count) (Or.inr le_rfl), hswR]
    have hShigh : ∀ y, count ≤ y → y < hi →
        aget (siftDownGo first (aswap arr first (first + count)) 0 count (count + 1))
          (first + y) = aget (aswap arr first (first + count)) (first + y) := by
      intro y h1 h2
      exact hframeS (first + y) (Or.inr (by omega))
    -- the sifted prefix stays bounded by values in the suffix
    have hπ3' : ∀ x y, x < count → count ≤ y → y < hi →
        aless (siftDownGo first (aswap arr first (first + count)) 0 count (count + 1))
          (first + y) (first + x) = false := by
      intro x y hx hy1 hy2
      rw [aless_eq]
      have htrans := @range_property_transfer (aswap arr first (first + count))
        (siftDownGo first (aswap arr first (first + count)) 0 count (count + 1))
        (by rw [hszs]) hpermS first (first + count) (by rw [aswap_size]; omega)
        hframeS
        (fun w => byLabelLess
          (aget (siftDownGo first (aswap arr first (first + count)) 0 count (count + 1))
            (first + y)) w = false)
        ?_ (first + x) (by omega) (by omega)
      · exact htrans
      · intro k hk1 hk2
        by_cases hkf : k = first
        · rw [hkf, hswL]
          rcases Nat.eq_or_lt_of_le hy1 with he | he
          · rw [← he, hScount]
            exact hmax count (by omega)
          · rw [hShigh y hy1 hy2, hswO _ (by omega) (by omega)]
            have := hπ3 count y (by omega) (by omega) hy2
            rw [aless_eq] at this
            exact this
        · have hkform : k = first + (k - first) := by omega
          have hkj : 0 < k - first ∧ k - first < count := by omega
          rw [hkform, hswO _ (by omega) (by omega)]
          rcases Nat.eq_or_lt_of_le hy1 with he | he
          · rw [← he, hScount]
            exact hmax (k - first) (by omega)
          · rw [hShigh y hy1 hy2, hswO _ (by omega) (by omega)]
            have := hπ3 (k - first) y (by omega) (by omega) hy2
            rw [aless_eq] at this
            exact this
    obtain ⟨hszr, hframer, hsortedr⟩ :=
      ih (siftDownGo first (aswap arr first (first + count)) 0 count (count + 1))
        (by rw [hszs, aswap_size]; exact hsz) (by omega)
        (fun i => hheaps i (Nat.zero_le i))
        (by
          intro i j h1 h2 h3
          rw [aless_eq]
          have hjc : first + count < j := by omega
          have hjv : aget (siftDownGo first (aswap arr first (first + count)) 0 count
              (count + 1)) j = aget arr j := by
            rw [hframeS j (Or.inr (by omega)), hswO _ (by omega) (by omega)]
          rcases Nat.eq_or_lt_of_le h1 with he | he
          · rw [← he, hScount, hjv]
            have := hπ3 0 (j - first) (by omega) (by omega) (by omega)
            rw [aless_eq, Nat.add_zero] at this
            have hjf : first + (j - first) = j := by omega
            rw [hjf] at this
            exact this
          · have hiv : aget (siftDownGo first (aswap arr first (first + count)) 0 count
                (count + 1)) i = aget arr i := by
              rw [hframeS i (Or.inr (by omega)), hswO _ (by omega) (by omega)]
            rw [hiv, hjv]
            have := hπ2 i j (by omega) h2 h3
            rw [aless_eq] at this
            exact this)
        hπ3'
    refine ⟨by rw [hszr, hszs, aswap_size], ?_, hsortedr⟩
    intro k hk
    rw [hframer k (by omega), hframeS k (by omega), hswO _ (by omega) (by omega)]

theorem heapSortGo_spec (arr : Array PR) (a b : Nat) (hab : a ≤ b) (hsz : b ≤ arr.size) :
    (heapSortGo arr a b).size = arr.size ∧
    (∀ k, k < a ∨ b ≤ k → aget (heapSortGo arr a b) k = aget arr k) ∧
    sortedRange (heapSortGo arr a b) a b := by
  simp only [heapSortGo]
  obtain ⟨hszb, hframeb, hheapb⟩ :=
    heapBuild_spec a (b - a) ((b - a - 1) / 2 + 1) arr (by omega)
      (fun i hi' => ⟨fun h => absurd h (by omega), fun h => absurd h (by omega)⟩)
  obtain ⟨hszp, hframep, hsortedp⟩ :=
    heapPop_spec a (b - a) (b - a) (heapBuild a (b - a) arr ((b - a - 1) / 2 + 1))
      (by omega) le_rfl hheapb
      (by intro i j h1 h2 h3; omega)
      (by intro x y h1 h2 h3; omega)
  refine ⟨by rw [hszp, hszb], ?_, ?_⟩
  · intro k hk
    rw [hframep k (by omega), hframeb k (by omega)]
  · intro i j h1 h2 h3
    exact hsortedp i j h1 h2 (by omega)

theorem shellPass_frame (a b : Nat) : ∀ (fuel i : Nat) (arr : Array PR), a + 6 ≤ i →
    (shellPass a b arr fuel i).size = arr.size ∧
    (∀ k, k < a ∨ b ≤ k → aget (shellPass a b arr fuel i) k = aget arr k) := by
  intro fuel
  induction fuel with
  | zero => intro i arr hi; exact ⟨rfl, fun k _ => rfl⟩
  | succ fuel ih =>
    intro i arr hi
    rw [shellPass]
    split
    · rename_i hib
      have hstep : ∀ (arr2 : Array PR), arr2.size = arr.size →
          (∀ k, k < a ∨ b ≤ k → aget arr2 k = aget arr k) →
          (shellPass a b arr2 fuel (i + 1)).size = arr.size ∧
          (∀ k, k < a ∨ b ≤ k →
            aget (shellPass a b arr2 fuel (i + 1)) k = aget arr k) := by
        intro arr2 hsz hfr
        obtain ⟨h1, h2⟩ := ih (i + 1) arr2 (by omega)
        exact ⟨by rw [h1, hsz], fun k hk => by rw [h2 k hk, hfr k hk]⟩
      split
      · exact hstep _ (aswap_size _ _ _)
          (fun k hk => aget_aswap_other arr _ _ k (by omega) (by omega))
      · exact hstep _ rfl (fun k _ => rfl)
    · exact ⟨rfl, fun k _ => rfl⟩

theorem sortedRange_congr {A A' : Array PR} (a b : Nat)
    (hfr : ∀ k, a ≤ k → k < b → aget A' k = aget A k)
    (hs : sortedRange A a b) : sortedRange A' a b := by
  intro x y hax hxy hyb
  rw [aless_eq, hfr x (by omega) (by omega), hfr y (by omega) hyb, ← aless_eq]
  exact hs x y hax hxy hyb

theorem sorted_partition_glue (A : Array PR) (a mlo mhi b : Nat) (pv : PR)
    (_h1 : a ≤ mlo) (_h2 : mlo < mhi) (_h3 : mhi ≤ b)
    (hL : ∀ x, a ≤ x → x < mlo → byLabelLess pv (aget A x) = false)
    (hM : ∀ x, mlo ≤ x → x < mhi →
      byLabelLess pv (aget A x) = false ∧ byLabelLess (aget A x) pv = false)
    (hH : ∀ x, mhi ≤ x → x < b → byLabelLess (aget A x) pv = false)
    (hsl : sortedRange A a mlo) (hsr : sortedRange A mhi b) :
    sortedRange A a b := by
  intro x y hax hxy hyb
  rcases Nat.lt_or_ge y mlo with hy | hy
  · exact hsl x y hax hxy hy
  · rcases Nat.lt_or_ge x mhi with hx | hx
    · rcases Nat.lt_or_ge x mlo with hx' | hx'
      · -- x in the low block, y in the middle or high block
        have hxv : byLabelLess pv (aget A x) = false := hL x hax hx'
        have hyv : byLabelLess (aget A y) pv = false := by
          rcases Nat.lt_or_ge y mhi with hy' | hy'
          · exact (hM y hy hy').2
          · exact hH y hy' hyb
        rw [aless_eq]
        exact byLabelLess_neg_trans hxv hyv
      · rcases Nat.lt_or_ge y mhi with hy' | hy'
        · -- both in the middle block
          rw [aless_eq]
          exact byLabelLess_neg_trans (hM x hx' hx).1 (hM y hy hy').2
        · -- x middle, y high
          rw [aless_eq]
          exact byLabelLess_neg_trans (hM x hx' hx).1 (hH y hy' hyb)
    · exact hsr x y hx hxy hyb

theorem quickSortGo_spec : ∀ (fuel : Nat) (arr : Array PR) (a b depth : Nat),
    b ≤ arr.size → b - a ≤ fuel →
    (quickSortGo fuel arr a b depth).size = arr.size ∧
    (∀ k, k < a ∨ b ≤ k → aget (quickSortGo fuel arr a b depth) k = aget arr k) ∧
    sortedRange (quickSortGo fuel arr a b depth) a b := by
  intro fuel
  induction fuel with
  | zero =>
    intro arr a b depth hsz hfuel
    rw [quickSortGo]
    exact ⟨rfl, fun k _ => rfl, fun x y hax hxy hyb => by omega⟩
  | succ fuel ih =>
    intro arr a b depth hsz hfuel
    simp only [quickSortGo]
    split
    · rename_i hgap
      split
      · rename_i hdepth
        exact heapSortGo_spec arr a b (by omega) hsz
      · rename_i hdepth
        obtain ⟨AP, mlo, mhi, heqP, hszP, hframeP, hmloge, hmlomhi, hmhile,
          hLP, hMP, hHP, hpermP⟩ := doPivot_spec arr a b hsz (by omega)
        rw [heqP]
        simp only []
        split
        · rename_i hside
          -- sort [a, mlo) first, then [mhi, b)
          obtain ⟨hsz2, hframe2, hsorted2⟩ :=
            ih AP a mlo (depth - 1) (by omega) (by omega)
          obtain ⟨hsz3, hframe3, hsorted3⟩ :=
            ih (quickSortGo fuel AP a mlo (depth - 1)) mhi b (depth - 1)
              (by rw [hsz2]; omega) (by omega)
          have hperm2 := quickSortGo_perm fuel AP a mlo (depth - 1)
          have hperm3 := quickSortGo_perm fuel
            (quickSortGo fuel AP a mlo (depth - 1)) mhi b (depth - 1)
          refine ⟨by rw [hsz3, hsz2, hszP], ?_, ?_⟩
          · intro k hk
            rw [hframe3 k (by omega), hframe2 k (by omega), hframeP k hk]
          · have hL3 : ∀ x, a ≤ x → x < mlo →
                byLabelLess (aget AP mlo)
                  (aget (quickSortGo fuel (quickSortGo fuel AP a mlo (depth - 1))
                    mhi b (depth - 1)) x) = false := by
              intro x hx1 hx2
              rw [hframe3 x (Or.inl (by omega))]
              exact range_property_transfer hsz2 hperm2 a mlo (by omega) hframe2
                (fun w => byLabelLess (aget AP mlo) w = false) hLP x hx1 hx2
            have hM3 : ∀ x, mlo ≤ x → x < mhi →
                byLabelLess (aget AP mlo)
                  (aget (quickSortGo fuel (quickSortGo fuel AP a mlo (depth - 1))
                    mhi b (depth - 1)) x) = false ∧
                byLabelLess
                  (aget (quickSortGo fuel (quickSortGo fuel AP a mlo (depth - 1))
                    mhi b (depth - 1)) x) (aget AP mlo) = false := by
              intro x hx1 hx2
              rw [hframe3 x (Or.inl (by omega)), hframe2 x (Or.inr (by omega))]
              exact hMP x hx1 hx2
            have hH3 : ∀ x, mhi ≤ x → x < b →
                byLabelLess
                  (aget (quickSortGo fuel (quickSortGo fuel AP a mlo (depth - 1))
                    mhi b (depth - 1)) x) (aget AP mlo) = false := by
              intro x hx1 hx2
              refine range_property_transfer hsz3 hperm3 mhi b (by rw [hsz2]; omega)
                hframe3 (fun w => byLabelLess w (aget AP mlo) = false) ?_ x hx1 hx2
              intro k hk1 hk2
              rw [hframe2 k (Or.inr (by omega))]
              exact hHP k hk1 hk2
            refine sorted_partition_glue _ a mlo mhi b (aget AP mlo)
              hmloge hmlomhi hmhile hL3 hM3 hH3 ?_ hsorted3
            refine sortedRange_congr a mlo ?_ hsorted2
            intro k hk1 hk2
            exact hframe3 k (Or.inl (by omega))
        · rename_i hside
          -- sort [mhi, b) first, then [a, mlo)
          obtain ⟨hsz2, hframe2, hsorted2⟩ :=
            ih AP mhi b (depth - 1) (by omega) (by omega)
          obtain ⟨hsz3, hframe3, hsorted3⟩ :=
            ih (quickSortGo fuel AP mhi b (depth - 1)) a mlo (depth - 1)
              (by rw [hsz2]; omega) (by omega)
          have hperm2 := quickSortGo_perm fuel AP mhi b (depth - 1)
          have hperm3 := quickSortGo_perm fuel
            (quickSortGo fuel AP mhi b (depth - 1)) a mlo (depth - 1)
          refine ⟨by rw [hsz3, hsz2, hszP], ?_, ?_⟩
          · intro k hk
            rw [hframe3 k (by omega), hframe2 k (by omega), hframeP k hk]
          · have hL3 : ∀ x, a ≤ x → x < mlo →
                byLabelLess (aget AP mlo)
                  (aget (quickSortGo fuel (quickSortGo fuel AP mhi b (depth - 1))
                    a mlo (depth - 1)) x) = false := by
              intro x hx1 hx2
              refine range_property_transfer hsz3 hperm3 a mlo (by rw [hsz2]; omega)
                hframe3 (fun w => byLabelLess (aget AP mlo) w = false) ?_ x hx1 hx2
              intro k hk1 hk2
              rw [hframe2 k (Or.inl (by omega))]
              exact hLP k hk1 hk2
            have hM3 : ∀ x, mlo ≤ x → x < mhi →
                byLabelLess (aget AP mlo)
                  (aget (quickSortGo fuel (quickSortGo fuel AP mhi b (depth - 1))
                    a mlo (depth - 1)) x) = false ∧
                byLabelLess
                  (aget (quickSortGo fuel (quickSortGo fuel AP mhi b (depth - 1))
                    a mlo (depth - 1)) x) (aget AP mlo) = false := by
              intro x hx1 hx2
              rw [hframe3 x (Or.inr (by omega)), hframe2 x (Or.inl (by omega))]
              exact hMP x hx1 hx2
            have hH3 : ∀ x, mhi ≤ x → x < b →
                byLabelLess
                  (aget (quickSortGo fuel (quickSortGo fuel AP mhi b (depth - 1))
                    a mlo (depth - 1)) x) (aget AP mlo) = false := by
              intro x hx1 hx2
              rw [hframe3 x (Or.inr (by omega))]
              exact range_property_transfer hsz2 hperm2 mhi b (by omega) hframe2
                (fun w => byLabelLess w (aget AP mlo) = false) hHP x hx1 hx2
            refine sorted_partition_glue _ a mlo mhi b (aget AP mlo)
              hmloge hmlomhi hmhile hL3 hM3 hH3 hsorted3 ?_
            refine sortedRange_congr mhi b ?_ hsorted2
            intro k hk1 hk2
            exact hframe3 k (Or.inr (by omega))
    · rename_i hgap
      split
      · rename_i hlen
        obtain ⟨hszS, hframeS⟩ := shellPass_frame a b b (a + 6) arr le_rfl
        obtain ⟨hszI, hsortedI, hframeI, _⟩ :=
          insertionSortGo_spec (shellPass a b arr b (a + 6)) a b (by rw [hszS]; exact hsz)
        refine ⟨by rw [hszI, hszS], ?_, hsortedI⟩
        intro k hk
        rw [hframeI k hk, hframeS k hk]
      · rename_i hlen
        exact ⟨rfl, fun k _ => rfl, fun x y hax hxy hyb => by omega⟩

theorem sortSort_spec (arr : Array PR) :
    (sortSort arr).size = arr.size ∧ sortedRange (sortSort arr) 0 arr.size := by
  obtain ⟨h1, _, h3⟩ := quickSortGo_spec (arr.size + goMaxDepth arr.size + 1) arr 0
    arr.size (goMaxDepth arr.size) le_rfl (by omega)
  exact ⟨h1, h3⟩

theorem sortSort_sortedByLabel (arr : Array PR) :
    sortedByLabel ((sortSort arr).toList) := by
  obtain ⟨hsz, hsorted⟩ := sortSort_spec arr
  rw [sortedByLabel, List.pairwise_iff_getElem]
  intro i j hi hj hij
  have hj' : j < arr.size := by
    rw [Array.length_toList, hsz] at hj
    exact hj
  have hi' : i < arr.size := by omega
  have := hsorted i j (Nat.zero_le i) hij hj'
  rw [aless_eq, aget_eq_toList _ _ (by simp only [Array.length_toList]; omega), aget_eq_toList _ _ (by simp only [Array.length_toList]; omega)] at this
  exact this

/-- Claim C2, amended: the PRs of the report are a permutation of the
fetched PRs arranged in nondecreasing label order under Go's lexicographic
string comparison; the comparison ignores everything but the label, and
ties preserve the original fetch order only when there are at most six
issues (the range fits the pure insertion-sort path of `sort.Sort`, which
is stable).  With seven or more issues the gap-6 shell pass of
`sort.Sort`'s small-range branch can reorder equal-labelled PRs. -/
theorem claim_C2_theorem (issues : List Issue) :
    sortedByLabel ((sortSort (prGrouperOf issues).toArray).toList) ∧
    ((sortSort (prGrouperOf issues).toArray).toList).Perm (prGrouperOf issues) ∧
    (issues.length ≤ 6 → ∀ lab,
      ((sortSort (prGrouperOf issues).toArray).toList).filter (fun p => p.Type' == lab) =
        (prGrouperOf issues).filter (fun p => p.Type' == lab)) := by
  refine ⟨sortSort_sortedByLabel _, ?_, ?_⟩
  · have h := sortSort_perm (prGrouperOf issues).toArray
    simpa using h
  · intro hlen lab
    have hsz : (prGrouperOf issues).toArray.size ≤ 6 := by
      have hrw : (prGrouperOf issues).toArray.size = (prGrouperOf issues).length := rfl
      rw [hrw, prGrouperOf, List.length_map]
      exact hlen
    rw [sortSort_small _ hsz]
    have hspec := insertionSortGo_spec (prGrouperOf issues).toArray 0
      (prGrouperOf issues).toArray.size le_rfl
    have hfil := hspec.2.2.2 lab
    rw [labelFilter, labelFilter] at hfil
    simpa using hfil

/-- Witness for `claim_C2_theorem`: on `issuesC2W` the report order is
label-sorted and the two `b`-labelled PRs keep their input order. -/
theorem claim_C2_witness :
    sortedByLabel ((sortSort (prGrouperOf issuesC2W).toArray).toList) ∧
    (((sortSort (prGrouperOf issuesC2W).toArray).toList).filter
      (fun p => p.Type' == "b")).map PR.Title = ["t1", "t2"] := by
  refine ⟨(claim_C2_theorem issuesC2W).1, ?_⟩
  rw [(claim_C2_theorem issuesC2W).2.2 (by decide) "b"]
  decide

/-- Claim C8, counterexample to the claim as stated: an issue with no
labels yields a PR whose distinct classification label is the empty
string, yet the report renders its bullet with no section header at all
(no `#` occurs), so the report is not a header line followed by one
headed section per distinct label. -/
theorem claim_C8_counterexample :
    prGrouperOf [⟨"t", "u", ([] : List String)⟩] = [⟨"t", "u", ""⟩] ∧
    groupedLabelContent "r" "c" "p" [⟨"t", "u", []⟩] = "r: c -- p\n* t - u\n" ∧
    ("r: c -- p\n* t - u\n").toList.all (fun c => c ≠ '#') = true := by
  refine ⟨by decide, by decide, by decide⟩

/-- Claim C8, amended: when every issue's classification label is
non-empty, the report is exactly the header line
`repo: currentRelease -- previousRelease` followed by the run rendering of
a label-sorted permutation of the fetched PRs: one `## <title-cased
label>` header per distinct label, placed immediately before that label's
first bullet `* <Title> - <URL>`, with no header repeated for consecutive
equal labels; the emitted headers are exactly the distinct labels in
order.  An empty classification label breaks this shape: its section is
rendered with no header. -/
theorem claim_C8_theorem (repo currentRelease previousRelease : String)
    (issues : List Issue) (hne : ∀ i ∈ issues, fetchLabel i.labels ≠ "") :
    ∃ prs : List PR,
      groupedLabelContent repo currentRelease previousRelease issues =
        repo ++ ": " ++ currentRelease ++ " -- " ++ previousRelease ++ "\n" ++
          renderRuns prs none ∧
      prs.Perm (prGrouperOf issues) ∧
      sortedByLabel prs ∧
      renderHeaders prs ["", "", ""] = firstDistincts (prs.map PR.Type') := by
  have hne' : ∀ p ∈ (sortSort (prGrouperOf issues).toArray).toList, p.Type' ≠ "" := by
    intro p hp
    have hmem : p ∈ prGrouperOf issues := by
      have h1 := @sortSort_mem (prGrouperOf issues).toArray p (by simpa using hp)
      simpa using h1
    rw [prGrouperOf, List.mem_map] at hmem
    obtain ⟨issue, hissue, hmap⟩ := hmem
    rw [← hmap]
    exact hne issue hissue
  refine ⟨(sortSort (prGrouperOf issues).toArray).toList, ?_, ?_,
    sortSort_sortedByLabel _, ?_⟩
  · unfold groupedLabelContent
    refine renderLoop_runs _ _ ["", "", ""] none hne' (sortSort_sortedByLabel _)
      ?_ ?_ ?_
    · intro x hx hxne
      simp at hx
      exact absurd hx hxne
    · intro d hd
      cases hd
    · intro x hx hxne q hq
      simp at hx
      exact absurd hx hxne
  · have h := sortSort_perm (prGrouperOf issues).toArray
    simpa using h
  · rw [renderHeaders_eq]
    apply List.filter_eq_self.mpr
    intro t htmem
    have htne : t ≠ "" := by
      have hmem := mem_firstDistincts _ t htmem
      rw [List.mem_map] at hmem
      obtain ⟨p, hp, hpt⟩ := hmem
      rw [← hpt]
      exact hne' p hp
    have hfalse : ContainsString ["", "", ""] t = false := by
      rw [Bool.eq_false_iff]
      intro hcs
      have hm := (ContainsString_iff _ _).mp hcs
      simp at hm
      exact htne hm
    rw [hfalse]
    rfl

/-- Witness for `claim_C8_theorem` at the spec's end-to-end example. -/
theorem claim_C8_witness :
    ∃ prs : List PR,
      groupedLabelContent "widget" "v1.1.0" "v1.0.0" issuesC8W =
        "widget" ++ ": " ++ "v1.1.0" ++ " -- " ++ "v1.0.0" ++ "\n" ++
          renderRuns prs none ∧
      prs.Perm (prGrouperOf issuesC8W) ∧
      sortedByLabel prs ∧
      renderHeaders prs ["", "", ""] = firstDistincts (prs.map PR.Type') :=
  claim_C8_theorem "widget" "v1.1.0" "v1.0.0" issuesC8W (by decide)
